import Mathlib

/-!
Verification of the Arabic-language compiler (lexer, parser, semantic
analyzer, code generator).  The Python sources are embedded shallowly:
each Python class method becomes a Lean function; the mutable object
state (lexer position, parser position, analyzer scopes, generator
emission state) is threaded explicitly; exceptions become `Except String`.
-/

namespace ArabicCompiler

/-! ## AST (ast_nodes.py) -/

mutual
inductive Expr where
  | number (value : Int)
  | ident (name : String)
  | binaryOp (left : Expr) (op : String) (right : Expr)
  | unaryOp (op : String) (value : Expr)
  | call (name : String) (args : List Expr)
deriving Repr
end

mutual
inductive Stmt where
  | varDecl (name : String) (value : Expr)
  | assign (name : String) (value : Expr)
  | ifStmt (condition : Expr) (thenBlock : List Stmt) (elseBlock : Option (List Stmt))
  | whileStmt (condition : Expr) (body : List Stmt)
  | ret (value : Expr)
  | printStmt (value : Expr)
  | callStmt (name : String) (args : List Expr)
deriving Repr
end

structure Func where
  name : String
  params : List String
  body : List Stmt
deriving Repr

structure Program where
  functions : List Func
deriving Repr

/-! ## Tokens (lexer.py) -/

inductive TokenType where
  | VAR | IF | ELSE | WHILE | FOR | FUNCTION | RETURN | PRINT
  | IDENTIFIER | NUMBER
  | PLUS | MINUS | MULTIPLY | DIVIDE | ASSIGN
  | EQ | NE | GT | LT | GE | LE
  | LPAREN | RPAREN | LBRACE | RBRACE | SEMICOLON | COMMA
  | EOF | NEWLINE
deriving Repr, DecidableEq

structure Token where
  type : TokenType
  value : Option String
  line : Nat
  column : Nat
deriving Repr, DecidableEq

/-- Name of a token type, used in parser error messages
(mirrors Python's `repr` of the enum member). -/
def ttName : TokenType → String
  | .VAR => "TokenType.VAR" | .IF => "TokenType.IF" | .ELSE => "TokenType.ELSE"
  | .WHILE => "TokenType.WHILE" | .FOR => "TokenType.FOR"
  | .FUNCTION => "TokenType.FUNCTION" | .RETURN => "TokenType.RETURN"
  | .PRINT => "TokenType.PRINT" | .IDENTIFIER => "TokenType.IDENTIFIER"
  | .NUMBER => "TokenType.NUMBER" | .PLUS => "TokenType.PLUS"
  | .MINUS => "TokenType.MINUS" | .MULTIPLY => "TokenType.MULTIPLY"
  | .DIVIDE => "TokenType.DIVIDE" | .ASSIGN => "TokenType.ASSIGN"
  | .EQ => "TokenType.EQ" | .NE => "TokenType.NE" | .GT => "TokenType.GT"
  | .LT => "TokenType.LT" | .GE => "TokenType.GE" | .LE => "TokenType.LE"
  | .LPAREN => "TokenType.LPAREN" | .RPAREN => "TokenType.RPAREN"
  | .LBRACE => "TokenType.LBRACE" | .RBRACE => "TokenType.RBRACE"
  | .SEMICOLON => "TokenType.SEMICOLON" | .COMMA => "TokenType.COMMA"
  | .EOF => "TokenType.EOF" | .NEWLINE => "TokenType.NEWLINE"

/-! ## Lexer character classes (lexer.py)

The lexer calls Python's Unicode-aware `str.isalpha` / `str.isdigit` /
`str.isalnum`.  Those consult the full Unicode database; here they are
modelled by explicit code-point ranges restricted to the scripts relevant
to this development (ASCII, Greek, Arabic letters, ASCII and Arabic-Indic
digits).  On every code point mentioned anywhere in this file the tables
below agree with CPython's classification. -/

/-- Model of Python `str.isalpha` (restricted to ASCII, Greek and Arabic
letters; CPython returns `True` on all listed ranges and `False` on every
other code point used in this development). -/
def py_isalpha (c : Char) : Bool :=
  (65 ≤ c.toNat && c.toNat ≤ 90) || (97 ≤ c.toNat && c.toNat ≤ 122) ||
  (0x391 ≤ c.toNat && c.toNat ≤ 0x3A9 && c.toNat ≠ 0x3A2) ||
  (0x3B1 ≤ c.toNat && c.toNat ≤ 0x3C9) ||
  (0x620 ≤ c.toNat && c.toNat ≤ 0x64A)

/-- Model of Python `str.isdigit` (ASCII digits and Arabic-Indic digits). -/
def py_isdigit (c : Char) : Bool :=
  (48 ≤ c.toNat && c.toNat ≤ 57) || (0x660 ≤ c.toNat && c.toNat ≤ 0x669)

/-- Model of Python `str.isalnum`. -/
def py_isalnum (c : Char) : Bool :=
  py_isalpha c || py_isdigit c

/-- `Lexer.is_arabic_char`: code point in U+0600..U+06FF or U+0750..U+077F,
excluding U+060C, U+061B, U+061F. -/
def is_arabic_char (c : Char) : Bool :=
  let code := c.toNat
  if code = 0x60C || code = 0x61B || code = 0x61F then false
  else (0x600 ≤ code && code ≤ 0x6FF) || (0x750 ≤ code && code ≤ 0x77F)

/-- The loop condition of `Lexer.read_identifier`:
`isalnum() or char == '_' or is_arabic_char(char)`. -/
def identChar (c : Char) : Bool :=
  py_isalnum c || c = '_' || is_arabic_char c

/-- The dispatch condition in `Lexer.tokenize` for identifier starts:
`char.isalpha() or char == '_' or is_arabic_char(char)`. -/
def identStart (c : Char) : Bool :=
  py_isalpha c || c = '_' || is_arabic_char c

/-- `Lexer.KEYWORDS`. -/
def KEYWORDS : List (String × TokenType) :=
  [("متغير", .VAR), ("اذا", .IF), ("والا", .ELSE), ("بينما", .WHILE),
   ("لكل", .FOR), ("دالة", .FUNCTION), ("ارجع", .RETURN), ("اطبع", .PRINT)]

/-- Whitespace characters skipped by `Lexer.skip_whitespace`. -/
def isWs (c : Char) : Bool :=
  c = ' ' || c = '\t' || c = '\r' || c = '\n'

/-- `Lexer.advance` effect on the (line, column) pair for one character. -/
def advanceLC (lc : Nat × Nat) (c : Char) : Nat × Nat :=
  if c = '\n' then (lc.1 + 1, 1) else (lc.1, lc.2 + 1)

/-- Line/column bookkeeping over a consumed character run. -/
def stepLC (lc : Nat × Nat) (cs : List Char) : Nat × Nat :=
  cs.foldl advanceLC lc

/-- `Lexer.error` message format. -/
def lexErrMsg (line col : Nat) (msg : String) : String :=
  "Lexer error at " ++ Nat.repr line ++ ":" ++ Nat.repr col ++ ": " ++ msg

/-- `dropWhile` never lengthens a list. -/
theorem length_dropWhile_le (p : Char → Bool) (l : List Char) :
    (List.dropWhile p l).length ≤ l.length :=
  (List.dropWhile_suffix p).length_le

/-- Dropping a satisfied head strictly shrinks the list. -/
theorem length_dropWhile_cons_lt (p : Char → Bool) (c : Char) (rest : List Char)
    (h : p c = true) : (List.dropWhile p (c :: rest)).length < (c :: rest).length := by
  simp only [List.dropWhile_cons, h, if_true, List.length_cons]
  exact Nat.lt_succ_of_le (length_dropWhile_le p rest)

/-- An identifier-start character also satisfies the identifier-continue test. -/
theorem identChar_of_identStart (c : Char) (h : identStart c = true) : identChar c = true := by
  simp only [identStart, Bool.or_eq_true] at h
  simp only [identChar, py_isalnum, Bool.or_eq_true]
  rcases h with (h | h) | h
  · exact Or.inl (Or.inl (Or.inl h))
  · exact Or.inl (Or.inr h)
  · exact Or.inr h

/-- Main lexer loop (`Lexer.tokenize`), recursing over the remaining
source characters; `line`/`col` mirror the Python position counters.
Python's `while` loop needs no fuel (each iteration advances `pos`);
the embedding consumes one unit of (amply provisioned) fuel per
iteration so that the recursion is structural. -/
def lexLoop (fuel : Nat) (src : List Char) (line col : Nat) (acc : List Token) :
    Except String (List Token) :=
  match fuel with
  | 0 => .error "recursion limit"
  | fuel + 1 =>
  match src with
  | [] => .ok (acc ++ [⟨.EOF, none, line, col⟩])
  | c :: rest =>
    if _hws : isWs c = true then
      let lc := stepLC (line, col) ((c :: rest).takeWhile isWs)
      lexLoop fuel ((c :: rest).dropWhile isWs) lc.1 lc.2 acc
    else if _hcm : c = '/' ∧ rest.head? = some '/' then
      let lc := stepLC (line, col) ((c :: rest).takeWhile (fun x => x != '\n'))
      lexLoop fuel ((c :: rest).dropWhile (fun x => x != '\n')) lc.1 lc.2 acc
    else if _hdg : py_isdigit c = true then
      let num := (c :: rest).takeWhile py_isdigit
      let lc := stepLC (line, col) num
      lexLoop fuel ((c :: rest).dropWhile py_isdigit) lc.1 lc.2
        (acc ++ [⟨.NUMBER, some (String.mk num), line, col⟩])
    else if _hid : identStart c = true then
      let identCs := (c :: rest).takeWhile identChar
      let ident := String.mk identCs
      let tt := match KEYWORDS.lookup ident with
        | some k => k
        | none => TokenType.IDENTIFIER
      let lc := stepLC (line, col) identCs
      lexLoop fuel ((c :: rest).dropWhile identChar) lc.1 lc.2
        (acc ++ [⟨tt, some ident, line, col⟩])
    else if c = '+' then
      lexLoop fuel rest line (col + 1) (acc ++ [⟨.PLUS, some "+", line, col⟩])
    else if c = '-' then
      lexLoop fuel rest line (col + 1) (acc ++ [⟨.MINUS, some "-", line, col⟩])
    else if c = '*' then
      lexLoop fuel rest line (col + 1) (acc ++ [⟨.MULTIPLY, some "*", line, col⟩])
    else if c = '/' then
      lexLoop fuel rest line (col + 1) (acc ++ [⟨.DIVIDE, some "/", line, col⟩])
    else if c = '=' then
      if rest.head? = some '=' then
        lexLoop fuel rest.tail line (col + 2) (acc ++ [⟨.EQ, some "==", line, col⟩])
      else
        lexLoop fuel rest line (col + 1) (acc ++ [⟨.ASSIGN, some "=", line, col⟩])
    else if c = '!' then
      if rest.head? = some '=' then
        lexLoop fuel rest.tail line (col + 2) (acc ++ [⟨.NE, some "!=", line, col⟩])
      else
        .error (lexErrMsg line col "Unexpected character '!'")
    else if c = '>' then
      if rest.head? = some '=' then
        lexLoop fuel rest.tail line (col + 2) (acc ++ [⟨.GE, some ">=", line, col⟩])
      else
        lexLoop fuel rest line (col + 1) (acc ++ [⟨.GT, some ">", line, col⟩])
    else if c = '<' then
      if rest.head? = some '=' then
        lexLoop fuel rest.tail line (col + 2) (acc ++ [⟨.LE, some "<=", line, col⟩])
      else
        lexLoop fuel rest line (col + 1) (acc ++ [⟨.LT, some "<", line, col⟩])
    else if c = '(' then
      lexLoop fuel rest line (col + 1) (acc ++ [⟨.LPAREN, some "(", line, col⟩])
    else if c = ')' then
      lexLoop fuel rest line (col + 1) (acc ++ [⟨.RPAREN, some ")", line, col⟩])
    else if c = '{' then
      lexLoop fuel rest line (col + 1) (acc ++ [⟨.LBRACE, some "\x7b", line, col⟩])
    else if c = '}' then
      lexLoop fuel rest line (col + 1) (acc ++ [⟨.RBRACE, some "\x7d", line, col⟩])
    else if c = ';' || c = '؛' then
      lexLoop fuel rest line (col + 1) (acc ++ [⟨.SEMICOLON, some ";", line, col⟩])
    else if c = ',' || c = '،' then
      lexLoop fuel rest line (col + 1) (acc ++ [⟨.COMMA, some ",", line, col⟩])
    else
      .error (lexErrMsg line col ("Unexpected character '" ++ String.mk [c] ++ "'"))

/-- `Lexer.tokenize` entry point. -/
def tokenize (source : String) : Except String (List Token) :=
  lexLoop (source.data.length + 1) source.data 1 1 []

/-- Numeric value of a (Python-)digit character; covers the ASCII and
Arabic-Indic digits admitted by `py_isdigit`. -/
def py_digit_val (c : Char) : Nat :=
  if 0x660 ≤ c.toNat ∧ c.toNat ≤ 0x669 then c.toNat - 0x660 else c.toNat - 48

/-- Decimal value of a digit run. -/
def digitsVal (cs : List Char) : Nat :=
  cs.foldl (fun a c => 10 * a + py_digit_val c) 0

/-- Model of Python `int(...)` as used by `Number.__init__` on token
lexemes: an optional leading minus followed by digits.  (On lexer output
the argument is always a non-empty digit string.) -/
def py_int (s : String) : Int :=
  match s.data with
  | '-' :: rest => -(digitsVal rest : Int)
  | cs => (digitsVal cs : Int)

/-! ## Parser (parser.py)

The Python parser mutates `self.pos`; here every parsing function takes
the (immutable) token list plus the current position and returns the
parsed node together with the new position.  Python's recursion has no
structural termination measure (its depth is bounded only by the stack),
so the embedding threads an explicit fuel parameter; running out of fuel
yields an error, never a wrong result. -/

/-- `Parser.current_token`: clamps to the final token (`self.tokens[-1]`);
`none` only for an empty token list (where Python raises `IndexError`). -/
def current_token (tokens : List Token) (pos : Nat) : Option Token :=
  if pos < tokens.length then tokens.get? pos else tokens.getLast?

/-- `Parser.peek_token` with explicit offset (Python default is 1). -/
def peek_token (tokens : List Token) (pos : Nat) (offset : Nat) : Option Token :=
  if pos + offset < tokens.length then tokens.get? (pos + offset) else tokens.getLast?

/-- `Parser.advance`: moves forward but never past the last index. -/
def advanceP (tokens : List Token) (pos : Nat) : Nat :=
  if pos < tokens.length - 1 then pos + 1 else pos

/-- Fetch the current token or fail like Python's `IndexError` on an
empty token list. -/
def curT (tokens : List Token) (pos : Nat) : Except String Token :=
  match current_token tokens pos with
  | some t => .ok t
  | none => .error "IndexError: list index out of range"

/-- `Parser.error` message format (positions from the current token). -/
def perrMsg (tokens : List Token) (pos : Nat) (msg : String) : String :=
  match current_token tokens pos with
  | some t =>
      "Parser error at " ++ Nat.repr t.line ++ ":" ++ Nat.repr t.column ++ ": " ++ msg
  | none => "IndexError: list index out of range"

/-- `Parser.expect`: consume a token of the given type or fail. -/
def expectT (tokens : List Token) (pos : Nat) (tt : TokenType) :
    Except String (Token × Nat) := do
  let t ← curT tokens pos
  if t.type = tt then
    pure (t, advanceP tokens pos)
  else
    .error (perrMsg tokens pos ("Expected " ++ ttName tt ++ ", got " ++ ttName t.type))

/-- Python stores a token's `value` (a string, or `None` for EOF) directly
into AST fields; this projects it the same way. -/
def Token.valueStr (t : Token) : String := t.value.getD ""

mutual

/-- Loop of `Parser.parse`: collect functions until EOF. -/
def parseProgramLoop (fuel : Nat) (tokens : List Token) (pos : Nat)
    (acc : List Func) : Except String (List Func × Nat) :=
  match fuel with
  | 0 => .error "recursion limit"
  | fuel + 1 => do
    let t ← curT tokens pos
    if t.type = .EOF then
      pure (acc, pos)
    else do
      let (f, pos) ← parseFunction fuel tokens pos
      parseProgramLoop fuel tokens pos (acc ++ [f])

/-- `Parser.parse_function`. -/
def parseFunction (fuel : Nat) (tokens : List Token) (pos : Nat) :
    Except String (Func × Nat) :=
  match fuel with
  | 0 => .error "recursion limit"
  | fuel + 1 => do
    let (_, pos) ← expectT tokens pos .FUNCTION
    let (nameTok, pos) ← expectT tokens pos .IDENTIFIER
    let (_, pos) ← expectT tokens pos .LPAREN
    let t ← curT tokens pos
    let (params, pos) ←
      if t.type ≠ .RPAREN then do
        let (p0, pos) ← expectT tokens pos .IDENTIFIER
        paramLoop fuel tokens pos [p0.valueStr]
      else
        pure (([] : List String), pos)
    let (_, pos) ← expectT tokens pos .RPAREN
    let (body, pos) ← parseBlock fuel tokens pos
    pure (⟨nameTok.valueStr, params, body⟩, pos)

/-- Parameter-list loop of `Parser.parse_function`. -/
def paramLoop (fuel : Nat) (tokens : List Token) (pos : Nat)
    (acc : List String) : Except String (List String × Nat) :=
  match fuel with
  | 0 => .error "recursion limit"
  | fuel + 1 => do
    let t ← curT tokens pos
    if t.type = .COMMA then do
      let pos := advanceP tokens pos
      let (p, pos) ← expectT tokens pos .IDENTIFIER
      paramLoop fuel tokens pos (acc ++ [p.valueStr])
    else
      pure (acc, pos)

/-- `Parser.parse_block`. -/
def parseBlock (fuel : Nat) (tokens : List Token) (pos : Nat) :
    Except String (List Stmt × Nat) :=
  match fuel with
  | 0 => .error "recursion limit"
  | fuel + 1 => do
    let (_, pos) ← expectT tokens pos .LBRACE
    let (stmts, pos) ← stmtLoop fuel tokens pos []
    let (_, pos) ← expectT tokens pos .RBRACE
    pure (stmts, pos)

/-- Statement loop of `Parser.parse_block`. -/
def stmtLoop (fuel : Nat) (tokens : List Token) (pos : Nat)
    (acc : List Stmt) : Except String (List Stmt × Nat) :=
  match fuel with
  | 0 => .error "recursion limit"
  | fuel + 1 => do
    let t ← curT tokens pos
    if t.type ≠ .RBRACE then do
      let (s, pos) ← parseStatement fuel tokens pos
      stmtLoop fuel tokens pos (acc ++ [s])
    else
      pure (acc, pos)

/-- `Parser.parse_statement`. -/
def parseStatement (fuel : Nat) (tokens : List Token) (pos : Nat) :
    Except String (Stmt × Nat) :=
  match fuel with
  | 0 => .error "recursion limit"
  | fuel + 1 => do
    let t ← curT tokens pos
    if t.type = .VAR then
      parseVarDecl fuel tokens pos
    else if t.type = .IF then
      parseIfStatement fuel tokens pos
    else if t.type = .WHILE then
      parseWhileStatement fuel tokens pos
    else if t.type = .RETURN then
      parseReturnStatement fuel tokens pos
    else if t.type = .PRINT then
      parsePrintStatement fuel tokens pos
    else if t.type = .IDENTIFIER then
      match peek_token tokens pos 1 with
      | some pk =>
        if pk.type = .ASSIGN then
          parseAssignment fuel tokens pos
        else if pk.type = .LPAREN then do
          let (na, pos) ← parseCallNA fuel tokens pos
          let (_, pos) ← expectT tokens pos .SEMICOLON
          pure (.callStmt na.1 na.2, pos)
        else
          .error (perrMsg tokens pos "Unexpected identifier")
      | none => .error "IndexError: list index out of range"
    else
      .error (perrMsg tokens pos ("Unexpected token " ++ ttName t.type))

/-- `Parser.parse_var_decl`. -/
def parseVarDecl (fuel : Nat) (tokens : List Token) (pos : Nat) :
    Except String (Stmt × Nat) :=
  match fuel with
  | 0 => .error "recursion limit"
  | fuel + 1 => do
    let (_, pos) ← expectT tokens pos .VAR
    let (nameTok, pos) ← expectT tokens pos .IDENTIFIER
    let (_, pos) ← expectT tokens pos .ASSIGN
    let (value, pos) ← parseExpression fuel tokens pos
    let (_, pos) ← expectT tokens pos .SEMICOLON
    pure (.varDecl nameTok.valueStr value, pos)

/-- `Parser.parse_assignment`. -/
def parseAssignment (fuel : Nat) (tokens : List Token) (pos : Nat) :
    Except String (Stmt × Nat) :=
  match fuel with
  | 0 => .error "recursion limit"
  | fuel + 1 => do
    let (nameTok, pos) ← expectT tokens pos .IDENTIFIER
    let (_, pos) ← expectT tokens pos .ASSIGN
    let (value, pos) ← parseExpression fuel tokens pos
    let (_, pos) ← expectT tokens pos .SEMICOLON
    pure (.assign nameTok.valueStr value, pos)

/-- `Parser.parse_if_statement`. -/
def parseIfStatement (fuel : Nat) (tokens : List Token) (pos : Nat) :
    Except String (Stmt × Nat) :=
  match fuel with
  | 0 => .error "recursion limit"
  | fuel + 1 => do
    let (_, pos) ← expectT tokens pos .IF
    let (_, pos) ← expectT tokens pos .LPAREN
    let (condition, pos) ← parseExpression fuel tokens pos
    let (_, pos) ← expectT tokens pos .RPAREN
    let (thenBlock, pos) ← parseBlock fuel tokens pos
    let t ← curT tokens pos
    if t.type = .ELSE then do
      let pos := advanceP tokens pos
      let (elseBlock, pos) ← parseBlock fuel tokens pos
      pure (.ifStmt condition thenBlock (some elseBlock), pos)
    else
      pure (.ifStmt condition thenBlock none, pos)

/-- `Parser.parse_while_statement`. -/
def parseWhileStatement (fuel : Nat) (tokens : List Token) (pos : Nat) :
    Except String (Stmt × Nat) :=
  match fuel with
  | 0 => .error "recursion limit"
  | fuel + 1 => do
    let (_, pos) ← expectT tokens pos .WHILE
    let (_, pos) ← expectT tokens pos .LPAREN
    let (condition, pos) ← parseExpression fuel tokens pos
    let (_, pos) ← expectT tokens pos .RPAREN
    let (body, pos) ← parseBlock fuel tokens pos
    pure (.whileStmt condition body, pos)

/-- `Parser.parse_return_statement`. -/
def parseReturnStatement (fuel : Nat) (tokens : List Token) (pos : Nat) :
    Except String (Stmt × Nat) :=
  match fuel with
  | 0 => .error "recursion limit"
  | fuel + 1 => do
    let (_, pos) ← expectT tokens pos .RETURN
    let (value, pos) ← parseExpression fuel tokens pos
    let (_, pos) ← expectT tokens pos .SEMICOLON
    pure (.ret value, pos)

/-- `Parser.parse_print_statement`. -/
def parsePrintStatement (fuel : Nat) (tokens : List Token) (pos : Nat) :
    Except String (Stmt × Nat) :=
  match fuel with
  | 0 => .error "recursion limit"
  | fuel + 1 => do
    let (_, pos) ← expectT tokens pos .PRINT
    let (_, pos) ← expectT tokens pos .LPAREN
    let (value, pos) ← parseExpression fuel tokens pos
    let (_, pos) ← expectT tokens pos .RPAREN
    let (_, pos) ← expectT tokens pos .SEMICOLON
    pure (.printStmt value, pos)

/-- `Parser.parse_expression`. -/
def parseExpression (fuel : Nat) (tokens : List Token) (pos : Nat) :
    Except String (Expr × Nat) :=
  match fuel with
  | 0 => .error "recursion limit"
  | fuel + 1 => parseComparison fuel tokens pos

/-- `Parser.parse_comparison` (head). -/
def parseComparison (fuel : Nat) (tokens : List Token) (pos : Nat) :
    Except String (Expr × Nat) :=
  match fuel with
  | 0 => .error "recursion limit"
  | fuel + 1 => do
    let (left, pos) ← parseAdditive fuel tokens pos
    compLoop fuel tokens pos left

/-- `Parser.parse_comparison` (operator loop). -/
def compLoop (fuel : Nat) (tokens : List Token) (pos : Nat) (left : Expr) :
    Except String (Expr × Nat) :=
  match fuel with
  | 0 => .error "recursion limit"
  | fuel + 1 => do
    let t ← curT tokens pos
    if t.type = .EQ ∨ t.type = .NE ∨ t.type = .GT ∨ t.type = .LT ∨
        t.type = .GE ∨ t.type = .LE then do
      let pos := advanceP tokens pos
      let (right, pos) ← parseAdditive fuel tokens pos
      compLoop fuel tokens pos (.binaryOp left t.valueStr right)
    else
      pure (left, pos)

/-- `Parser.parse_additive` (head). -/
def parseAdditive (fuel : Nat) (tokens : List Token) (pos : Nat) :
    Except String (Expr × Nat) :=
  match fuel with
  | 0 => .error "recursion limit"
  | fuel + 1 => do
    let (left, pos) ← parseMultiplicative fuel tokens pos
    addLoop fuel tokens pos left

/-- `Parser.parse_additive` (operator loop). -/
def addLoop (fuel : Nat) (tokens : List Token) (pos : Nat) (left : Expr) :
    Except String (Expr × Nat) :=
  match fuel with
  | 0 => .error "recursion limit"
  | fuel + 1 => do
    let t ← curT tokens pos
    if t.type = .PLUS ∨ t.type = .MINUS then do
      let pos := advanceP tokens pos
      let (right, pos) ← parseMultiplicative fuel tokens pos
      addLoop fuel tokens pos (.binaryOp left t.valueStr right)
    else
      pure (left, pos)

/-- `Parser.parse_multiplicative` (head). -/
def parseMultiplicative (fuel : Nat) (tokens : List Token) (pos : Nat) :
    Except String (Expr × Nat) :=
  match fuel with
  | 0 => .error "recursion limit"
  | fuel + 1 => do
    let (left, pos) ← parseUnary fuel tokens pos
    mulLoop fuel tokens pos left

/-- `Parser.parse_multiplicative` (operator loop). -/
def mulLoop (fuel : Nat) (tokens : List Token) (pos : Nat) (left : Expr) :
    Except String (Expr × Nat) :=
  match fuel with
  | 0 => .error "recursion limit"
  | fuel + 1 => do
    let t ← curT tokens pos
    if t.type = .MULTIPLY ∨ t.type = .DIVIDE then do
      let pos := advanceP tokens pos
      let (right, pos) ← parseUnary fuel tokens pos
      mulLoop fuel tokens pos (.binaryOp left t.valueStr right)
    else
      pure (left, pos)

/-- `Parser.parse_unary`. -/
def parseUnary (fuel : Nat) (tokens : List Token) (pos : Nat) :
    Except String (Expr × Nat) :=
  match fuel with
  | 0 => .error "recursion limit"
  | fuel + 1 => do
    let t ← curT tokens pos
    if t.type = .MINUS then do
      let pos := advanceP tokens pos
      let (operand, pos) ← parseUnary fuel tokens pos
      pure (.unaryOp t.valueStr operand, pos)
    else
      parsePrimary fuel tokens pos

/-- `Parser.parse_primary`. -/
def parsePrimary (fuel : Nat) (tokens : List Token) (pos : Nat) :
    Except String (Expr × Nat) :=
  match fuel with
  | 0 => .error "recursion limit"
  | fuel + 1 => do
    let t ← curT tokens pos
    if t.type = .NUMBER then
      pure (.number (py_int t.valueStr), advanceP tokens pos)
    else if t.type = .IDENTIFIER then
      match peek_token tokens pos 1 with
      | some pk =>
        if pk.type = .LPAREN then do
          let (na, pos) ← parseCallNA fuel tokens pos
          pure (.call na.1 na.2, pos)
        else
          pure (.ident t.valueStr, advanceP tokens pos)
      | none => .error "IndexError: list index out of range"
    else if t.type = .LPAREN then do
      let pos := advanceP tokens pos
      let (e, pos) ← parseExpression fuel tokens pos
      let (_, pos) ← expectT tokens pos .RPAREN
      pure (e, pos)
    else
      .error (perrMsg tokens pos ("Unexpected token in expression: " ++ ttName t.type))

/-- `Parser.parse_function_call` (returns the name and argument list; used
both as an expression and as a call statement). -/
def parseCallNA (fuel : Nat) (tokens : List Token) (pos : Nat) :
    Except String ((String × List Expr) × Nat) :=
  match fuel with
  | 0 => .error "recursion limit"
  | fuel + 1 => do
    let (nameTok, pos) ← expectT tokens pos .IDENTIFIER
    let (_, pos) ← expectT tokens pos .LPAREN
    let t ← curT tokens pos
    let (args, pos) ←
      if t.type ≠ .RPAREN then do
        let (a0, pos) ← parseExpression fuel tokens pos
        argLoop fuel tokens pos [a0]
      else
        pure (([] : List Expr), pos)
    let (_, pos) ← expectT tokens pos .RPAREN
    pure ((nameTok.valueStr, args), pos)

/-- Argument-list loop of `Parser.parse_function_call`. -/
def argLoop (fuel : Nat) (tokens : List Token) (pos : Nat)
    (acc : List Expr) : Except String (List Expr × Nat) :=
  match fuel with
  | 0 => .error "recursion limit"
  | fuel + 1 => do
    let t ← curT tokens pos
    if t.type = .COMMA then do
      let pos := advanceP tokens pos
      let (a, pos) ← parseExpression fuel tokens pos
      argLoop fuel tokens pos (acc ++ [a])
    else
      pure (acc, pos)

end

/-- `Parser.parse` entry point (fuel amply proportional to input size). -/
def parse (tokens : List Token) : Except String Program :=
  (parseProgramLoop (tokens.length * 8 + 8) tokens 0 []).map fun r => ⟨r.1⟩

/-! ## Semantic analyzer (semantic.py)

A `SymbolTable` is a mapping (insertion-ordered, like a Python dict) plus
a parent pointer; a chain of tables is embedded as a list of frames, the
innermost first, with the analyzer's global scope as the last element.
`define` mutates the innermost frame only; the whole chain is threaded
through the statement walk. -/

/-- One `SymbolTable.symbols` dict: name ↦ type (always `"int"`). -/
abbrev Frame := List (String × String)

/-- A parent chain of symbol tables, innermost first. -/
abbrev Scope := List Frame

/-- `SymbolTable.define`: insert into the innermost table; error if the
name is already present there. -/
def defineVar (sc : Scope) (name : String) : Except String Scope :=
  match sc with
  | [] => .error "no scope"
  | top :: rest =>
    if (top.lookup name).isSome then
      .error ("Variable '" ++ name ++ "' already defined in this scope")
    else
      .ok ((top ++ [(name, "int")]) :: rest)

/-- `SymbolTable.exists`: search the chain outward. -/
def existsVar : Scope → String → Bool
  | [], _ => false
  | fr :: rest, name =>
    if (fr.lookup name).isSome then true else existsVar rest name

/-- Define every parameter of a function in order
(the loop in `SemanticAnalyzer.analyze_function`). -/
def defineParams (sc : Scope) : List String → Except String Scope
  | [] => .ok sc
  | p :: rest => do
    let sc ← defineVar sc p
    defineParams sc rest

/-- The function table built by the analyzer's first pass
(`self.functions`, insertion-ordered name ↦ definition). -/
abbrev FuncTable := List (String × Func)

/-- First pass of `SemanticAnalyzer.analyze`: collect function
definitions, rejecting duplicates. -/
def collectFunctions : List Func → FuncTable → Except String FuncTable
  | [], acc => .ok acc
  | f :: rest, acc =>
    if (acc.lookup f.name).isSome then
      .error ("Function '" ++ f.name ++ "' already defined")
    else
      collectFunctions rest (acc ++ [(f.name, f)])

mutual

/-- `SemanticAnalyzer.analyze_expression`. -/
def analyzeExpr (funcs : FuncTable) (sc : Scope) : Expr → Except String Unit
  | .number _ => .ok ()
  | .ident name =>
    if existsVar sc name then .ok ()
    else .error ("Variable '" ++ name ++ "' not defined")
  | .binaryOp left _ right => do
    analyzeExpr funcs sc left
    analyzeExpr funcs sc right
  | .unaryOp _ value => analyzeExpr funcs sc value
  | .call name args =>
    if (funcs.lookup name).isSome then
      analyzeArgs funcs sc args
    else
      .error ("Function '" ++ name ++ "' not defined")

/-- Argument loop of `analyze_expression` for `FunctionCall`. -/
def analyzeArgs (funcs : FuncTable) (sc : Scope) : List Expr → Except String Unit
  | [] => .ok ()
  | a :: rest => do
    analyzeExpr funcs sc a
    analyzeArgs funcs sc rest

end

mutual

/-- `SemanticAnalyzer.analyze_statement` (returns the updated scope
chain, since `VarDecl` mutates the innermost table). -/
def analyzeStmt (funcs : FuncTable) (sc : Scope) : Stmt → Except String Scope
  | .varDecl name value => do
    analyzeExpr funcs sc value
    defineVar sc name
  | .assign name value => do
    if existsVar sc name then do
      analyzeExpr funcs sc value
      pure sc
    else
      .error ("Variable '" ++ name ++ "' not defined")
  | .ifStmt condition thenBlock elseBlock => do
    analyzeExpr funcs sc condition
    let sc ← analyzeBlock funcs sc thenBlock
    match elseBlock with
    | some blk => analyzeBlock funcs sc blk
    | none => pure sc
  | .whileStmt condition body => do
    analyzeExpr funcs sc condition
    analyzeBlock funcs sc body
  | .ret value => do
    analyzeExpr funcs sc value
    pure sc
  | .printStmt value => do
    analyzeExpr funcs sc value
    pure sc
  | .callStmt name args => do
    if (funcs.lookup name).isSome then do
      analyzeArgs funcs sc args
      pure sc
    else
      .error ("Function '" ++ name ++ "' not defined")

/-- `SemanticAnalyzer.analyze_block`. -/
def analyzeBlock (funcs : FuncTable) (sc : Scope) : List Stmt → Except String Scope
  | [] => .ok sc
  | s :: rest => do
    let sc ← analyzeStmt funcs sc s
    analyzeBlock funcs sc rest

end

/-- `SemanticAnalyzer.analyze_function`: push a fresh scope over the
global one, define the parameters, analyze the body, then restore
`current_scope` to the global table (whose then-current contents the
function returns). -/
def analyzeFunction (funcs : FuncTable) (globalScope : Frame) (f : Func) :
    Except String Frame := do
  let sc ← defineParams [([] : Frame), globalScope] f.params
  let sc ← analyzeBlock funcs sc f.body
  pure (sc.getLastD [])

/-- Second pass of `SemanticAnalyzer.analyze`, threading the global
scope through the per-function analyses. -/
def analyzeFunctions (funcs : FuncTable) (globalScope : Frame) :
    List Func → Except String Frame
  | [] => .ok globalScope
  | f :: rest => do
    let globalScope ← analyzeFunction funcs globalScope f
    analyzeFunctions funcs globalScope rest

/-- `SemanticAnalyzer.analyze`: both passes, starting from an empty
global scope; returns the analyzer's final state (function table and
global scope contents). -/
def analyze (p : Program) : Except String (FuncTable × Frame) := do
  let funcs ← collectFunctions p.functions []
  let g ← analyzeFunctions funcs [] p.functions
  pure (funcs, g)

/-! ## Code generator (codegen.py) -/

/-- The mutable fields of `CodeGenerator`. -/
structure CGState where
  output : List String
  labelCounter : Nat
  stringCounter : Nat
  dataSection : List String
  currentFunction : Option Func
  localVars : List (String × Int)
  stackOffset : Int
deriving Repr

/-- `CodeGenerator.__init__`. -/
def cgInit : CGState :=
  { output := [], labelCounter := 0, stringCounter := 0, dataSection := [],
    currentFunction := none, localVars := [], stackOffset := 0 }

/-- `CodeGenerator.emit`. -/
def emit (st : CGState) (code : String) : CGState :=
  { st with output := st.output ++ [code] }

/-- `CodeGenerator.new_label`. -/
def new_label (st : CGState) (pre : String) : String × CGState :=
  (pre ++ Nat.repr st.labelCounter, { st with labelCounter := st.labelCounter + 1 })

/-- Python dict assignment `d[k] = v`: replace in place or append. -/
def dictInsert (m : List (String × Int)) (k : String) (v : Int) :
    List (String × Int) :=
  if (m.lookup k).isSome then
    m.map (fun p => if p.1 = k then (k, v) else p)
  else
    m ++ [(k, v)]

/-- `CodeGenerator.allocate_local`. -/
def allocate_local (st : CGState) (name : String) : Int × CGState :=
  let off := st.stackOffset - 8
  (off, { st with stackOffset := off, localVars := dictInsert st.localVars name off })

/-- `CodeGenerator.get_var_location`. -/
def get_var_location (st : CGState) (name : String) : Except String String :=
  match st.localVars.lookup name with
  | some off => .ok ("[rbp" ++ Int.repr off ++ "]")
  | none => .error ("Variable '" ++ name ++ "' not found")

/-- Register list for passing arguments/parameters. -/
def paramRegisters : List String := ["rdi", "rsi", "rdx", "rcx", "r8", "r9"]

/-- The pop loop of `generate_function_call`: pop the first six pushed
values into the argument registers. -/
def popArgs (st : CGState) (n : Nat) : CGState :=
  (List.range n).foldl
    (fun st i =>
      if i < paramRegisters.length then
        emit st ("    pop " ++ paramRegisters.getD i "")
      else st)
    st

/-- The operator dispatch chain at the end of the `BinaryOp` case of
`generate_expression` (every branch only emits instructions). -/
def emitBinOp (st : CGState) (op : String) : CGState :=
  if op = "+" then emit st "    add rax, rbx"
  else if op = "-" then emit st "    sub rax, rbx"
  else if op = "*" then emit st "    imul rax, rbx"
  else if op = "/" then emit (emit st "    cqo") "    idiv rbx"
  else if op = "==" then
    emit (emit (emit st "    cmp rax, rbx") "    sete al") "    movzx rax, al"
  else if op = "!=" then
    emit (emit (emit st "    cmp rax, rbx") "    setne al") "    movzx rax, al"
  else if op = ">" then
    emit (emit (emit st "    cmp rax, rbx") "    setg al") "    movzx rax, al"
  else if op = "<" then
    emit (emit (emit st "    cmp rax, rbx") "    setl al") "    movzx rax, al"
  else if op = ">=" then
    emit (emit (emit st "    cmp rax, rbx") "    setge al") "    movzx rax, al"
  else if op = "<=" then
    emit (emit (emit st "    cmp rax, rbx") "    setle al") "    movzx rax, al"
  else st

mutual

/-- `CodeGenerator.generate_expression` (result in `rax`). -/
def genExpr (st : CGState) : Expr → Except String CGState
  | .number value => .ok (emit st ("    mov rax, " ++ Int.repr value))
  | .ident name => do
    let location ← get_var_location st name
    .ok (emit st ("    mov rax, " ++ location))
  | .binaryOp left op right => do
    let st ← genExpr st right
    let st := emit st "    push rax"
    let st ← genExpr st left
    let st := emit st "    pop rbx"
    .ok (emitBinOp st op)
  | .unaryOp op value => do
    let st ← genExpr st value
    if op = "-" then .ok (emit st "    neg rax") else .ok st
  | .call name args => do
    let st ← genArgsRev st args
    let st := popArgs st args.length
    .ok (emit st ("    call " ++ name))

/-- The `reversed(call.args)` loop of `generate_function_call`: evaluate
arguments from last to first, pushing each result. -/
def genArgsRev (st : CGState) : List Expr → Except String CGState
  | [] => .ok st
  | a :: rest => do
    let st ← genArgsRev st rest
    let st ← genExpr st a
    .ok (emit st "    push rax")

end

mutual

/-- `CodeGenerator.generate_statement`. -/
def genStmt (st : CGState) : Stmt → Except String CGState
  | .varDecl name value => do
    let (offset, st) := allocate_local st name
    let st ← genExpr st value
    .ok (emit st ("    mov [rbp" ++ Int.repr offset ++ "], rax"))
  | .assign name value => do
    let st ← genExpr st value
    let location ← get_var_location st name
    .ok (emit st ("    mov " ++ location ++ ", rax"))
  | .ifStmt condition thenBlock elseBlock => do
    let (elseLabel, st) := new_label st "else"
    let (endLabel, st) := new_label st "endif"
    let st ← genExpr st condition
    let st := emit st "    cmp rax, 0"
    let st := emit st ("    je " ++ elseLabel)
    let st ← genBlock st thenBlock
    let st := emit st ("    jmp " ++ endLabel)
    let st := emit st (elseLabel ++ ":")
    let st ← match elseBlock with
      | some blk => genBlock st blk
      | none => pure st
    .ok (emit st (endLabel ++ ":"))
  | .whileStmt condition body => do
    let (startLabel, st) := new_label st "while_start"
    let (endLabel, st) := new_label st "while_end"
    let st := emit st (startLabel ++ ":")
    let st ← genExpr st condition
    let st := emit st "    cmp rax, 0"
    let st := emit st ("    je " ++ endLabel)
    let st ← genBlock st body
    let st := emit st ("    jmp " ++ startLabel)
    .ok (emit st (endLabel ++ ":"))
  | .ret value => do
    let st ← genExpr st value
    .ok (emit (emit (emit st "    mov rsp, rbp") "    pop rbp") "    ret")
  | .printStmt value => do
    let st ← genExpr st value
    .ok (emit (emit (emit st "    # Print integer in rax") "    mov rdi, rax")
          "    call print_number")
  | .callStmt name args => do
    let st ← genArgsRev st args
    let st := popArgs st args.length
    .ok (emit st ("    call " ++ name))

/-- `CodeGenerator.generate_block`. -/
def genBlock (st : CGState) : List Stmt → Except String CGState
  | [] => .ok st
  | s :: rest => do
    let st ← genStmt st s
    genBlock st rest

end

/-- The per-function state reset at the top of
`CodeGenerator.generate_function` (`current_function`, `local_vars`,
`stack_offset`; the label counter is untouched by the source). -/
def resetState (st : CGState) (f : Func) : CGState :=
  { st with currentFunction := some f, localVars := [], stackOffset := 0 }

/-- The parameter spill loop of `generate_function`: the first six
parameters get local slots and are stored from the argument registers;
later parameters are silently skipped. -/
def storeParams (st : CGState) (i : Nat) : List String → CGState
  | [] => st
  | p :: rest =>
    if i < paramRegisters.length then
      let (offset, st) := allocate_local st p
      storeParams
        (emit st ("    mov [rbp" ++ Int.repr offset ++ "], " ++ paramRegisters.getD i ""))
        (i + 1) rest
    else
      storeParams st (i + 1) rest

/-- `CodeGenerator.generate_function`. -/
def genFunction (st : CGState) (f : Func) : Except String CGState := do
  let st := resetState st f
  let st := emit st ""
  let st := emit st (f.name ++ ":")
  let st := emit st "    push rbp"
  let st := emit st "    mov rbp, rsp"
  let st := emit st "    sub rsp, 256"
  let st := storeParams st 0 f.params
  let st ← genBlock st f.body
  .ok (emit (emit (emit st "    mov rsp, rbp") "    pop rbp") "    ret")

/-- The function loop of `CodeGenerator.generate`. -/
def genFunctions (st : CGState) : List Func → Except String CGState
  | [] => .ok st
  | f :: rest => do
    let st ← genFunction st f
    genFunctions st rest

/-- `CodeGenerator.generate`, returning the emitted lines. -/
def generateLines (p : Program) : Except String (List String) := do
  let st := emit cgInit ".intel_syntax noprefix"
  let st := emit st ""
  let st := emit st ".section .data"
  let st := emit st "fmt_int: .asciz \"%d\\n\""
  let st := emit st ".section .text"
  let st := emit st ".global _start"
  let st ← genFunctions st p.functions
  let st := emit st ""
  let st := emit st "_start:"
  let st := emit st "    call رئيسية"
  let st := emit st "    mov rdi, rax"
  let st := emit st "    mov rax, 60"
  let st := emit st "    syscall"
  .ok st.output

/-- `CodeGenerator.generate`'s actual return value: `"\n".join(output)`. -/
def generate (p : Program) : Except String String :=
  (generateLines p).map (String.intercalate "\n")

/-! ## Basic facts about association lists -/

theorem lookup_append {β : Type} (l1 l2 : List (String × β)) (k : String) :
    (l1 ++ l2).lookup k =
      match l1.lookup k with
      | some v => some v
      | none => l2.lookup k := by
  induction l1 with
  | nil => simp [List.lookup]
  | cons p rest ih =>
    by_cases h : k = p.1
    · simp [List.lookup, h]
    · have hb : (k == p.1) = false := beq_false_of_ne h
      simp [List.lookup, hb, ih]

/-! ## C9: parser token accesses are total -/

/-- C9: for every token list ending in an eof token, `current_token` and
`peek_token` always return some token (clamping to the final eof token),
and `advance` never moves the position past the last index, so no parser
operation indexes out of bounds. -/
theorem parser_access_total (tokens : List Token) (t : Token)
    (hlast : tokens.getLast? = some t) (_ : t.type = .EOF) :
    (∀ pos, (current_token tokens pos).isSome = true) ∧
    (∀ pos offset, (peek_token tokens pos offset).isSome = true) ∧
    (∀ pos, pos ≤ tokens.length - 1 → advanceP tokens pos ≤ tokens.length - 1) := by
  have hne : tokens ≠ [] := by
    intro h
    rw [h] at hlast
    simp at hlast
  refine ⟨?_, ?_, ?_⟩
  · intro pos
    unfold current_token
    by_cases h : pos < tokens.length
    · simp only [h, if_true]
      cases hg : tokens.get? pos with
      | none => exact absurd (List.get?_eq_none.mp hg) (by omega)
      | some u => simp
    · simp only [h, if_false, hlast, Option.isSome_some]
  · intro pos offset
    unfold peek_token
    by_cases h : pos + offset < tokens.length
    · simp only [h, if_true]
      cases hg : tokens.get? (pos + offset) with
      | none => exact absurd (List.get?_eq_none.mp hg) (by omega)
      | some u => simp
    · simp only [h, if_false, hlast, Option.isSome_some]
  · intro pos hpos
    unfold advanceP
    by_cases h : pos < tokens.length - 1
    · simp only [h, if_true]
      omega
    · simp only [h, if_false]
      exact hpos

/-- C9 witness: a concrete eof-terminated token list, accessed past its
end. -/
theorem parser_access_total_witness :
    (current_token [⟨.EOF, none, 1, 1⟩] 7).isSome = true ∧
    advanceP [⟨.EOF, none, 1, 1⟩] 0 ≤ 0 := by
  refine ⟨(parser_access_total [⟨.EOF, none, 1, 1⟩] ⟨.EOF, none, 1, 1⟩ rfl rfl).1 7, ?_⟩
  exact (parser_access_total [⟨.EOF, none, 1, 1⟩] ⟨.EOF, none, 1, 1⟩ rfl rfl).2.2 0 (by decide)

/-! ## C3: per-function generator state reset -/

/-- First function of the C3 counterexample program (contains one `if`,
so generating it advances the label counter to 2). -/
def c3FuncA : Func :=
  ⟨"أ", [], [.ifStmt (.number 1) [] none]⟩

/-- Second function of the C3 counterexample program. -/
def c3FuncB : Func :=
  ⟨"ب", [], []⟩

/-- C3 counterexample: after generating the first function the label
counter is 2, and the reset performed at the start of the second
function leaves it at 2 — not restored to its initial value 0 — while
the generated code for the second function's `if` uses label `else2`,
not `else0`.  So the claim that all three state components are restored
to their initial values at the start of each function is false. -/
theorem c3_counterexample :
    ((genFunction cgInit c3FuncA).map
        (fun st => (resetState st c3FuncB).labelCounter) = .ok 2) ∧
    cgInit.labelCounter = 0 ∧
    ((generateLines ⟨[c3FuncA, ⟨"ب", [], [.ifStmt (.number 1) [] none]⟩]⟩).map
        (fun ls => ls.contains "else2:" && ls.contains "else0:") = .ok true) := by
  exact ⟨rfl, rfl, rfl⟩

/-- C3 (amended): the reset performed at the start of
`generate_function` restores the local-variable map and the stack offset
to their initial values but leaves the label counter unchanged. -/
theorem c3_reset_state (st : CGState) (f : Func) :
    (resetState st f).localVars = cgInit.localVars ∧
    (resetState st f).stackOffset = cgInit.stackOffset ∧
    (resetState st f).labelCounter = st.labelCounter :=
  ⟨rfl, rfl, rfl⟩

/-! ## C5: `var x = x;` is a name error -/

/-- C5: the analyzer handles `VarDecl(name, expr)` by analyzing `expr`
before defining `name`; hence in any scope chain with no binding of `x`
(no parameter, no prior declaration, no outer definition), the statement
`متغير x = x;` fails with the name error `Variable 'x' not defined`. -/
theorem varDecl_self_reference_fails (funcs : FuncTable) (sc : Scope) (x : String)
    (h : existsVar sc x = false) :
    analyzeStmt funcs sc (.varDecl x (.ident x)) =
      .error ("Variable '" ++ x ++ "' not defined") := by
  unfold analyzeStmt analyzeExpr
  simp [h, Bind.bind, Except.bind]

/-- C5 witness: a function scope with no binding of `x` at all. -/
theorem varDecl_self_reference_fails_witness :
    analyzeStmt [] [([] : Frame), ([] : Frame)] (.varDecl "x" (.ident "x")) =
      .error "Variable 'x' not defined" :=
  varDecl_self_reference_fails [] [[], []] "x" rfl

/-! ## C8: then/else blocks share the function scope -/

/-- Defining duplicate-free parameters over any base frame succeeds and
the resulting innermost frame binds exactly the base names plus the
parameters. -/
theorem defineParams_spec (ps : List String) (hnd : ps.Nodup) :
    ∀ (top : Frame) (rest : Scope), (∀ y ∈ ps, (top.lookup y).isSome = false) →
    ∃ top' : Frame, defineParams (top :: rest) ps = .ok (top' :: rest) ∧
      (∀ y, (top'.lookup y).isSome = true ↔ ((top.lookup y).isSome = true ∨ y ∈ ps)) := by
  induction ps with
  | nil =>
    intro top rest _
    exact ⟨top, rfl, by simp⟩
  | cons p ps ih =>
    intro top rest hdisj
    have hp : (top.lookup p).isSome = false := hdisj p (by simp)
    have hstep : defineVar (top :: rest) p = .ok ((top ++ [(p, "int")]) :: rest) := by
      simp [defineVar, hp]
    have hnd' : ps.Nodup := hnd.of_cons
    have hpd : p ∉ ps := by
      intro hmem
      exact (List.nodup_cons.mp hnd).1 hmem
    have hdisj' : ∀ y ∈ ps, ((top ++ [(p, "int")]).lookup y).isSome = false := by
      intro y hy
      rw [lookup_append]
      have h1 : (top.lookup y).isSome = false := hdisj y (by simp [hy])
      have h2 : y ≠ p := fun h => hpd (h ▸ hy)
      cases htop : top.lookup y with
      | some v => rw [htop] at h1; simp at h1
      | none => simp [List.lookup, beq_false_of_ne h2]
    obtain ⟨top', heq, hmem⟩ := ih hnd' (top ++ [(p, "int")]) rest hdisj'
    refine ⟨top', ?_, ?_⟩
    · unfold defineParams
      rw [hstep]
      simpa using heq
    · intro y
      rw [hmem y]
      constructor
      · rintro (hin | hin)
        · rw [lookup_append] at hin
          cases htop : top.lookup y with
          | some v => exact Or.inl (by simp [htop])
          | none =>
            rw [htop] at hin
            simp only at hin
            by_cases hyp : y = p
            · exact Or.inr (by simp [hyp])
            · simp [List.lookup, beq_false_of_ne hyp] at hin
        · exact Or.inr (by simp [hin])
      · rintro (hin | hin)
        · left
          rw [lookup_append]
          cases htop : top.lookup y with
          | some v => simp
          | none => rw [htop] at hin; simp at hin
        · rcases List.mem_cons.mp hin with hyp | hyp
          · left
            rw [lookup_append]
            cases htop : top.lookup y with
            | some v => simp
            | none => simp [List.lookup, hyp]
          · exact Or.inr hyp

/-- C8: blocks inside `if`/`while` do not introduce new scopes — a
function declaring the same variable in its then-block and its
else-block is rejected with the duplicate-definition error, whatever its
name, parameters (duplicate-free) and the literals involved. -/
theorem duplicate_decl_across_branches (funcs : FuncTable) (n x : String)
    (ps : List String) (c v w : Int) (hnd : ps.Nodup) :
    analyzeFunction funcs [] ⟨n, ps,
        [.ifStmt (.number c) [.varDecl x (.number v)] (some [.varDecl x (.number w)])]⟩ =
      .error ("Variable '" ++ x ++ "' already defined in this scope") := by
  obtain ⟨fr, heq, hmem⟩ := defineParams_spec ps hnd [] [[]] (by simp [List.lookup])
  unfold analyzeFunction
  rw [heq]
  by_cases hx : (fr.lookup x).isSome = true
  · simp [analyzeBlock, analyzeStmt, analyzeExpr, defineVar, hx, Bind.bind, Except.bind]
  · have hx' : (fr.lookup x).isSome = false := by
      cases h : (fr.lookup x).isSome
      · rfl
      · exact absurd h hx
    have hlook : ((fr ++ [(x, "int")]).lookup x).isSome = true := by
      rw [lookup_append]
      cases htop : fr.lookup x with
      | some u => simp
      | none => simp [List.lookup]
    simp [analyzeBlock, analyzeStmt, analyzeExpr, defineVar, hx', hlook,
      Bind.bind, Except.bind]

/-- C8 witness: a concrete two-branch duplicate declaration. -/
theorem duplicate_decl_across_branches_witness :
    analyzeFunction [] [] ⟨"م", ["a"],
        [.ifStmt (.number 1) [.varDecl "y" (.number 1)]
          (some [.varDecl "y" (.number 2)])]⟩ =
      .error "Variable 'y' already defined in this scope" :=
  duplicate_decl_across_branches [] "م" "y" ["a"] 1 1 2 (by simp)

/-! ## C6: precedence and associativity -/

set_option maxRecDepth 4000 in
set_option maxHeartbeats 2000000 in
/-- C6: for every token sequence encoding `a + b * c` the parser returns
the `+` node with the `*` node of `b` and `c` as its right child; for
`a * b + c` the `*` node is the left child of `+`; and additive
operators associate left, so `a - b - c` parses as `(a - b) - c`.
(Token positions and identifier spellings are arbitrary; the fuel is an
artifact of the embedding, chosen large enough for these inputs.) -/
theorem parse_precedence_and_associativity
    (a b c : String) (l1 c1 l2 c2 l3 c3 l4 c4 l5 c5 l6 c6 : Nat) :
    (parseExpression 9
        [⟨.IDENTIFIER, some a, l1, c1⟩, ⟨.PLUS, some "+", l2, c2⟩,
         ⟨.IDENTIFIER, some b, l3, c3⟩, ⟨.MULTIPLY, some "*", l4, c4⟩,
         ⟨.IDENTIFIER, some c, l5, c5⟩, ⟨.EOF, none, l6, c6⟩] 0
      = .ok (.binaryOp (.ident a) "+" (.binaryOp (.ident b) "*" (.ident c)), 5)) ∧
    (parseExpression 9
        [⟨.IDENTIFIER, some a, l1, c1⟩, ⟨.MULTIPLY, some "*", l2, c2⟩,
         ⟨.IDENTIFIER, some b, l3, c3⟩, ⟨.PLUS, some "+", l4, c4⟩,
         ⟨.IDENTIFIER, some c, l5, c5⟩, ⟨.EOF, none, l6, c6⟩] 0
      = .ok (.binaryOp (.binaryOp (.ident a) "*" (.ident b)) "+" (.ident c), 5)) ∧
    (parseExpression 9
        [⟨.IDENTIFIER, some a, l1, c1⟩, ⟨.MINUS, some "-", l2, c2⟩,
         ⟨.IDENTIFIER, some b, l3, c3⟩, ⟨.MINUS, some "-", l4, c4⟩,
         ⟨.IDENTIFIER, some c, l5, c5⟩, ⟨.EOF, none, l6, c6⟩] 0
      = .ok (.binaryOp (.binaryOp (.ident a) "-" (.ident b)) "-" (.ident c), 5)) := by
  refine ⟨?_, ?_, ?_⟩ <;>
    simp [parseExpression.eq_def, parseComparison.eq_def, parseAdditive.eq_def,
      parseMultiplicative.eq_def, parseUnary.eq_def, parsePrimary.eq_def,
      compLoop.eq_def, addLoop.eq_def, mulLoop.eq_def,
      curT, current_token, peek_token, advanceP, Token.valueStr,
      Bind.bind, Except.bind, Pure.pure, Except.pure]

/-! ## C10: the global scope survives analysis untouched -/

theorem except_bind_ok {α β : Type} (x : Except String α) (f : α → Except String β)
    (b : β) : (x >>= f) = .ok b ↔ ∃ a, x = .ok a ∧ f a = .ok b := by
  cases x with
  | error e => simp [Bind.bind, Except.bind]
  | ok a => simp [Bind.bind, Except.bind]

theorem pure_ok {α : Type} (a b : α) :
    (pure a : Except String α) = .ok b ↔ a = b := by
  simp [Pure.pure, Except.pure]

/-- `define` touches only the innermost frame. -/
theorem defineVar_frames (sc : Scope) (name : String) (sc' : Scope)
    (h : defineVar sc name = .ok sc') :
    sc'.tail = sc.tail ∧ sc'.length = sc.length := by
  cases sc with
  | nil => simp [defineVar] at h
  | cons top rest =>
    by_cases hp : (top.lookup name).isSome = true
    · simp [defineVar, hp] at h
    · simp only [defineVar, hp, if_false, if_neg hp] at h
      cases h
      exact ⟨rfl, rfl⟩

mutual

/-- Analyzing a statement only ever modifies the innermost frame:
parent frames (in particular the analyzer's global scope) survive. -/
theorem analyzeStmt_frames (funcs : FuncTable) (sc : Scope) (s : Stmt) (sc' : Scope)
    (h : analyzeStmt funcs sc s = .ok sc') :
    sc'.tail = sc.tail ∧ sc'.length = sc.length := by
  cases s with
  | varDecl name value =>
    rw [analyzeStmt.eq_def] at h
    rw [except_bind_ok] at h
    obtain ⟨_, _, h⟩ := h
    exact defineVar_frames sc name sc' h
  | assign name value =>
    rw [analyzeStmt.eq_def] at h
    by_cases he : existsVar sc name = true
    · simp only [he, if_true] at h
      rw [except_bind_ok] at h
      obtain ⟨_, _, h⟩ := h
      rw [pure_ok] at h
      cases h
      exact ⟨rfl, rfl⟩
    · simp only [he] at h
      simp at h
  | ifStmt condition thenBlock elseBlock =>
    rw [analyzeStmt.eq_def] at h
    rw [except_bind_ok] at h
    obtain ⟨_, _, h⟩ := h
    rw [except_bind_ok] at h
    obtain ⟨sc1, h1, h⟩ := h
    have p1 := analyzeBlock_frames funcs sc thenBlock sc1 h1
    cases elseBlock with
    | some blk =>
      simp only at h
      have p2 := analyzeBlock_frames funcs sc1 blk sc' h
      exact ⟨p2.1.trans p1.1, p2.2.trans p1.2⟩
    | none =>
      simp only [pure_ok] at h
      cases h
      exact p1
  | whileStmt condition body =>
    rw [analyzeStmt.eq_def] at h
    rw [except_bind_ok] at h
    obtain ⟨_, _, h⟩ := h
    exact analyzeBlock_frames funcs sc body sc' h
  | ret value =>
    rw [analyzeStmt.eq_def] at h
    rw [except_bind_ok] at h
    obtain ⟨_, _, h⟩ := h
    rw [pure_ok] at h
    cases h
    exact ⟨rfl, rfl⟩
  | printStmt value =>
    rw [analyzeStmt.eq_def] at h
    rw [except_bind_ok] at h
    obtain ⟨_, _, h⟩ := h
    rw [pure_ok] at h
    cases h
    exact ⟨rfl, rfl⟩
  | callStmt name args =>
    rw [analyzeStmt.eq_def] at h
    by_cases hf : (funcs.lookup name).isSome = true
    · simp only [hf, if_true] at h
      rw [except_bind_ok] at h
      obtain ⟨_, _, h⟩ := h
      rw [pure_ok] at h
      cases h
      exact ⟨rfl, rfl⟩
    · simp only [hf] at h
      simp at h

/-- Analyzing a block only ever modifies the innermost frame. -/
theorem analyzeBlock_frames (funcs : FuncTable) (sc : Scope) (l : List Stmt) (sc' : Scope)
    (h : analyzeBlock funcs sc l = .ok sc') :
    sc'.tail = sc.tail ∧ sc'.length = sc.length := by
  cases l with
  | nil =>
    rw [analyzeBlock.eq_def] at h
    cases h
    exact ⟨rfl, rfl⟩
  | cons s rest =>
    rw [analyzeBlock.eq_def] at h
    rw [except_bind_ok] at h
    obtain ⟨sc1, h1, h2⟩ := h
    have p1 := analyzeStmt_frames funcs sc s sc1 h1
    have p2 := analyzeBlock_frames funcs sc1 rest sc' h2
    exact ⟨p2.1.trans p1.1, p2.2.trans p1.2⟩

end

/-- `defineParams` touches only the innermost frame. -/
theorem defineParams_frames (ps : List String) :
    ∀ (sc sc' : Scope), defineParams sc ps = .ok sc' →
    sc'.tail = sc.tail ∧ sc'.length = sc.length := by
  induction ps with
  | nil =>
    intro sc sc' h
    rw [defineParams] at h
    cases h
    exact ⟨rfl, rfl⟩
  | cons p rest ih =>
    intro sc sc' h
    rw [defineParams] at h
    rw [except_bind_ok] at h
    obtain ⟨sc1, h1, h2⟩ := h
    have p1 := defineVar_frames sc p sc1 h1
    have p2 := ih sc1 sc' h2
    exact ⟨p2.1.trans p1.1, p2.2.trans p1.2⟩

/-- A successful function analysis hands back the global scope
unchanged. -/
theorem analyzeFunction_global (funcs : FuncTable) (g : Frame) (f : Func)
    (g' : Frame) (h : analyzeFunction funcs g f = .ok g') : g' = g := by
  unfold analyzeFunction at h
  rw [except_bind_ok] at h
  obtain ⟨sc1, h1, h⟩ := h
  rw [except_bind_ok] at h
  obtain ⟨sc2, h2, h⟩ := h
  rw [pure_ok] at h
  have p1 := defineParams_frames f.params _ _ h1
  have p2 := analyzeBlock_frames funcs sc1 f.body sc2 h2
  have htail : sc2.tail = [g] := by rw [p2.1, p1.1]; rfl
  have hlen : sc2.length = 2 := by rw [p2.2, p1.2]; rfl
  cases sc2 with
  | nil => simp at hlen
  | cons a t =>
    simp only [List.tail_cons] at htail
    subst htail
    subst h
    rfl

/-- The per-function pass never changes the threaded global scope. -/
theorem analyzeFunctions_global (funcs : FuncTable) :
    ∀ (fs : List Func) (g g' : Frame),
    analyzeFunctions funcs g fs = .ok g' → g' = g := by
  intro fs
  induction fs with
  | nil =>
    intro g g' h
    rw [analyzeFunctions] at h
    cases h
    rfl
  | cons f rest ih =>
    intro g g' h
    rw [analyzeFunctions] at h
    rw [except_bind_ok] at h
    obtain ⟨g1, h1, h2⟩ := h
    have hg := analyzeFunction_global funcs g f g1 h1
    exact ih g g' (hg ▸ h2)

/-- C10: throughout a successful analysis the global variable scope
stays empty — `define` only ever targets the per-function scope, and
`current_scope` is handed back to the (unchanged) global scope after
each function — so definitions made while analyzing one function cannot
affect name resolution in another. -/
theorem analyzer_global_scope_empty (p : Program) (r : FuncTable × Frame)
    (h : analyze p = .ok r) :
    r.2 = [] ∧
    (∀ (funcs : FuncTable) (g : Frame) (f : Func) (g' : Frame),
      analyzeFunction funcs g f = .ok g' → g' = g) := by
  constructor
  · unfold analyze at h
    rw [except_bind_ok] at h
    obtain ⟨funcs, _, h⟩ := h
    rw [except_bind_ok] at h
    obtain ⟨g, hg, h⟩ := h
    rw [pure_ok] at h
    have := analyzeFunctions_global funcs p.functions [] g hg
    subst this
    cases h
    rfl
  · intro funcs g f g' hfg
    exact analyzeFunction_global funcs g f g' hfg

/-- C10 witness: a concrete successfully analyzed program. -/
theorem analyzer_global_scope_empty_witness :
    (([("م", (⟨"م", ["a"], [.ret (.ident "a")]⟩ : Func))], ([] : Frame)).2 = []) ∧
    (∀ (funcs : FuncTable) (g : Frame) (f : Func) (g' : Frame),
      analyzeFunction funcs g f = .ok g' → g' = g) :=
  analyzer_global_scope_empty ⟨[⟨"م", ["a"], [.ret (.ident "a")]⟩]⟩
    ([("م", ⟨"م", ["a"], [.ret (.ident "a")]⟩)], []) rfl

/-! ## C1: the generator succeeds on analyzed programs (≤ 6 parameters) -/

@[simp] theorem emit_localVars (st : CGState) (s : String) :
    (emit st s).localVars = st.localVars := rfl

@[simp] theorem emit_labelCounter (st : CGState) (s : String) :
    (emit st s).labelCounter = st.labelCounter := rfl

@[simp] theorem emit_stackOffset (st : CGState) (s : String) :
    (emit st s).stackOffset = st.stackOffset := rfl

@[simp] theorem emit_output (st : CGState) (s : String) :
    (emit st s).output = st.output ++ [s] := rfl

theorem popArgs_localVars (st : CGState) (n : Nat) :
    (popArgs st n).localVars = st.localVars := by
  unfold popArgs
  generalize List.range n = l
  induction l generalizing st with
  | nil => rfl
  | cons i rest ih =>
    simp only [List.foldl_cons]
    by_cases h : i < paramRegisters.length
    · simp only [h, if_true]
      exact ih (emit st _)
    · simp only [h, if_false]
      exact ih st

/-- The operator dispatch chain of `generate_expression` only emits
instructions; its result's local-variable map is unchanged. -/
theorem emitBinOp_localVars (st : CGState) (op : String) :
    (emitBinOp st op).localVars = st.localVars := by
  unfold emitBinOp
  split_ifs <;> rfl

/-- Lookup succeeds exactly on the key list. -/
theorem lookup_isSome_iff_mem {β : Type} (m : List (String × β)) (n : String) :
    ((m.lookup n).isSome = true) ↔ n ∈ m.map Prod.fst := by
  induction m with
  | nil => simp [List.lookup]
  | cons p rest ih =>
    by_cases hn : n = p.1
    · simp [List.lookup, hn]
    · have hb : (n == p.1) = false := beq_false_of_ne hn
      simp [List.lookup, hb, hn, ih]

/-- The in-place-update branch of `dictInsert` preserves the key list. -/
theorem dictReplace_keys (m : List (String × Int)) (k : String) (v : Int) :
    (m.map (fun p => if p.1 = k then (k, v) else p)).map Prod.fst = m.map Prod.fst := by
  induction m with
  | nil => rfl
  | cons p rest ih =>
    rcases p with ⟨pk, pv⟩
    by_cases hpk : pk = k
    · subst hpk
      simp [ih]
    · simp [hpk, ih]

/-- Lookup in a Python dict after `d[k] = v`. -/
theorem dictInsert_lookup (m : List (String × Int)) (k : String) (v : Int) (n : String) :
    ((dictInsert m k v).lookup n).isSome = true ↔
      ((m.lookup n).isSome = true ∨ n = k) := by
  unfold dictInsert
  by_cases hk : (m.lookup k).isSome = true
  · simp only [hk, if_true]
    rw [lookup_isSome_iff_mem, dictReplace_keys, ← lookup_isSome_iff_mem]
    constructor
    · exact Or.inl
    · rintro (h | h)
      · exact h
      · subst h; exact hk
  · have hk' : (m.lookup k).isSome = false := by
      cases h : (m.lookup k).isSome
      · rfl
      · exact absurd h hk
    simp only [hk', Bool.false_eq_true, if_false]
    rw [lookup_isSome_iff_mem, List.map_append, List.mem_append,
      ← lookup_isSome_iff_mem]
    simp

@[simp] theorem allocate_local_localVars (st : CGState) (name : String) :
    ((allocate_local st name).2).localVars = dictInsert st.localVars name (st.stackOffset - 8) := rfl

/-- The name-resolution invariant tying the analyzer's scope chain to
the generator's local-variable map. -/
def ExInv (sc : Scope) (lv : List (String × Int)) : Prop :=
  ∀ n, existsVar sc n = true → (lv.lookup n).isSome = true

mutual

/-- If an expression passed analysis under a scope chain covered by the
generator's local-variable map, generating it succeeds, leaving the map
unchanged. -/
theorem genExpr_total (funcs : FuncTable) (sc : Scope) (e : Expr) (st : CGState)
    (ha : analyzeExpr funcs sc e = .ok ()) (hinv : ExInv sc st.localVars) :
    ∃ st', genExpr st e = .ok st' ∧ st'.localVars = st.localVars := by
  cases e with
  | number v =>
    refine ⟨emit st ("    mov rax, " ++ Int.repr v), ?_, rfl⟩
    rw [genExpr.eq_def]
  | ident name =>
    rw [analyzeExpr.eq_def] at ha
    by_cases hex : existsVar sc name = true
    · have hlook := hinv name hex
      obtain ⟨off, hoff⟩ := Option.isSome_iff_exists.mp hlook
      refine ⟨emit st ("    mov rax, " ++ ("[rbp" ++ Int.repr off ++ "]")), ?_, rfl⟩
      rw [genExpr.eq_def]
      simp [get_var_location, hoff, Bind.bind, Except.bind]
    · simp [hex] at ha
  | binaryOp left op right =>
    rw [analyzeExpr.eq_def] at ha
    rw [except_bind_ok] at ha
    obtain ⟨u, hl, hr⟩ := ha
    obtain ⟨st1, h1, hlv1⟩ := genExpr_total funcs sc right st hr hinv
    have hinv1 : ExInv sc (emit st1 "    push rax").localVars := by
      rw [emit_localVars, hlv1]; exact hinv
    obtain ⟨st2, h2, hlv2⟩ := genExpr_total funcs sc left (emit st1 "    push rax") hl hinv1
    refine ⟨emitBinOp (emit st2 "    pop rbx") op, ?_, ?_⟩
    · rw [genExpr.eq_def]
      simp only [h1, Bind.bind, Except.bind, h2]
    · rw [emitBinOp_localVars, emit_localVars, hlv2, emit_localVars, hlv1]
  | unaryOp op v =>
    rw [analyzeExpr.eq_def] at ha
    obtain ⟨st1, h1, hlv1⟩ := genExpr_total funcs sc v st ha hinv
    refine ⟨if op = "-" then emit st1 "    neg rax" else st1, ?_, ?_⟩
    · rw [genExpr.eq_def]
      simp only [h1, Bind.bind, Except.bind]
      split <;> rfl
    · split <;> simp [hlv1]
  | call name args =>
    rw [analyzeExpr.eq_def] at ha
    by_cases hf : ((funcs.lookup name).isSome = true)
    · simp only [hf, if_true] at ha
      obtain ⟨st1, h1, hlv1⟩ := genArgsRev_total funcs sc args st ha hinv
      refine ⟨emit (popArgs st1 args.length) ("    call " ++ name), ?_, ?_⟩
      · rw [genExpr.eq_def]
        simp only [h1, Bind.bind, Except.bind]
      · rw [emit_localVars, popArgs_localVars, hlv1]
    · simp [hf] at ha

/-- Argument lists: same property for the reversed-evaluation loop. -/
theorem genArgsRev_total (funcs : FuncTable) (sc : Scope) (args : List Expr)
    (st : CGState) (ha : analyzeArgs funcs sc args = .ok ())
    (hinv : ExInv sc st.localVars) :
    ∃ st', genArgsRev st args = .ok st' ∧ st'.localVars = st.localVars := by
  cases args with
  | nil =>
    refine ⟨st, ?_, rfl⟩
    rw [genArgsRev.eq_def]
  | cons a rest =>
    rw [analyzeArgs.eq_def] at ha
    rw [except_bind_ok] at ha
    obtain ⟨u, haa, harest⟩ := ha
    obtain ⟨st1, h1, hlv1⟩ := genArgsRev_total funcs sc rest st harest hinv
    have hinv1 : ExInv sc st1.localVars := by rw [hlv1]; exact hinv
    obtain ⟨st2, h2, hlv2⟩ := genExpr_total funcs sc a st1 haa hinv1
    refine ⟨emit st2 "    push rax", ?_, ?_⟩
    · rw [genArgsRev.eq_def]
      simp only [h1, Bind.bind, Except.bind, h2]
    · rw [emit_localVars, hlv2, hlv1]

end

/-- Unfolding `existsVar` over a nonempty chain. -/
theorem existsVar_cons (fr : Frame) (rest : Scope) (n : String) :
    existsVar (fr :: rest) n = true ↔
      ((fr.lookup n).isSome = true ∨ existsVar rest n = true) := by
  by_cases h : (fr.lookup n).isSome = true
  · simp [existsVar, h]
  · have h' : (fr.lookup n).isSome = false := by
      cases hh : (fr.lookup n).isSome
      · rfl
      · exact absurd hh h
    simp [existsVar, h', h]

/-- Names visible after a successful `define`. -/
theorem defineVar_exists (sc : Scope) (name : String) (sc' : Scope)
    (h : defineVar sc name = .ok sc') (n : String) :
    existsVar sc' n = true ↔ (existsVar sc n = true ∨ n = name) := by
  cases sc with
  | nil => simp [defineVar] at h
  | cons top rest =>
    by_cases hp : (top.lookup name).isSome = true
    · simp [defineVar, hp] at h
    · simp only [defineVar, hp, if_neg hp] at h
      cases h
      rw [existsVar_cons, existsVar_cons]
      rw [lookup_isSome_iff_mem, List.map_append, List.mem_append, ← lookup_isSome_iff_mem]
      constructor
      · rintro ((h | h) | h)
        · exact Or.inl (Or.inl h)
        · simp at h
          exact Or.inr h
        · exact Or.inl (Or.inr h)
      · rintro ((h | h) | h)
        · exact Or.inl (Or.inl h)
        · exact Or.inr h
        · exact Or.inl (Or.inr (by simp [h]))

mutual

/-- If a statement passed analysis under a scope chain covered by the
generator's local-variable map, generating it succeeds and the updated
map covers the updated scope chain. -/
theorem genStmt_total (funcs : FuncTable) (sc : Scope) (s : Stmt) (sc' : Scope)
    (st : CGState) (ha : analyzeStmt funcs sc s = .ok sc')
    (hinv : ExInv sc st.localVars) :
    ∃ st', genStmt st s = .ok st' ∧ ExInv sc' st'.localVars := by
  cases s with
  | varDecl name value =>
    rw [analyzeStmt.eq_def] at ha
    rw [except_bind_ok] at ha
    obtain ⟨u, hav, hdef⟩ := ha
    have hinvA : ExInv sc ((allocate_local st name).2).localVars := by
      intro n hn
      rw [allocate_local_localVars, dictInsert_lookup]
      exact Or.inl (hinv n hn)
    obtain ⟨st1, h1, hlv1⟩ := genExpr_total funcs sc value _ hav hinvA
    refine ⟨emit st1 ("    mov [rbp" ++ Int.repr (allocate_local st name).1 ++ "], rax"),
      ?_, ?_⟩
    · rw [genStmt.eq_def]
      simp only [h1, Bind.bind, Except.bind]
    · intro n hn
      rw [emit_localVars, hlv1, allocate_local_localVars, dictInsert_lookup]
      rcases (defineVar_exists sc name sc' hdef n).mp hn with h | h
      · exact Or.inl (hinv n h)
      · exact Or.inr h
  | assign name value =>
    rw [analyzeStmt.eq_def] at ha
    by_cases hex : existsVar sc name = true
    · simp only [hex, if_true] at ha
      rw [except_bind_ok] at ha
      obtain ⟨u, hav, hsc⟩ := ha
      rw [pure_ok] at hsc
      obtain ⟨st1, h1, hlv1⟩ := genExpr_total funcs sc value st hav hinv
      have hlook : (st1.localVars.lookup name).isSome = true := by
        rw [hlv1]; exact hinv name hex
      obtain ⟨off, hoff⟩ := Option.isSome_iff_exists.mp hlook
      refine ⟨emit st1 ("    mov " ++ ("[rbp" ++ Int.repr off ++ "]") ++ ", rax"), ?_, ?_⟩
      · rw [genStmt.eq_def]
        simp only [h1, Bind.bind, Except.bind, get_var_location, hoff]
      · intro n hn
        rw [emit_localVars, hlv1]
        exact hinv n (hsc ▸ hn)
    · simp [hex] at ha
  | ifStmt condition thenBlock elseBlock =>
    rw [analyzeStmt.eq_def] at ha
    rw [except_bind_ok] at ha
    obtain ⟨u, hac, ha⟩ := ha
    rw [except_bind_ok] at ha
    obtain ⟨sc1, hthen, ha⟩ := ha
    have hinvL : ExInv sc ((new_label (new_label st "else").2 "endif").2).localVars := hinv
    obtain ⟨stC, hC, hlvC⟩ := genExpr_total funcs sc condition _ hac hinvL
    have hinvC : ExInv sc
        ((emit (emit stC "    cmp rax, 0")
          ("    je " ++ (new_label st "else").1)).localVars) := by
      intro n hn
      rw [emit_localVars, emit_localVars, hlvC]
      exact hinv n hn
    obtain ⟨stT, hT, hinvT⟩ := genBlock_total funcs sc thenBlock sc1 _ hthen hinvC
    cases elseBlock with
    | some blk =>
      simp only at ha
      have hinvT' : ExInv sc1
          ((emit (emit stT ("    jmp " ++ (new_label (new_label st "else").2 "endif").1))
            ((new_label st "else").1 ++ ":")).localVars) := by
        intro n hn
        rw [emit_localVars, emit_localVars]
        exact hinvT n hn
      obtain ⟨stE, hE, hinvE⟩ := genBlock_total funcs sc1 blk sc' _ ha hinvT'
      refine ⟨emit stE ((new_label (new_label st "else").2 "endif").1 ++ ":"), ?_, ?_⟩
      · rw [genStmt.eq_def]
        simp only [hC, Bind.bind, Except.bind, hT, hE]
      · intro n hn
        rw [emit_localVars]
        exact hinvE n hn
    | none =>
      rw [pure_ok] at ha
      refine ⟨emit (emit (emit stT
          ("    jmp " ++ (new_label (new_label st "else").2 "endif").1))
          ((new_label st "else").1 ++ ":"))
          ((new_label (new_label st "else").2 "endif").1 ++ ":"), ?_, ?_⟩
      · rw [genStmt.eq_def]
        simp only [hC, Bind.bind, Except.bind, hT, Pure.pure, Except.pure]
      · intro n hn
        rw [emit_localVars, emit_localVars, emit_localVars]
        exact hinvT n (ha ▸ hn)
  | whileStmt condition body =>
    rw [analyzeStmt.eq_def] at ha
    rw [except_bind_ok] at ha
    obtain ⟨u, hac, hbody⟩ := ha
    have hinvL : ExInv sc
        ((emit ((new_label (new_label st "while_start").2 "while_end").2)
          ((new_label st "while_start").1 ++ ":")).localVars) := hinv
    obtain ⟨stC, hC, hlvC⟩ := genExpr_total funcs sc condition _ hac hinvL
    have hinvC : ExInv sc
        ((emit (emit stC "    cmp rax, 0")
          ("    je " ++ (new_label (new_label st "while_start").2 "while_end").1)).localVars) := by
      intro n hn
      rw [emit_localVars, emit_localVars, hlvC]
      exact hinv n hn
    obtain ⟨stB, hB, hinvB⟩ := genBlock_total funcs sc body sc' _ hbody hinvC
    refine ⟨emit (emit stB ("    jmp " ++ (new_label st "while_start").1))
        ((new_label (new_label st "while_start").2 "while_end").1 ++ ":"), ?_, ?_⟩
    · rw [genStmt.eq_def]
      simp only [hC, Bind.bind, Except.bind, hB]
    · intro n hn
      rw [emit_localVars, emit_localVars]
      exact hinvB n hn
  | ret value =>
    rw [analyzeStmt.eq_def] at ha
    rw [except_bind_ok] at ha
    obtain ⟨u, hav, hsc⟩ := ha
    rw [pure_ok] at hsc
    obtain ⟨st1, h1, hlv1⟩ := genExpr_total funcs sc value st hav hinv
    refine ⟨emit (emit (emit st1 "    mov rsp, rbp") "    pop rbp") "    ret", ?_, ?_⟩
    · rw [genStmt.eq_def]
      simp only [h1, Bind.bind, Except.bind]
    · intro n hn
      rw [emit_localVars, emit_localVars, emit_localVars, hlv1]
      exact hinv n (hsc ▸ hn)
  | printStmt value =>
    rw [analyzeStmt.eq_def] at ha
    rw [except_bind_ok] at ha
    obtain ⟨u, hav, hsc⟩ := ha
    rw [pure_ok] at hsc
    obtain ⟨st1, h1, hlv1⟩ := genExpr_total funcs sc value st hav hinv
    refine ⟨emit (emit (emit st1 "    # Print integer in rax") "    mov rdi, rax")
        "    call print_number", ?_, ?_⟩
    · rw [genStmt.eq_def]
      simp only [h1, Bind.bind, Except.bind]
    · intro n hn
      rw [emit_localVars, emit_localVars, emit_localVars, hlv1]
      exact hinv n (hsc ▸ hn)
  | callStmt name args =>
    rw [analyzeStmt.eq_def] at ha
    by_cases hf : ((funcs.lookup name).isSome = true)
    · simp only [hf, if_true] at ha
      rw [except_bind_ok] at ha
      obtain ⟨u, hargs, hsc⟩ := ha
      rw [pure_ok] at hsc
      obtain ⟨st1, h1, hlv1⟩ := genArgsRev_total funcs sc args st hargs hinv
      refine ⟨emit (popArgs st1 args.length) ("    call " ++ name), ?_, ?_⟩
      · rw [genStmt.eq_def]
        simp only [h1, Bind.bind, Except.bind]
      · intro n hn
        rw [emit_localVars, popArgs_localVars, hlv1]
        exact hinv n (hsc ▸ hn)
    · simp [hf] at ha

/-- Block version of `genStmt_total`. -/
theorem genBlock_total (funcs : FuncTable) (sc : Scope) (l : List Stmt) (sc' : Scope)
    (st : CGState) (ha : analyzeBlock funcs sc l = .ok sc')
    (hinv : ExInv sc st.localVars) :
    ∃ st', genBlock st l = .ok st' ∧ ExInv sc' st'.localVars := by
  cases l with
  | nil =>
    rw [analyzeBlock.eq_def] at ha
    cases ha
    refine ⟨st, ?_, hinv⟩
    rw [genBlock.eq_def]
  | cons s rest =>
    rw [analyzeBlock.eq_def] at ha
    rw [except_bind_ok] at ha
    obtain ⟨sc1, h1, h2⟩ := ha
    obtain ⟨st1, hg1, hinv1⟩ := genStmt_total funcs sc s sc1 st h1 hinv
    obtain ⟨st2, hg2, hinv2⟩ := genBlock_total funcs sc1 rest sc' st1 h2 hinv1
    refine ⟨st2, ?_, hinv2⟩
    rw [genBlock.eq_def]
    simp only [hg1, Bind.bind, Except.bind, hg2]

end

/-- Names bound after a successful `defineParams` over an arbitrary
innermost frame. -/
theorem defineParams_lookup (ps : List String) :
    ∀ (top : Frame) (rest : Scope) (sc' : Scope),
    defineParams (top :: rest) ps = .ok sc' →
    ∃ top' : Frame, sc' = top' :: rest ∧
      ∀ n, ((top'.lookup n).isSome = true ↔ ((top.lookup n).isSome = true ∨ n ∈ ps)) := by
  induction ps with
  | nil =>
    intro top rest sc' h
    rw [defineParams] at h
    cases h
    exact ⟨top, rfl, by simp⟩
  | cons p rest ih =>
    intro top scr sc' h
    rw [defineParams] at h
    rw [except_bind_ok] at h
    obtain ⟨sc1, h1, h2⟩ := h
    by_cases hp : (top.lookup p).isSome = true
    · simp [defineVar, hp] at h1
    · simp only [defineVar, if_neg hp] at h1
      cases h1
      obtain ⟨top', heq, hmem⟩ := ih (top ++ [(p, "int")]) scr sc' h2
      refine ⟨top', heq, ?_⟩
      intro n
      rw [hmem n, lookup_isSome_iff_mem, List.map_append, List.mem_append,
        ← lookup_isSome_iff_mem]
      constructor
      · rintro ((h | h) | h)
        · exact Or.inl h
        · simp at h
          exact Or.inr (by simp [h])
        · exact Or.inr (by simp [h])
      · rintro (h | h)
        · exact Or.inl (Or.inl h)
        · rcases List.mem_cons.mp h with h | h
          · exact Or.inl (Or.inr (by simp [h]))
          · exact Or.inr h

/-- Names bound by the parameter spill loop when every parameter fits
in a register. -/
theorem storeParams_lookup (ps : List String) :
    ∀ (i : Nat) (st : CGState), i + ps.length ≤ paramRegisters.length →
    ∀ n, (((storeParams st i ps).localVars.lookup n).isSome = true ↔
      ((st.localVars.lookup n).isSome = true ∨ n ∈ ps)) := by
  induction ps with
  | nil =>
    intro i st _ n
    rw [storeParams]
    simp
  | cons p rest ih =>
    intro i st hle n
    rw [storeParams]
    have hi : i < paramRegisters.length := by
      simp only [List.length_cons] at hle
      omega
    simp only [hi, if_true]
    rw [ih (i + 1) _ (by simp only [List.length_cons] at hle; omega) n]
    rw [emit_localVars, allocate_local_localVars, dictInsert_lookup]
    constructor
    · rintro ((h | h) | h)
      · exact Or.inl h
      · exact Or.inr (by simp [h])
      · exact Or.inr (by simp [h])
    · rintro (h | h)
      · exact Or.inl (Or.inl h)
      · rcases List.mem_cons.mp h with h | h
        · exact Or.inl (Or.inr h)
        · exact Or.inr h

/-- If a function passed analysis (against the empty global scope) and
has at most six parameters, generating it succeeds from any generator
state. -/
theorem genFunction_total (funcs : FuncTable) (f : Func) (g' : Frame) (st : CGState)
    (ha : analyzeFunction funcs [] f = .ok g')
    (hp : f.params.length ≤ paramRegisters.length) :
    ∃ st', genFunction st f = .ok st' := by
  unfold analyzeFunction at ha
  rw [except_bind_ok] at ha
  obtain ⟨sc1, hdp, ha⟩ := ha
  rw [except_bind_ok] at ha
  obtain ⟨sc2, hblk, _⟩ := ha
  obtain ⟨fr, heq, hmem⟩ := defineParams_lookup f.params [] [[]] sc1 hdp
  subst heq
  set stPre := emit (emit (emit (emit (emit (resetState st f) "") (f.name ++ ":"))
    "    push rbp") "    mov rbp, rsp") "    sub rsp, 256" with hstPre
  have hlvPre : stPre.localVars = [] := rfl
  have hinv : ExInv [fr, []] ((storeParams stPre 0 f.params).localVars) := by
    intro n hn
    rw [storeParams_lookup f.params 0 stPre (by omega) n]
    rcases (existsVar_cons fr [[]] n).mp hn with h | h
    · exact Or.inr ((hmem n).mp h |>.resolve_left (by simp [List.lookup]))
    · rcases (existsVar_cons [] [] n).mp h with h | h
      · simp [List.lookup] at h
      · simp [existsVar] at h
  obtain ⟨stB, hB, _⟩ := genBlock_total funcs [fr, []] f.body sc2
    (storeParams stPre 0 f.params) hblk hinv
  refine ⟨emit (emit (emit stB "    mov rsp, rbp") "    pop rbp") "    ret", ?_⟩
  unfold genFunction
  simp only [← hstPre, hB, Bind.bind, Except.bind]

/-- Second-pass/function-loop version. -/
theorem genFunctions_total (funcs : FuncTable) :
    ∀ (fs : List Func) (g' : Frame) (st : CGState),
    analyzeFunctions funcs [] fs = .ok g' →
    (∀ f ∈ fs, f.params.length ≤ paramRegisters.length) →
    ∃ st', genFunctions st fs = .ok st' := by
  intro fs
  induction fs with
  | nil =>
    intro g' st _ _
    exact ⟨st, rfl⟩
  | cons f rest ih =>
    intro g' st ha hp
    rw [analyzeFunctions] at ha
    rw [except_bind_ok] at ha
    obtain ⟨g1, h1, h2⟩ := ha
    have hg1 : g1 = [] := analyzeFunction_global funcs [] f g1 h1
    obtain ⟨st1, hf1⟩ := genFunction_total funcs f g1 st h1 (hp f (by simp))
    obtain ⟨st2, hf2⟩ := ih g' st1 (hg1 ▸ h2) (fun f hf => hp f (by simp [hf]))
    refine ⟨st2, ?_⟩
    rw [genFunctions]
    simp only [hf1, Bind.bind, Except.bind, hf2]

/-- C1 (amended): for every program that passes semantic analysis in
which every function has at most six parameters, the code generator
produces an assembly listing without raising any error — every
variable-location lookup succeeds.  (With more than six parameters the
generator can fail; see the counterexample.) -/
theorem codegen_total_on_analyzed (p : Program) (r : FuncTable × Frame)
    (h : analyze p = .ok r) (hp : ∀ f ∈ p.functions, f.params.length ≤ 6) :
    ∃ out, generateLines p = .ok out := by
  unfold analyze at h
  rw [except_bind_ok] at h
  obtain ⟨funcs, hc, h⟩ := h
  rw [except_bind_ok] at h
  obtain ⟨g, hfs, _⟩ := h
  obtain ⟨stF, hF⟩ := genFunctions_total funcs p.functions g
    (emit (emit (emit (emit (emit (emit cgInit ".intel_syntax noprefix") "")
      ".section .data") "fmt_int: .asciz \"%d\\n\"") ".section .text") ".global _start")
    hfs hp
  refine ⟨(emit (emit (emit (emit (emit (emit stF "") "_start:") "    call رئيسية")
      "    mov rdi, rax") "    mov rax, 60") "    syscall").output, ?_⟩
  unfold generateLines
  simp only [hF, Bind.bind, Except.bind]

/-- The C1 counterexample function: seven parameters, the body reads the
seventh. -/
def c1Func : Func :=
  ⟨"ف", ["a", "b", "c", "d", "e", "f", "g"], [.ret (.ident "g")]⟩

/-- C1 counterexample: the seven-parameter program passes semantic
analysis, yet the generator's variable-location lookup for the seventh
parameter fails, so code generation raises an error. -/
theorem c1_counterexample :
    analyze ⟨[c1Func]⟩ = .ok ([("ف", c1Func)], []) ∧
    generateLines ⟨[c1Func]⟩ = .error "Variable 'g' not found" :=
  ⟨rfl, rfl⟩

/-- C1 witness: a concrete analyzed two-function program (six or fewer
parameters each) for which generation succeeds. -/
theorem codegen_total_on_analyzed_witness :
    ∃ out, generateLines ⟨[⟨"جمع", ["a", "b"], [.ret (.binaryOp (.ident "a") "+" (.ident "b"))]⟩,
      ⟨"رئيسية", [], [.printStmt (.call "جمع" [.number 7, .number 8]), .ret (.number 0)]⟩]⟩
      = .ok out :=
  codegen_total_on_analyzed
    ⟨[⟨"جمع", ["a", "b"], [.ret (.binaryOp (.ident "a") "+" (.ident "b"))]⟩,
      ⟨"رئيسية", [], [.printStmt (.call "جمع" [.number 7, .number 8]), .ret (.number 0)]⟩]⟩
    ([("جمع", ⟨"جمع", ["a", "b"], [.ret (.binaryOp (.ident "a") "+" (.ident "b"))]⟩),
      ("رئيسية", ⟨"رئيسية", [], [.printStmt (.call "جمع" [.number 7, .number 8]),
        .ret (.number 0)]⟩)], [])
    rfl (by decide)

/-! ## C4: identifier lexeme character set -/

/-- Well-formedness of identifier and number lexemes as produced by the
lexer. -/
def TokOK (t : Token) : Prop :=
  (t.type = .IDENTIFIER →
    ∃ s, t.value = some s ∧ s.data ≠ [] ∧ ∀ c ∈ s.data, identChar c = true) ∧
  (t.type = .NUMBER →
    ∃ s, t.value = some s ∧ s.data ≠ [] ∧ ∀ c ∈ s.data, py_isdigit c = true)

theorem TokOK_other (t : Token) (h1 : t.type ≠ .IDENTIFIER) (h2 : t.type ≠ .NUMBER) :
    TokOK t :=
  ⟨fun h => absurd h h1, fun h => absurd h h2⟩

theorem lookup_mem_values {β : Type} (l : List (String × β)) (s : String) (k : β)
    (h : l.lookup s = some k) : k ∈ l.map Prod.snd := by
  induction l with
  | nil => simp [List.lookup] at h
  | cons p rest ih =>
    rw [List.lookup] at h
    cases hsb : (s == p.1) with
    | true =>
      rw [hsb] at h
      cases h
      simp
    | false =>
      rw [hsb] at h
      simp only [List.map_cons, List.mem_cons]
      exact Or.inr (ih h)

/-- Every token appended by one lexer step is well-formed, so the whole
accepted stream is. -/
theorem lexLoop_sound : ∀ (fuel : Nat) (src : List Char) (line col : Nat)
    (acc toks : List Token), lexLoop fuel src line col acc = .ok toks →
    (∀ t ∈ acc, TokOK t) → ∀ t ∈ toks, TokOK t := by
  intro fuel
  induction fuel with
  | zero =>
    intro src line col acc toks h _
    simp [lexLoop] at h
  | succ fuel ih =>
    intro src line col acc toks h hacc
    cases src with
    | nil =>
      simp only [lexLoop] at h
      cases h
      intro t ht
      rcases List.mem_append.mp ht with ht | ht
      · exact hacc t ht
      · simp only [List.mem_singleton] at ht
        subst ht
        exact TokOK_other _ (by simp) (by simp)
    | cons c rest =>
      simp only [lexLoop] at h
      by_cases hws : isWs c = true
      · rw [dif_pos hws] at h
        exact ih _ _ _ _ _ h hacc
      · rw [dif_neg hws] at h
        by_cases hcm : c = '/' ∧ rest.head? = some '/'
        · rw [dif_pos hcm] at h
          exact ih _ _ _ _ _ h hacc
        · rw [dif_neg hcm] at h
          by_cases hdg : py_isdigit c = true
          · rw [dif_pos hdg] at h
            refine ih _ _ _ _ _ h ?_
            intro t ht
            rcases List.mem_append.mp ht with ht | ht
            · exact hacc t ht
            · simp only [List.mem_singleton] at ht
              subst ht
              refine ⟨fun habs => absurd habs (by simp), fun _ => ⟨_, rfl, ?_, ?_⟩⟩
              · rw [List.takeWhile_cons_of_pos hdg]
                simp
              · intro ch hch
                exact List.mem_takeWhile_imp hch
          · rw [dif_neg hdg] at h
            by_cases hid : identStart c = true
            · rw [dif_pos hid] at h
              refine ih _ _ _ _ _ h ?_
              intro t ht
              rcases List.mem_append.mp ht with ht | ht
              · exact hacc t ht
              · simp only [List.mem_singleton] at ht
                subst ht
                cases hk : KEYWORDS.lookup (String.mk ((c :: rest).takeWhile identChar)) with
                | some k =>
                  simp only [hk]
                  have hmemv := lookup_mem_values _ _ _ hk
                  have hall : ∀ x ∈ KEYWORDS.map Prod.snd,
                      x ≠ TokenType.IDENTIFIER ∧ x ≠ TokenType.NUMBER := by decide
                  exact TokOK_other _ (hall k hmemv).1 (hall k hmemv).2
                | none =>
                  simp only [hk]
                  refine ⟨fun _ => ⟨_, rfl, ?_, ?_⟩, fun habs => absurd habs (by simp)⟩
                  · rw [List.takeWhile_cons_of_pos (identChar_of_identStart c hid)]
                    simp
                  · intro ch hch
                    exact List.mem_takeWhile_imp hch
            · rw [dif_neg hid] at h
              -- operator and delimiter branches: the appended token (if
              -- any) is never an identifier or number
              have step : ∀ (src' : List Char) (line' col' : Nat) (t0 : Token),
                  lexLoop fuel src' line' col' (acc ++ [t0]) = .ok toks →
                  t0.type ≠ .IDENTIFIER → t0.type ≠ .NUMBER →
                  ∀ t ∈ toks, TokOK t := by
                intro src' line' col' t0 h' hn1 hn2
                refine ih _ _ _ _ _ h' ?_
                intro t ht
                rcases List.mem_append.mp ht with ht | ht
                · exact hacc t ht
                · simp only [List.mem_singleton] at ht
                  subst ht
                  exact TokOK_other _ hn1 hn2
              by_cases h5 : c = '+'
              · rw [if_pos h5] at h
                exact step _ _ _ _ h (by simp) (by simp)
              · rw [if_neg h5] at h
                by_cases h6 : c = '-'
                · rw [if_pos h6] at h
                  exact step _ _ _ _ h (by simp) (by simp)
                · rw [if_neg h6] at h
                  by_cases h7 : c = '*'
                  · rw [if_pos h7] at h
                    exact step _ _ _ _ h (by simp) (by simp)
                  · rw [if_neg h7] at h
                    by_cases h8 : c = '/'
                    · rw [if_pos h8] at h
                      exact step _ _ _ _ h (by simp) (by simp)
                    · rw [if_neg h8] at h
                      by_cases h9 : c = '='
                      · rw [if_pos h9] at h
                        by_cases h9b : rest.head? = some '='
                        · rw [if_pos h9b] at h
                          exact step _ _ _ _ h (by simp) (by simp)
                        · rw [if_neg h9b] at h
                          exact step _ _ _ _ h (by simp) (by simp)
                      · rw [if_neg h9] at h
                        by_cases h10 : c = '!'
                        · rw [if_pos h10] at h
                          by_cases h10b : rest.head? = some '='
                          · rw [if_pos h10b] at h
                            exact step _ _ _ _ h (by simp) (by simp)
                          · rw [if_neg h10b] at h
                            simp at h
                        · rw [if_neg h10] at h
                          by_cases h11 : c = '>'
                          · rw [if_pos h11] at h
                            by_cases h11b : rest.head? = some '='
                            · rw [if_pos h11b] at h
                              exact step _ _ _ _ h (by simp) (by simp)
                            · rw [if_neg h11b] at h
                              exact step _ _ _ _ h (by simp) (by simp)
                          · rw [if_neg h11] at h
                            by_cases h12 : c = '<'
                            · rw [if_pos h12] at h
                              by_cases h12b : rest.head? = some '='
                              · rw [if_pos h12b] at h
                                exact step _ _ _ _ h (by simp) (by simp)
                              · rw [if_neg h12b] at h
                                exact step _ _ _ _ h (by simp) (by simp)
                            · rw [if_neg h12] at h
                              by_cases h13 : c = '('
                              · rw [if_pos h13] at h
                                exact step _ _ _ _ h (by simp) (by simp)
                              · rw [if_neg h13] at h
                                by_cases h14 : c = ')'
                                · rw [if_pos h14] at h
                                  exact step _ _ _ _ h (by simp) (by simp)
                                · rw [if_neg h14] at h
                                  by_cases h15 : c = '{'
                                  · rw [if_pos h15] at h
                                    exact step _ _ _ _ h (by simp) (by simp)
                                  · rw [if_neg h15] at h
                                    by_cases h16 : c = '}'
                                    · rw [if_pos h16] at h
                                      exact step _ _ _ _ h (by simp) (by simp)
                                    · rw [if_neg h16] at h
                                      by_cases h17 : (c = ';' || c = '؛') = true
                                      · rw [if_pos h17] at h
                                        exact step _ _ _ _ h (by simp) (by simp)
                                      · rw [if_neg h17] at h
                                        by_cases h18 : (c = ',' || c = '،') = true
                                        · rw [if_pos h18] at h
                                          exact step _ _ _ _ h (by simp) (by simp)
                                        · rw [if_neg h18] at h
                                          simp at h

/-- Identifier-continue characters never include the three excluded
Arabic punctuation marks U+060C, U+061B, U+061F. -/
theorem identChar_not_excluded (c : Char) (h : identChar c = true) :
    c.toNat ≠ 0x60C ∧ c.toNat ≠ 0x61B ∧ c.toNat ≠ 0x61F := by
  refine ⟨?_, ?_, ?_⟩ <;> intro hc <;>
    simp only [identChar, py_isalnum, py_isalpha, py_isdigit, is_arabic_char, hc,
      Bool.or_eq_true, Bool.and_eq_true, decide_eq_true_eq] at h <;>
    norm_num at h <;>
    (have h9 := congrArg Char.toNat h; rw [hc] at h9; simp at h9)

/-- C4 (amended): for every source the lexer accepts and every
identifier token it produces, each character of the lexeme satisfies the
identifier-continue test (Python-alphanumeric — a Unicode-wide class not
limited to ASCII — or underscore or an Arabic-range code point), and the
lexeme never contains U+060C, U+061B or U+061F. -/
theorem identifier_lexeme_charset (source : String) (toks : List Token)
    (h : tokenize source = .ok toks) (t : Token) (ht : t ∈ toks)
    (hty : t.type = .IDENTIFIER) :
    ∃ s, t.value = some s ∧ ∀ c ∈ s.data,
      ((py_isalnum c = true ∨ c = '_' ∨ is_arabic_char c = true) ∧
       c.toNat ≠ 0x60C ∧ c.toNat ≠ 0x61B ∧ c.toNat ≠ 0x61F) := by
  have hs := lexLoop_sound _ _ _ _ _ _ h (by intro t ht; simp at ht) t ht
  obtain ⟨s, hv, _, hall⟩ := hs.1 hty
  refine ⟨s, hv, ?_⟩
  intro c hc
  have hic := hall c hc
  refine ⟨?_, identChar_not_excluded c hic⟩
  have h3 : (py_isalnum c = true ∨ c = '_') ∨ is_arabic_char c = true := by
    simpa [identChar, Bool.or_eq_true, decide_eq_true_eq] using hic
  tauto

/-- C4 counterexample: the lexer accepts the source `"α"` (Python's
`isalpha` is Unicode-wide) and produces the identifier lexeme `"α"`,
whose character is not an ASCII letter, not an ASCII digit, not an
underscore, and lies in neither U+0600..U+06FF nor U+0750..U+077F —
refuting the claimed character classes. -/
theorem c4_counterexample :
    tokenize "α" = .ok [⟨.IDENTIFIER, some "α", 1, 1⟩, ⟨.EOF, none, 1, 2⟩] ∧
    (∀ c ∈ "α".data,
      ¬(c.isAlpha = true ∨ c.isDigit = true ∨ c = '_' ∨
        (0x600 ≤ c.toNat ∧ c.toNat ≤ 0x6FF) ∨
        (0x750 ≤ c.toNat ∧ c.toNat ≤ 0x77F))) :=
  ⟨rfl, by decide⟩

/-- C4 witness: a concrete accepted Arabic identifier. -/
theorem identifier_lexeme_charset_witness :
    ∃ s, (Token.mk .IDENTIFIER (some "س") 1 1).value = some s ∧ ∀ c ∈ s.data,
      ((py_isalnum c = true ∨ c = '_' ∨ is_arabic_char c = true) ∧
       c.toNat ≠ 0x60C ∧ c.toNat ≠ 0x61B ∧ c.toNat ≠ 0x61F) :=
  identifier_lexeme_charset "س" [⟨.IDENTIFIER, some "س", 1, 1⟩, ⟨.EOF, none, 1, 2⟩]
    rfl ⟨.IDENTIFIER, some "س", 1, 1⟩ (by simp) rfl

/-! ## C7: numeric literals in pipeline-accepted programs -/

mutual

/-- All numeric-literal values occurring in an expression. -/
def exprNums : Expr → List Int
  | .number v => [v]
  | .ident _ => []
  | .binaryOp l _ r => exprNums l ++ exprNums r
  | .unaryOp _ v => exprNums v
  | .call _ args => exprListNums args

/-- All numeric-literal values occurring in an expression list. -/
def exprListNums : List Expr → List Int
  | [] => []
  | e :: rest => exprNums e ++ exprListNums rest

end

mutual

/-- All numeric-literal values occurring in a statement. -/
def stmtNums : Stmt → List Int
  | .varDecl _ v => exprNums v
  | .assign _ v => exprNums v
  | .ifStmt c t e =>
    exprNums c ++ blockNums t ++ (match e with | some b => blockNums b | none => [])
  | .whileStmt c b => exprNums c ++ blockNums b
  | .ret v => exprNums v
  | .printStmt v => exprNums v
  | .callStmt _ args => exprListNums args

/-- All numeric-literal values occurring in a block. -/
def blockNums : List Stmt → List Int
  | [] => []
  | s :: rest => stmtNums s ++ blockNums rest

end

/-- All numeric-literal values occurring in a program. -/
def progNums (p : Program) : List Int :=
  (p.functions.map (fun f => blockNums f.body)).flatten

/-- A value read off a number token of the given token stream. -/
def NumOrigin (tokens : List Token) (v : Int) : Prop :=
  ∃ t ∈ tokens, t.type = .NUMBER ∧ v = py_int t.valueStr

theorem curT_mem (tokens : List Token) (pos : Nat) (t : Token)
    (h : curT tokens pos = .ok t) : t ∈ tokens := by
  unfold curT current_token at h
  by_cases hp : pos < tokens.length
  · rw [if_pos hp] at h
    cases hg : tokens.get? pos with
    | none => rw [hg] at h; cases h
    | some u =>
      rw [hg] at h
      cases h
      exact List.get?_mem hg
  · rw [if_neg hp] at h
    cases hg : tokens.getLast? with
    | none => rw [hg] at h; cases h
    | some u =>
      rw [hg] at h
      cases h
      exact List.mem_of_mem_getLast? hg

theorem expectT_mem (tokens : List Token) (pos : Nat) (tt : TokenType)
    (t : Token) (p' : Nat) (h : expectT tokens pos tt = .ok (t, p')) :
    t ∈ tokens ∧ t.type = tt := by
  unfold expectT at h
  rw [except_bind_ok] at h
  obtain ⟨t0, h0, h⟩ := h
  by_cases hty : t0.type = tt
  · rw [if_pos hty] at h
    rw [pure_ok] at h
    injection h with h1 h2
    subst h1
    exact ⟨curT_mem tokens pos _ h0, hty⟩
  · rw [if_neg hty] at h
    cases h

/-! One-step unfolding equations for the self-recursive parser loops
(safe to rewrite with, unlike their `eq_def`). -/

theorem parseProgramLoop_succ (fuel : Nat) (tokens : List Token) (pos : Nat)
    (acc : List Func) :
    parseProgramLoop (fuel + 1) tokens pos acc = (do
      let t ← curT tokens pos
      if t.type = .EOF then
        pure (acc, pos)
      else do
        let (f, pos) ← parseFunction fuel tokens pos
        parseProgramLoop fuel tokens pos (acc ++ [f])) := by
  rw [parseProgramLoop.eq_def]

theorem stmtLoop_succ (fuel : Nat) (tokens : List Token) (pos : Nat)
    (acc : List Stmt) :
    stmtLoop (fuel + 1) tokens pos acc = (do
      let t ← curT tokens pos
      if t.type ≠ .RBRACE then do
        let (s, pos) ← parseStatement fuel tokens pos
        stmtLoop fuel tokens pos (acc ++ [s])
      else
        pure (acc, pos)) := by
  rw [stmtLoop.eq_def]

theorem compLoop_succ (fuel : Nat) (tokens : List Token) (pos : Nat) (left : Expr) :
    compLoop (fuel + 1) tokens pos left = (do
      let t ← curT tokens pos
      if t.type = .EQ ∨ t.type = .NE ∨ t.type = .GT ∨ t.type = .LT ∨
          t.type = .GE ∨ t.type = .LE then do
        let pos := advanceP tokens pos
        let (right, pos) ← parseAdditive fuel tokens pos
        compLoop fuel tokens pos (.binaryOp left t.valueStr right)
      else
        pure (left, pos)) := by
  rw [compLoop.eq_def]

theorem addLoop_succ (fuel : Nat) (tokens : List Token) (pos : Nat) (left : Expr) :
    addLoop (fuel + 1) tokens pos left = (do
      let t ← curT tokens pos
      if t.type = .PLUS ∨ t.type = .MINUS then do
        let pos := advanceP tokens pos
        let (right, pos) ← parseMultiplicative fuel tokens pos
        addLoop fuel tokens pos (.binaryOp left t.valueStr right)
      else
        pure (left, pos)) := by
  rw [addLoop.eq_def]

theorem mulLoop_succ (fuel : Nat) (tokens : List Token) (pos : Nat) (left : Expr) :
    mulLoop (fuel + 1) tokens pos left = (do
      let t ← curT tokens pos
      if t.type = .MULTIPLY ∨ t.type = .DIVIDE then do
        let pos := advanceP tokens pos
        let (right, pos) ← parseUnary fuel tokens pos
        mulLoop fuel tokens pos (.binaryOp left t.valueStr right)
      else
        pure (left, pos)) := by
  rw [mulLoop.eq_def]

theorem parseUnary_succ (fuel : Nat) (tokens : List Token) (pos : Nat) :
    parseUnary (fuel + 1) tokens pos = (do
      let t ← curT tokens pos
      if t.type = .MINUS then do
        let pos := advanceP tokens pos
        let (operand, pos) ← parseUnary fuel tokens pos
        pure (.unaryOp t.valueStr operand, pos)
      else
        parsePrimary fuel tokens pos) := by
  rw [parseUnary.eq_def]

theorem argLoop_succ (fuel : Nat) (tokens : List Token) (pos : Nat)
    (acc : List Expr) :
    argLoop (fuel + 1) tokens pos acc = (do
      let t ← curT tokens pos
      if t.type = .COMMA then do
        let pos := advanceP tokens pos
        let (a, pos) ← parseExpression fuel tokens pos
        argLoop fuel tokens pos (acc ++ [a])
      else
        pure (acc, pos)) := by
  rw [argLoop.eq_def]

theorem exprListNums_append (l1 l2 : List Expr) :
    exprListNums (l1 ++ l2) = exprListNums l1 ++ exprListNums l2 := by
  induction l1 with
  | nil => simp [exprListNums]
  | cons e rest ih => simp [exprListNums, ih]

theorem blockNums_append (l1 l2 : List Stmt) :
    blockNums (l1 ++ l2) = blockNums l1 ++ blockNums l2 := by
  induction l1 with
  | nil => simp [blockNums]
  | cons s rest ih => simp [blockNums, ih]

set_option maxHeartbeats 1600000 in
mutual

theorem parseProgramLoop_nums (fuel : Nat) (tokens : List Token) (pos : Nat)
    (acc : List Func) (fs : List Func) (p' : Nat)
    (h : parseProgramLoop fuel tokens pos acc = .ok (fs, p'))
    (hacc : ∀ f ∈ acc, ∀ v ∈ blockNums f.body, NumOrigin tokens v) :
    ∀ f ∈ fs, ∀ v ∈ blockNums f.body, NumOrigin tokens v := by
  cases fuel with
  | zero => simp [parseProgramLoop.eq_def] at h
  | succ fuel =>
    rw [parseProgramLoop_succ] at h
    rw [except_bind_ok] at h
    obtain ⟨t, ht, h⟩ := h
    by_cases hty : t.type = .EOF
    · rw [if_pos hty, pure_ok] at h
      injection h with h1 h2
      subst h1
      exact hacc
    · rw [if_neg hty] at h
      rw [except_bind_ok] at h
      obtain ⟨⟨f, p1⟩, hf, h⟩ := h
      refine parseProgramLoop_nums fuel tokens p1 (acc ++ [f]) fs p' h ?_
      intro g hg
      rcases List.mem_append.mp hg with hg | hg
      · exact hacc g hg
      · simp only [List.mem_singleton] at hg
        subst hg
        exact parseFunction_nums fuel tokens pos g p1 hf

theorem parseFunction_nums (fuel : Nat) (tokens : List Token) (pos : Nat)
    (f : Func) (p' : Nat) (h : parseFunction fuel tokens pos = .ok (f, p')) :
    ∀ v ∈ blockNums f.body, NumOrigin tokens v := by
  cases fuel with
  | zero => simp [parseFunction.eq_def] at h
  | succ fuel =>
    simp only [parseFunction.eq_def] at h
    rw [except_bind_ok] at h
    obtain ⟨⟨t1, p1⟩, h1, h⟩ := h
    rw [except_bind_ok] at h
    obtain ⟨⟨tn, p2⟩, h2, h⟩ := h
    rw [except_bind_ok] at h
    obtain ⟨⟨t3, p3⟩, h3, h⟩ := h
    rw [except_bind_ok] at h
    obtain ⟨t4, h4, h⟩ := h
    by_cases hty : t4.type ≠ .RPAREN
    · rw [if_pos hty] at h
      rw [except_bind_ok] at h
      obtain ⟨⟨tp, pp⟩, hp0, h⟩ := h
      rw [except_bind_ok] at h
      obtain ⟨⟨params, p5⟩, h5, h⟩ := h
      rw [except_bind_ok] at h
      obtain ⟨⟨t6, p6⟩, h6, h⟩ := h
      rw [except_bind_ok] at h
      obtain ⟨⟨body, p7⟩, h7, h⟩ := h
      rw [pure_ok] at h
      injection h with hf hp
      subst hf
      simpa using parseBlock_nums fuel tokens _ body p7 h7
    · rw [if_neg hty] at h
      rw [except_bind_ok] at h
      obtain ⟨⟨params, p5⟩, h5, h⟩ := h
      rw [except_bind_ok] at h
      obtain ⟨⟨t6, p6⟩, h6, h⟩ := h
      rw [except_bind_ok] at h
      obtain ⟨⟨body, p7⟩, h7, h⟩ := h
      rw [pure_ok] at h
      injection h with hf hp
      subst hf
      simpa using parseBlock_nums fuel tokens _ body p7 h7

theorem parseBlock_nums (fuel : Nat) (tokens : List Token) (pos : Nat)
    (stmts : List Stmt) (p' : Nat) (h : parseBlock fuel tokens pos = .ok (stmts, p')) :
    ∀ v ∈ blockNums stmts, NumOrigin tokens v := by
  cases fuel with
  | zero => simp [parseBlock.eq_def] at h
  | succ fuel =>
    simp only [parseBlock.eq_def] at h
    rw [except_bind_ok] at h
    obtain ⟨⟨t1, p1⟩, h1, h⟩ := h
    rw [except_bind_ok] at h
    obtain ⟨⟨l, p2⟩, h2, h⟩ := h
    rw [except_bind_ok] at h
    obtain ⟨⟨t3, p3⟩, h3, h⟩ := h
    rw [pure_ok] at h
    injection h with hs hpp
    subst hs
    exact stmtLoop_nums fuel tokens p1 [] l p2 h2 (by simp [blockNums])

theorem stmtLoop_nums (fuel : Nat) (tokens : List Token) (pos : Nat)
    (acc : List Stmt) (stmts : List Stmt) (p' : Nat)
    (h : stmtLoop fuel tokens pos acc = .ok (stmts, p'))
    (hacc : ∀ v ∈ blockNums acc, NumOrigin tokens v) :
    ∀ v ∈ blockNums stmts, NumOrigin tokens v := by
  cases fuel with
  | zero => simp [stmtLoop.eq_def] at h
  | succ fuel =>
    rw [stmtLoop_succ] at h
    rw [except_bind_ok] at h
    obtain ⟨t, ht, h⟩ := h
    by_cases hty : t.type ≠ .RBRACE
    · rw [if_pos hty] at h
      rw [except_bind_ok] at h
      obtain ⟨⟨s, p1⟩, hs, h⟩ := h
      refine stmtLoop_nums fuel tokens p1 (acc ++ [s]) stmts p' h ?_
      intro v hv
      rw [blockNums_append] at hv
      rcases List.mem_append.mp hv with hv | hv
      · exact hacc v hv
      · simp only [blockNums, List.append_nil] at hv
        exact parseStatement_nums fuel tokens pos s p1 hs v hv
    · rw [if_neg hty, pure_ok] at h
      injection h with h1 h2
      subst h1
      exact hacc

theorem parseStatement_nums (fuel : Nat) (tokens : List Token) (pos : Nat)
    (s : Stmt) (p' : Nat) (h : parseStatement fuel tokens pos = .ok (s, p')) :
    ∀ v ∈ stmtNums s, NumOrigin tokens v := by
  cases fuel with
  | zero => simp [parseStatement.eq_def] at h
  | succ fuel =>
    simp only [parseStatement.eq_def] at h
    rw [except_bind_ok] at h
    obtain ⟨t, ht, h⟩ := h
    by_cases h1 : t.type = .VAR
    · rw [if_pos h1] at h
      exact parseVarDecl_nums fuel tokens pos s p' h
    · rw [if_neg h1] at h
      by_cases h2 : t.type = .IF
      · rw [if_pos h2] at h
        exact parseIfStatement_nums fuel tokens pos s p' h
      · rw [if_neg h2] at h
        by_cases h3 : t.type = .WHILE
        · rw [if_pos h3] at h
          exact parseWhileStatement_nums fuel tokens pos s p' h
        · rw [if_neg h3] at h
          by_cases h4 : t.type = .RETURN
          · rw [if_pos h4] at h
            exact parseReturnStatement_nums fuel tokens pos s p' h
          · rw [if_neg h4] at h
            by_cases h5 : t.type = .PRINT
            · rw [if_pos h5] at h
              exact parsePrintStatement_nums fuel tokens pos s p' h
            · rw [if_neg h5] at h
              by_cases h6 : t.type = .IDENTIFIER
              · rw [if_pos h6] at h
                cases hpk : peek_token tokens pos 1 with
                | some pk =>
                  simp only [hpk] at h
                  by_cases h7 : pk.type = .ASSIGN
                  · rw [if_pos h7] at h
                    exact parseAssignment_nums fuel tokens pos s p' h
                  · rw [if_neg h7] at h
                    by_cases h8 : pk.type = .LPAREN
                    · rw [if_pos h8] at h
                      rw [except_bind_ok] at h
                      obtain ⟨⟨na, p1⟩, hna, h⟩ := h
                      rw [except_bind_ok] at h
                      obtain ⟨⟨t2, p2⟩, h2, h⟩ := h
                      rw [pure_ok] at h
                      injection h with hs hp
                      subst hs
                      intro v hv
                      simp only [stmtNums] at hv
                      exact parseCallNA_nums fuel tokens pos na p1 hna v hv
                    · rw [if_neg h8] at h
                      cases h
                | none =>
                  simp only [hpk] at h
                  cases h
              · rw [if_neg h6] at h
                cases h

theorem parseVarDecl_nums (fuel : Nat) (tokens : List Token) (pos : Nat)
    (s : Stmt) (p' : Nat) (h : parseVarDecl fuel tokens pos = .ok (s, p')) :
    ∀ v ∈ stmtNums s, NumOrigin tokens v := by
  cases fuel with
  | zero => simp [parseVarDecl.eq_def] at h
  | succ fuel =>
    simp only [parseVarDecl.eq_def] at h
    rw [except_bind_ok] at h
    obtain ⟨⟨t1, p1⟩, h1, h⟩ := h
    rw [except_bind_ok] at h
    obtain ⟨⟨tn, p2⟩, h2, h⟩ := h
    rw [except_bind_ok] at h
    obtain ⟨⟨t3, p3⟩, h3, h⟩ := h
    rw [except_bind_ok] at h
    obtain ⟨⟨value, p4⟩, h4, h⟩ := h
    rw [except_bind_ok] at h
    obtain ⟨⟨t5, p5⟩, h5, h⟩ := h
    rw [pure_ok] at h
    injection h with hs hp
    subst hs
    intro v hv
    simp only [stmtNums] at hv
    exact parseExpression_nums fuel tokens p3 value p4 h4 v hv

theorem parseAssignment_nums (fuel : Nat) (tokens : List Token) (pos : Nat)
    (s : Stmt) (p' : Nat) (h : parseAssignment fuel tokens pos = .ok (s, p')) :
    ∀ v ∈ stmtNums s, NumOrigin tokens v := by
  cases fuel with
  | zero => simp [parseAssignment.eq_def] at h
  | succ fuel =>
    simp only [parseAssignment.eq_def] at h
    rw [except_bind_ok] at h
    obtain ⟨⟨tn, p1⟩, h1, h⟩ := h
    rw [except_bind_ok] at h
    obtain ⟨⟨t2, p2⟩, h2, h⟩ := h
    rw [except_bind_ok] at h
    obtain ⟨⟨value, p3⟩, h3, h⟩ := h
    rw [except_bind_ok] at h
    obtain ⟨⟨t4, p4⟩, h4, h⟩ := h
    rw [pure_ok] at h
    injection h with hs hp
    subst hs
    intro v hv
    simp only [stmtNums] at hv
    exact parseExpression_nums fuel tokens p2 value p3 h3 v hv

theorem parseIfStatement_nums (fuel : Nat) (tokens : List Token) (pos : Nat)
    (s : Stmt) (p' : Nat) (h : parseIfStatement fuel tokens pos = .ok (s, p')) :
    ∀ v ∈ stmtNums s, NumOrigin tokens v := by
  cases fuel with
  | zero => simp [parseIfStatement.eq_def] at h
  | succ fuel =>
    simp only [parseIfStatement.eq_def] at h
    rw [except_bind_ok] at h
    obtain ⟨⟨t1, p1⟩, h1, h⟩ := h
    rw [except_bind_ok] at h
    obtain ⟨⟨t2, p2⟩, h2, h⟩ := h
    rw [except_bind_ok] at h
    obtain ⟨⟨condition, p3⟩, h3, h⟩ := h
    rw [except_bind_ok] at h
    obtain ⟨⟨t4, p4⟩, h4, h⟩ := h
    rw [except_bind_ok] at h
    obtain ⟨⟨thenB, p5⟩, h5, h⟩ := h
    rw [except_bind_ok] at h
    obtain ⟨t6, h6, h⟩ := h
    by_cases hty : t6.type = .ELSE
    · rw [if_pos hty] at h
      rw [except_bind_ok] at h
      obtain ⟨⟨elseB, p7⟩, h7, h⟩ := h
      rw [pure_ok] at h
      injection h with hs hp
      subst hs
      intro v hv
      simp only [stmtNums, List.append_assoc] at hv
      rcases List.mem_append.mp hv with hv | hv
      · exact parseExpression_nums fuel tokens p2 condition p3 h3 v hv
      · rcases List.mem_append.mp hv with hv | hv
        · exact parseBlock_nums fuel tokens p4 thenB p5 h5 v hv
        · exact parseBlock_nums fuel tokens (advanceP tokens p5) elseB p7 h7 v hv
    · rw [if_neg hty] at h
      rw [pure_ok] at h
      injection h with hs hp
      subst hs
      intro v hv
      simp only [stmtNums, List.append_nil] at hv
      rcases List.mem_append.mp hv with hv | hv
      · exact parseExpression_nums fuel tokens p2 condition p3 h3 v hv
      · exact parseBlock_nums fuel tokens p4 thenB p5 h5 v hv

theorem parseWhileStatement_nums (fuel : Nat) (tokens : List Token) (pos : Nat)
    (s : Stmt) (p' : Nat) (h : parseWhileStatement fuel tokens pos = .ok (s, p')) :
    ∀ v ∈ stmtNums s, NumOrigin tokens v := by
  cases fuel with
  | zero => simp [parseWhileStatement.eq_def] at h
  | succ fuel =>
    simp only [parseWhileStatement.eq_def] at h
    rw [except_bind_ok] at h
    obtain ⟨⟨t1, p1⟩, h1, h⟩ := h
    rw [except_bind_ok] at h
    obtain ⟨⟨t2, p2⟩, h2, h⟩ := h
    rw [except_bind_ok] at h
    obtain ⟨⟨condition, p3⟩, h3, h⟩ := h
    rw [except_bind_ok] at h
    obtain ⟨⟨t4, p4⟩, h4, h⟩ := h
    rw [except_bind_ok] at h
    obtain ⟨⟨body, p5⟩, h5, h⟩ := h
    rw [pure_ok] at h
    injection h with hs hp
    subst hs
    intro v hv
    simp only [stmtNums] at hv
    rcases List.mem_append.mp hv with hv | hv
    · exact parseExpression_nums fuel tokens p2 condition p3 h3 v hv
    · exact parseBlock_nums fuel tokens p4 body p5 h5 v hv

theorem parseReturnStatement_nums (fuel : Nat) (tokens : List Token) (pos : Nat)
    (s : Stmt) (p' : Nat) (h : parseReturnStatement fuel tokens pos = .ok (s, p')) :
    ∀ v ∈ stmtNums s, NumOrigin tokens v := by
  cases fuel with
  | zero => simp [parseReturnStatement.eq_def] at h
  | succ fuel =>
    simp only [parseReturnStatement.eq_def] at h
    rw [except_bind_ok] at h
    obtain ⟨⟨t1, p1⟩, h1, h⟩ := h
    rw [except_bind_ok] at h
    obtain ⟨⟨value, p2⟩, h2, h⟩ := h
    rw [except_bind_ok] at h
    obtain ⟨⟨t3, p3⟩, h3, h⟩ := h
    rw [pure_ok] at h
    injection h with hs hp
    subst hs
    intro v hv
    simp only [stmtNums] at hv
    exact parseExpression_nums fuel tokens p1 value p2 h2 v hv

theorem parsePrintStatement_nums (fuel : Nat) (tokens : List Token) (pos : Nat)
    (s : Stmt) (p' : Nat) (h : parsePrintStatement fuel tokens pos = .ok (s, p')) :
    ∀ v ∈ stmtNums s, NumOrigin tokens v := by
  cases fuel with
  | zero => simp [parsePrintStatement.eq_def] at h
  | succ fuel =>
    simp only [parsePrintStatement.eq_def] at h
    rw [except_bind_ok] at h
    obtain ⟨⟨t1, p1⟩, h1, h⟩ := h
    rw [except_bind_ok] at h
    obtain ⟨⟨t2, p2⟩, h2, h⟩ := h
    rw [except_bind_ok] at h
    obtain ⟨⟨value, p3⟩, h3, h⟩ := h
    rw [except_bind_ok] at h
    obtain ⟨⟨t4, p4⟩, h4, h⟩ := h
    rw [except_bind_ok] at h
    obtain ⟨⟨t5, p5⟩, h5, h⟩ := h
    rw [pure_ok] at h
    injection h with hs hp
    subst hs
    intro v hv
    simp only [stmtNums] at hv
    exact parseExpression_nums fuel tokens p2 value p3 h3 v hv

theorem parseExpression_nums (fuel : Nat) (tokens : List Token) (pos : Nat)
    (e : Expr) (p' : Nat) (h : parseExpression fuel tokens pos = .ok (e, p')) :
    ∀ v ∈ exprNums e, NumOrigin tokens v := by
  cases fuel with
  | zero => simp [parseExpression.eq_def] at h
  | succ fuel =>
    simp only [parseExpression.eq_def] at h
    exact parseComparison_nums fuel tokens pos e p' h

theorem parseComparison_nums (fuel : Nat) (tokens : List Token) (pos : Nat)
    (e : Expr) (p' : Nat) (h : parseComparison fuel tokens pos = .ok (e, p')) :
    ∀ v ∈ exprNums e, NumOrigin tokens v := by
  cases fuel with
  | zero => simp [parseComparison.eq_def] at h
  | succ fuel =>
    simp only [parseComparison.eq_def] at h
    rw [except_bind_ok] at h
    obtain ⟨⟨l, p1⟩, h1, h⟩ := h
    exact compLoop_nums fuel tokens p1 l e p' h
      (parseAdditive_nums fuel tokens pos l p1 h1)

theorem compLoop_nums (fuel : Nat) (tokens : List Token) (pos : Nat) (left : Expr)
    (e : Expr) (p' : Nat) (h : compLoop fuel tokens pos left = .ok (e, p'))
    (hl : ∀ v ∈ exprNums left, NumOrigin tokens v) :
    ∀ v ∈ exprNums e, NumOrigin tokens v := by
  cases fuel with
  | zero => simp [compLoop.eq_def] at h
  | succ fuel =>
    rw [compLoop_succ] at h
    rw [except_bind_ok] at h
    obtain ⟨t, ht, h⟩ := h
    by_cases hty : t.type = .EQ ∨ t.type = .NE ∨ t.type = .GT ∨ t.type = .LT ∨
        t.type = .GE ∨ t.type = .LE
    · rw [if_pos hty] at h
      rw [except_bind_ok] at h
      obtain ⟨⟨r, p1⟩, hr, h⟩ := h
      refine compLoop_nums fuel tokens p1 (.binaryOp left t.valueStr r) e p' h ?_
      intro v hv
      simp only [exprNums] at hv
      rcases List.mem_append.mp hv with hv | hv
      · exact hl v hv
      · exact parseAdditive_nums fuel tokens (advanceP tokens pos) r p1 hr v hv
    · rw [if_neg hty, pure_ok] at h
      injection h with he hp
      subst he
      exact hl

theorem parseAdditive_nums (fuel : Nat) (tokens : List Token) (pos : Nat)
    (e : Expr) (p' : Nat) (h : parseAdditive fuel tokens pos = .ok (e, p')) :
    ∀ v ∈ exprNums e, NumOrigin tokens v := by
  cases fuel with
  | zero => simp [parseAdditive.eq_def] at h
  | succ fuel =>
    simp only [parseAdditive.eq_def] at h
    rw [except_bind_ok] at h
    obtain ⟨⟨l, p1⟩, h1, h⟩ := h
    exact addLoop_nums fuel tokens p1 l e p' h
      (parseMultiplicative_nums fuel tokens pos l p1 h1)

theorem addLoop_nums (fuel : Nat) (tokens : List Token) (pos : Nat) (left : Expr)
    (e : Expr) (p' : Nat) (h : addLoop fuel tokens pos left = .ok (e, p'))
    (hl : ∀ v ∈ exprNums left, NumOrigin tokens v) :
    ∀ v ∈ exprNums e, NumOrigin tokens v := by
  cases fuel with
  | zero => simp [addLoop.eq_def] at h
  | succ fuel =>
    rw [addLoop_succ] at h
    rw [except_bind_ok] at h
    obtain ⟨t, ht, h⟩ := h
    by_cases hty : t.type = .PLUS ∨ t.type = .MINUS
    · rw [if_pos hty] at h
      rw [except_bind_ok] at h
      obtain ⟨⟨r, p1⟩, hr, h⟩ := h
      refine addLoop_nums fuel tokens p1 (.binaryOp left t.valueStr r) e p' h ?_
      intro v hv
      simp only [exprNums] at hv
      rcases List.mem_append.mp hv with hv | hv
      · exact hl v hv
      · exact parseMultiplicative_nums fuel tokens (advanceP tokens pos) r p1 hr v hv
    · rw [if_neg hty, pure_ok] at h
      injection h with he hp
      subst he
      exact hl

theorem parseMultiplicative_nums (fuel : Nat) (tokens : List Token) (pos : Nat)
    (e : Expr) (p' : Nat) (h : parseMultiplicative fuel tokens pos = .ok (e, p')) :
    ∀ v ∈ exprNums e, NumOrigin tokens v := by
  cases fuel with
  | zero => simp [parseMultiplicative.eq_def] at h
  | succ fuel =>
    simp only [parseMultiplicative.eq_def] at h
    rw [except_bind_ok] at h
    obtain ⟨⟨l, p1⟩, h1, h⟩ := h
    exact mulLoop_nums fuel tokens p1 l e p' h
      (parseUnary_nums fuel tokens pos l p1 h1)

theorem mulLoop_nums (fuel : Nat) (tokens : List Token) (pos : Nat) (left : Expr)
    (e : Expr) (p' : Nat) (h : mulLoop fuel tokens pos left = .ok (e, p'))
    (hl : ∀ v ∈ exprNums left, NumOrigin tokens v) :
    ∀ v ∈ exprNums e, NumOrigin tokens v := by
  cases fuel with
  | zero => simp [mulLoop.eq_def] at h
  | succ fuel =>
    rw [mulLoop_succ] at h
    rw [except_bind_ok] at h
    obtain ⟨t, ht, h⟩ := h
    by_cases hty : t.type = .MULTIPLY ∨ t.type = .DIVIDE
    · rw [if_pos hty] at h
      rw [except_bind_ok] at h
      obtain ⟨⟨r, p1⟩, hr, h⟩ := h
      refine mulLoop_nums fuel tokens p1 (.binaryOp left t.valueStr r) e p' h ?_
      intro v hv
      simp only [exprNums] at hv
      rcases List.mem_append.mp hv with hv | hv
      · exact hl v hv
      · exact parseUnary_nums fuel tokens (advanceP tokens pos) r p1 hr v hv
    · rw [if_neg hty, pure_ok] at h
      injection h with he hp
      subst he
      exact hl

theorem parseUnary_nums (fuel : Nat) (tokens : List Token) (pos : Nat)
    (e : Expr) (p' : Nat) (h : parseUnary fuel tokens pos = .ok (e, p')) :
    ∀ v ∈ exprNums e, NumOrigin tokens v := by
  cases fuel with
  | zero => simp [parseUnary.eq_def] at h
  | succ fuel =>
    rw [parseUnary_succ] at h
    rw [except_bind_ok] at h
    obtain ⟨t, ht, h⟩ := h
    by_cases hty : t.type = .MINUS
    · rw [if_pos hty] at h
      rw [except_bind_ok] at h
      obtain ⟨⟨operand, p1⟩, hop, h⟩ := h
      rw [pure_ok] at h
      injection h with he hp
      subst he
      intro v hv
      simp only [exprNums] at hv
      exact parseUnary_nums fuel tokens (advanceP tokens pos) operand p1 hop v hv
    · rw [if_neg hty] at h
      exact parsePrimary_nums fuel tokens pos e p' h

theorem parsePrimary_nums (fuel : Nat) (tokens : List Token) (pos : Nat)
    (e : Expr) (p' : Nat) (h : parsePrimary fuel tokens pos = .ok (e, p')) :
    ∀ v ∈ exprNums e, NumOrigin tokens v := by
  cases fuel with
  | zero => simp [parsePrimary.eq_def] at h
  | succ fuel =>
    simp only [parsePrimary.eq_def] at h
    rw [except_bind_ok] at h
    obtain ⟨t, ht, h⟩ := h
    by_cases h1 : t.type = .NUMBER
    · rw [if_pos h1, pure_ok] at h
      injection h with he hp
      subst he
      intro v hv
      simp only [exprNums, List.mem_singleton] at hv
      exact ⟨t, curT_mem tokens pos t ht, h1, hv⟩
    · rw [if_neg h1] at h
      by_cases h2 : t.type = .IDENTIFIER
      · rw [if_pos h2] at h
        cases hpk : peek_token tokens pos 1 with
        | some pk =>
          simp only [hpk] at h
          by_cases h3 : pk.type = .LPAREN
          · rw [if_pos h3] at h
            rw [except_bind_ok] at h
            obtain ⟨⟨na, p1⟩, hna, h⟩ := h
            rw [pure_ok] at h
            injection h with he hp
            subst he
            intro v hv
            simp only [exprNums] at hv
            exact parseCallNA_nums fuel tokens pos na p1 hna v hv
          · rw [if_neg h3, pure_ok] at h
            injection h with he hp
            subst he
            intro v hv
            simp [exprNums] at hv
        | none =>
          simp only [hpk] at h
          cases h
      · rw [if_neg h2] at h
        by_cases h3 : t.type = .LPAREN
        · rw [if_pos h3] at h
          rw [except_bind_ok] at h
          obtain ⟨⟨e1, p1⟩, he1, h⟩ := h
          rw [except_bind_ok] at h
          obtain ⟨⟨t2, p2⟩, h2b, h⟩ := h
          rw [pure_ok] at h
          injection h with he hp
          subst he
          exact parseExpression_nums fuel tokens (advanceP tokens pos) _ p1 he1
        · rw [if_neg h3] at h
          cases h

theorem parseCallNA_nums (fuel : Nat) (tokens : List Token) (pos : Nat)
    (na : String × List Expr) (p' : Nat)
    (h : parseCallNA fuel tokens pos = .ok (na, p')) :
    ∀ v ∈ exprListNums na.2, NumOrigin tokens v := by
  cases fuel with
  | zero => simp [parseCallNA.eq_def] at h
  | succ fuel =>
    simp only [parseCallNA.eq_def] at h
    rw [except_bind_ok] at h
    obtain ⟨⟨tn, p1⟩, h1, h⟩ := h
    rw [except_bind_ok] at h
    obtain ⟨⟨t2, p2⟩, h2, h⟩ := h
    rw [except_bind_ok] at h
    obtain ⟨t3, h3, h⟩ := h
    by_cases hty : t3.type ≠ .RPAREN
    · rw [if_pos hty] at h
      rw [except_bind_ok] at h
      obtain ⟨⟨a0, p6⟩, ha0, h⟩ := h
      rw [except_bind_ok] at h
      obtain ⟨⟨args, p4⟩, h4, h⟩ := h
      rw [except_bind_ok] at h
      obtain ⟨⟨t5, p5⟩, h5, h⟩ := h
      rw [pure_ok] at h
      injection h with hna hp
      subst hna
      refine argLoop_nums fuel tokens p6 [a0] args p4 h4 ?_
      intro v hv
      simp only [exprListNums, List.append_nil] at hv
      exact parseExpression_nums fuel tokens _ a0 p6 ha0 v hv
    · rw [if_neg hty] at h
      rw [except_bind_ok] at h
      obtain ⟨⟨args, p4⟩, h4, h⟩ := h
      rw [except_bind_ok] at h
      obtain ⟨⟨t5, p5⟩, h5, h⟩ := h
      rw [pure_ok] at h
      injection h with hna hp
      subst hna
      rw [pure_ok] at h4
      injection h4 with hargs hp4
      subst hargs
      intro v hv
      simp [exprListNums] at hv

theorem argLoop_nums (fuel : Nat) (tokens : List Token) (pos : Nat)
    (acc : List Expr) (args : List Expr) (p' : Nat)
    (h : argLoop fuel tokens pos acc = .ok (args, p'))
    (hacc : ∀ v ∈ exprListNums acc, NumOrigin tokens v) :
    ∀ v ∈ exprListNums args, NumOrigin tokens v := by
  cases fuel with
  | zero => simp [argLoop.eq_def] at h
  | succ fuel =>
    rw [argLoop_succ] at h
    rw [except_bind_ok] at h
    obtain ⟨t, ht, h⟩ := h
    by_cases hty : t.type = .COMMA
    · rw [if_pos hty] at h
      rw [except_bind_ok] at h
      obtain ⟨⟨a, p1⟩, ha, h⟩ := h
      refine argLoop_nums fuel tokens p1 (acc ++ [a]) args p' h ?_
      intro v hv
      rw [exprListNums_append] at hv
      rcases List.mem_append.mp hv with hv | hv
      · exact hacc v hv
      · simp only [exprListNums, List.append_nil] at hv
        exact parseExpression_nums fuel tokens (advanceP tokens pos) a p1 ha v hv
    · rw [if_neg hty, pure_ok] at h
      injection h with hargs hp
      subst hargs
      exact hacc

end

/-- `int(...)` of a non-empty digit string is non-negative. -/
theorem py_int_nonneg (s : String) (hall : ∀ c ∈ s.data, py_isdigit c = true) :
    0 ≤ py_int s := by
  unfold py_int
  split
  · rename_i rest heq
    have hm := hall '-' (by rw [heq]; simp)
    simp [py_isdigit] at hm
  · exact Int.natCast_nonneg _

/-- Numbers in a parsed program all come from number tokens. -/
theorem parse_nums (tokens : List Token) (prog : Program)
    (h : parse tokens = .ok prog) :
    ∀ v ∈ progNums prog, NumOrigin tokens v := by
  unfold parse at h
  cases hr : parseProgramLoop (tokens.length * 8 + 8) tokens 0 [] with
  | error e => rw [hr] at h; cases h
  | ok r =>
    rw [hr] at h
    cases h
    intro v hv
    unfold progNums at hv
    rw [List.mem_flatten] at hv
    obtain ⟨l, hl, hv⟩ := hv
    rw [List.mem_map] at hl
    obtain ⟨f, hf, rfl⟩ := hl
    exact parseProgramLoop_nums _ tokens 0 [] r.1 r.2 hr (by simp) f hf v hv

/-- C7 (amended): in every program accepted by the lexer and parser,
every `Number` node's value is non-negative (negation appears only as a
`Unary` node).  No 64-bit bound holds — see the counterexample. -/
theorem pipeline_number_literals_nonneg (source : String) (toks : List Token)
    (prog : Program) (h1 : tokenize source = .ok toks)
    (h2 : parse toks = .ok prog) :
    ∀ v ∈ progNums prog, 0 ≤ v := by
  intro v hv
  obtain ⟨t, ht, hty, hveq⟩ := parse_nums toks prog h2 v hv
  have htok := lexLoop_sound _ _ _ _ _ _ h1 (by intro t ht; simp at ht) t ht
  obtain ⟨s, hval, _, hdigits⟩ := htok.2 hty
  subst hveq
  unfold Token.valueStr
  rw [hval]
  exact py_int_nonneg s hdigits

/-- Token stream of the C7 counterexample source. -/
def c7Toks : List Token :=
  [⟨.FUNCTION, some "دالة", 1, 1⟩, ⟨.IDENTIFIER, some "م", 1, 6⟩,
   ⟨.LPAREN, some "(", 1, 7⟩, ⟨.RPAREN, some ")", 1, 8⟩,
   ⟨.LBRACE, some "\x7b", 1, 10⟩, ⟨.RETURN, some "ارجع", 1, 12⟩,
   ⟨.NUMBER, some "9223372036854775808", 1, 17⟩, ⟨.SEMICOLON, some ";", 1, 36⟩,
   ⟨.RBRACE, some "\x7d", 1, 38⟩, ⟨.EOF, none, 1, 39⟩]

/-- The C7 counterexample function: returns `2^63`, one past the largest
64-bit signed integer. -/
def c7Func : Func :=
  ⟨"م", [], [.ret (.number 9223372036854775808)]⟩

set_option maxRecDepth 8000 in
set_option maxHeartbeats 4000000 in
/-- C7 counterexample: the full pipeline (lexer, parser, analyzer)
accepts a program containing the literal `9223372036854775808 = 2^63`,
which does not fit in a 64-bit signed integer. -/
theorem c7_counterexample :
    tokenize "دالة م() { ارجع 9223372036854775808; }" = .ok c7Toks ∧
    parse c7Toks = .ok ⟨[c7Func]⟩ ∧
    analyze ⟨[c7Func]⟩ = .ok ([("م", c7Func)], []) ∧
    (9223372036854775808 : Int) ∈ progNums ⟨[c7Func]⟩ ∧
    ¬((9223372036854775808 : Int) ≤ 2 ^ 63 - 1) := by
  refine ⟨rfl, ?_, rfl, by simp [progNums, blockNums, stmtNums, exprNums, c7Func], by decide⟩
  simp [parse, c7Toks, c7Func, parseProgramLoop.eq_def, parseFunction.eq_def,
    paramLoop.eq_def, parseBlock.eq_def, stmtLoop.eq_def, parseStatement.eq_def,
    parseVarDecl.eq_def, parseAssignment.eq_def, parseIfStatement.eq_def,
    parseWhileStatement.eq_def, parseReturnStatement.eq_def, parsePrintStatement.eq_def,
    parseExpression.eq_def, parseComparison.eq_def, compLoop.eq_def,
    parseAdditive.eq_def, addLoop.eq_def, parseMultiplicative.eq_def, mulLoop.eq_def,
    parseUnary.eq_def, parsePrimary.eq_def, parseCallNA.eq_def, argLoop.eq_def,
    expectT, curT, current_token, peek_token, advanceP, Token.valueStr, perrMsg, ttName,
    py_int, digitsVal, py_digit_val,
    Bind.bind, Except.bind, Pure.pure, Except.pure, Except.map]

set_option maxRecDepth 8000 in
set_option maxHeartbeats 4000000 in
/-- C7 witness: a concrete accepted source whose literal `5` is
non-negative. -/
theorem pipeline_number_literals_nonneg_witness :
    (5 : Int) ∈ progNums ⟨[⟨"م", [], [.ret (.number 5)]⟩]⟩ ∧ 0 ≤ (5 : Int) :=
  ⟨by simp [progNums, blockNums, stmtNums, exprNums],
   pipeline_number_literals_nonneg "دالة م() { ارجع 5; }"
    [⟨.FUNCTION, some "دالة", 1, 1⟩, ⟨.IDENTIFIER, some "م", 1, 6⟩,
     ⟨.LPAREN, some "(", 1, 7⟩, ⟨.RPAREN, some ")", 1, 8⟩,
     ⟨.LBRACE, some "\x7b", 1, 10⟩, ⟨.RETURN, some "ارجع", 1, 12⟩,
     ⟨.NUMBER, some "5", 1, 17⟩, ⟨.SEMICOLON, some ";", 1, 18⟩,
     ⟨.RBRACE, some "\x7d", 1, 20⟩, ⟨.EOF, none, 1, 21⟩]
    ⟨[⟨"م", [], [.ret (.number 5)]⟩]⟩
    rfl
    (by
      simp [parse, parseProgramLoop.eq_def, parseFunction.eq_def,
        paramLoop.eq_def, parseBlock.eq_def, stmtLoop.eq_def, parseStatement.eq_def,
        parseVarDecl.eq_def, parseAssignment.eq_def, parseIfStatement.eq_def,
        parseWhileStatement.eq_def, parseReturnStatement.eq_def,
        parsePrintStatement.eq_def, parseExpression.eq_def, parseComparison.eq_def,
        compLoop.eq_def, parseAdditive.eq_def, addLoop.eq_def,
        parseMultiplicative.eq_def, mulLoop.eq_def, parseUnary.eq_def,
        parsePrimary.eq_def, parseCallNA.eq_def, argLoop.eq_def,
        expectT, curT, current_token, peek_token, advanceP, Token.valueStr, perrMsg,
        ttName, py_int, digitsVal, py_digit_val,
        Bind.bind, Except.bind, Pure.pure, Except.pure, Except.map])
    5 (by simp [progNums, blockNums, stmtNums, exprNums])⟩

/-! ## C2: label uniqueness and call targets

First, machinery about decimal numerals (`Nat.repr`), which the
generator's `new_label` uses to build label names. -/

/-- Specification of the decimal digit list of a natural number. -/
def myDigits (n : Nat) : List Char :=
  if n < 10 then [Nat.digitChar n]
  else myDigits (n / 10) ++ [Nat.digitChar (n % 10)]
termination_by n
decreasing_by
  exact Nat.div_lt_self (by omega) (by omega)

theorem toDigitsCore_eq_myDigits (fuel : Nat) :
    ∀ (n : Nat) (ds : List Char), n < fuel →
    Nat.toDigitsCore 10 fuel n ds = myDigits n ++ ds := by
  induction fuel with
  | zero => intro n ds h; omega
  | succ fuel ih =>
    intro n ds h
    rw [Nat.toDigitsCore]
    by_cases h10 : n / 10 = 0
    · have hn : n < 10 := by
        by_contra hge
        rw [Nat.div_eq_zero_iff (by omega)] at h10
        omega
      simp only [h10, if_true]
      rw [myDigits, if_pos hn, Nat.mod_eq_of_lt hn]
      rfl
    · have hpos : 0 < n := by
        by_contra h0
        have : n = 0 := by omega
        subst this
        simp at h10
      have hge : ¬ n < 10 := by
        intro hlt
        exact h10 (Nat.div_eq_zero_iff (by omega) |>.mpr hlt)
      simp only [h10, if_false]
      rw [ih (n / 10) _ (by
        have := Nat.div_lt_self hpos (by omega : 1 < 10)
        omega)]
      conv_rhs => rw [myDigits]
      rw [if_neg hge]
      simp

theorem natRepr_data (n : Nat) : (Nat.repr n).data = myDigits n := by
  show ((Nat.toDigits 10 n).asString).data = _
  rw [Nat.toDigits, toDigitsCore_eq_myDigits (n + 1) n [] (by omega)]
  simp [List.asString]

theorem digitChar_toNat (d : Nat) (h : d < 10) : (Nat.digitChar d).toNat = 48 + d := by
  interval_cases d <;> rfl

/-- Decode a decimal digit list (left inverse of `myDigits`). -/
def decodeDigits (cs : List Char) : Nat :=
  cs.foldl (fun a c => 10 * a + (c.toNat - 48)) 0

theorem decodeDigits_myDigits (n : Nat) : decodeDigits (myDigits n) = n := by
  induction n using Nat.strong_induction_on with
  | _ n ih =>
    rw [myDigits]
    by_cases h : n < 10
    · rw [if_pos h]
      simp [decodeDigits, digitChar_toNat n h]
    · rw [if_neg h]
      have hdiv := ih (n / 10) (Nat.div_lt_self (by omega) (by omega))
      unfold decodeDigits at hdiv ⊢
      rw [List.foldl_append, hdiv]
      simp [digitChar_toNat (n % 10) (Nat.mod_lt _ (by omega))]
      omega

theorem natRepr_inj (n m : Nat) (h : Nat.repr n = Nat.repr m) : n = m := by
  have hd : (Nat.repr n).data = (Nat.repr m).data := by rw [h]
  rw [natRepr_data, natRepr_data] at hd
  have := congrArg decodeDigits hd
  rwa [decodeDigits_myDigits, decodeDigits_myDigits] at this

theorem myDigits_getLast (n : Nat) :
    ∃ d, d < 10 ∧ (myDigits n).getLast? = some (Nat.digitChar d) := by
  rw [myDigits]
  by_cases h : n < 10
  · rw [if_pos h]
    exact ⟨n, h, rfl⟩
  · rw [if_neg h]
    exact ⟨n % 10, Nat.mod_lt _ (by omega), List.getLast?_concat _⟩

theorem myDigits_ne_nil (n : Nat) : myDigits n ≠ [] := by
  rw [myDigits]
  by_cases h : n < 10
  · rw [if_pos h]
    simp
  · rw [if_neg h]
    simp

theorem digitChar_ne_colon (d : Nat) (h : d < 10) : Nat.digitChar d ≠ ':' := by
  interval_cases d <;> decide

/-- The last character of a printed integer is a decimal digit — in
particular not a colon. -/
theorem intRepr_getLast_ne_colon (v : Int) (c : Char)
    (h : (Int.repr v).data.getLast? = some c) : c ≠ ':' := by
  cases v with
  | ofNat m =>
    rw [show Int.repr (Int.ofNat m) = Nat.repr m from rfl, natRepr_data] at h
    obtain ⟨d, hd, hlast⟩ := myDigits_getLast m
    rw [hlast] at h
    injection h with h
    subst h
    exact digitChar_ne_colon d hd
  | negSucc m =>
    rw [show Int.repr (Int.negSucc m) = "-" ++ Nat.repr (m + 1) from rfl,
      String.data_append] at h
    have hne : (Nat.repr (m + 1)).data ≠ [] := by
      rw [natRepr_data]
      exact myDigits_ne_nil _
    rw [List.getLast?_append_of_ne_nil _ hne] at h
    rw [natRepr_data] at h
    obtain ⟨d, hd, hlast⟩ := myDigits_getLast (m + 1)
    rw [hlast] at h
    injection h with h
    subst h
    exact digitChar_ne_colon d hd

/-! Classification of output lines: label definitions and call
instructions, read off the emitted text. -/

/-- A line defines a label iff it ends in a colon; the label is the text
before it. -/
def labelOf (l : String) : Option String :=
  match l.data.getLast? with
  | some ':' => some (String.mk l.data.dropLast)
  | _ => none

/-- A line is a call instruction iff it starts with `    call `; the
target is the rest of the line. -/
def callOf (l : String) : Option String :=
  match l.data with
  | ' ' :: ' ' :: ' ' :: ' ' :: 'c' :: 'a' :: 'l' :: 'l' :: ' ' :: rest =>
    some (String.mk rest)
  | _ => none

/-- All labels defined by an assembly listing, in order. -/
def asmLabels (out : List String) : List String :=
  out.filterMap labelOf

/-- All call targets of an assembly listing, in order. -/
def asmCalls (out : List String) : List String :=
  out.filterMap callOf

/-- The four label prefix strings used by the generator's control flow. -/
def labelPres : List String := ["else", "endif", "while_start", "while_end"]

/-- A plausible identifier: non-empty, made of identifier characters
(which is what the lexer guarantees for every name in a parsed
program). -/
def validName (s : String) : Prop :=
  s.data ≠ [] ∧ ∀ c ∈ s.data, identChar c = true

@[simp] theorem labelOf_name_colon (s : String) : labelOf (s ++ ":") = some s := by
  unfold labelOf
  rw [String.data_append]
  rw [show (":" : String).data = [':'] from rfl]
  rw [List.getLast?_append_of_ne_nil _ (by simp)]
  simp [List.dropLast_concat]

theorem labelOf_eq_none_of_getLast (l : String) (c : Char)
    (hc : l.data.getLast? = some c) (hne : c ≠ ':') : labelOf l = none := by
  unfold labelOf
  rw [hc]
  split
  · rename_i heq
    injection heq with heq
    exact absurd heq hne
  · rfl

theorem callOf_call (name : String) : callOf ("    call " ++ name) = some name := by
  unfold callOf
  rw [String.data_append]
  rfl

/-- A line that neither defines a label nor is a call. -/
def plainLine (l : String) : Prop := labelOf l = none ∧ callOf l = none

theorem getLast?_append_str (s t : String) (c : Char) (h : t.data.getLast? = some c) :
    (s ++ t).data.getLast? = some c := by
  rw [String.data_append]
  rw [List.getLast?_append_of_ne_nil _ (by intro hnil; rw [hnil] at h; cases h)]
  exact h

theorem callOf_eq_none_of_head (l : String) (c : Char)
    (h : l.data.head? = some c) (hc : c ≠ ' ') : callOf l = none := by
  unfold callOf
  split
  · rename_i rest heq
    rw [heq] at h
    injection h with h
    exact absurd h.symm hc
  · rfl

theorem callOf_mov_rax (x : String) : callOf ("    mov rax, " ++ x) = none := by
  unfold callOf
  rw [String.data_append]
  rfl

theorem callOf_mov_rbp (x : String) : callOf ("    mov [rbp" ++ x) = none := by
  unfold callOf
  rw [String.data_append]
  rfl

theorem callOf_mov_pre (x : String) : callOf ("    mov " ++ x) = none := by
  unfold callOf
  rw [String.data_append]
  rfl

theorem callOf_pop_pre (x : String) : callOf ("    pop " ++ x) = none := by
  unfold callOf
  rw [String.data_append]
  rfl

theorem callOf_je (x : String) : callOf ("    je " ++ x) = none := by
  unfold callOf
  rw [String.data_append]
  rfl

theorem callOf_jmp (x : String) : callOf ("    jmp " ++ x) = none := by
  unfold callOf
  rw [String.data_append]
  rfl

/-- `mov rax, <imm>` lines are plain. -/
theorem plain_mov_imm (v : Int) : plainLine ("    mov rax, " ++ Int.repr v) := by
  constructor
  · obtain ⟨d, hd, hlast⟩ := myDigits_getLast (Int.natAbs v)
    have hlast' : (Int.repr v).data.getLast? = some (Nat.digitChar d) ∨
        ∃ c, (Int.repr v).data.getLast? = some c ∧ c ≠ ':' := by
      cases hv : (Int.repr v).data.getLast? with
      | none =>
        exfalso
        cases v with
        | ofNat m =>
          rw [show Int.repr (Int.ofNat m) = Nat.repr m from rfl, natRepr_data] at hv
          rw [List.getLast?_eq_none_iff] at hv
          exact myDigits_ne_nil m hv
        | negSucc m =>
          rw [show Int.repr (Int.negSucc m) = "-" ++ Nat.repr (m + 1) from rfl,
            String.data_append] at hv
          rw [List.getLast?_eq_none_iff] at hv
          simp [natRepr_data, myDigits_ne_nil] at hv
      | some c =>
        exact Or.inr ⟨c, rfl, intRepr_getLast_ne_colon v c hv⟩
    rcases hlast' with hl | ⟨c, hl, hc⟩
    · exact labelOf_eq_none_of_getLast _ _ (getLast?_append_str _ _ _ hl)
        (digitChar_ne_colon d hd)
    · exact labelOf_eq_none_of_getLast _ _ (getLast?_append_str _ _ _ hl) hc
  · exact callOf_mov_rax _

/-- The location string always ends in `]`. -/
theorem plain_mov_loc (off : Int) :
    plainLine ("    mov rax, " ++ ("[rbp" ++ Int.repr off ++ "]")) := by
  constructor
  · exact labelOf_eq_none_of_getLast _ _
      (getLast?_append_str _ _ _ (getLast?_append_str _ _ _ rfl)) (by decide)
  · exact callOf_mov_rax _

theorem plain_store_rax (off : Int) :
    plainLine ("    mov [rbp" ++ Int.repr off ++ "], rax") := by
  constructor
  · exact labelOf_eq_none_of_getLast _ _ (getLast?_append_str _ _ _ rfl) (by decide)
  · rw [String.append_assoc]
    exact callOf_mov_rbp _

theorem plain_assign_store (off : Int) :
    plainLine ("    mov " ++ ("[rbp" ++ Int.repr off ++ "]") ++ ", rax") := by
  constructor
  · exact labelOf_eq_none_of_getLast _ _ (getLast?_append_str _ _ _ rfl) (by decide)
  · rw [String.append_assoc]
    exact callOf_mov_pre _

theorem plain_pop_reg (i : Nat) (h : i < paramRegisters.length) :
    plainLine ("    pop " ++ paramRegisters.getD i "") := by
  have h6 : i < 6 := by simpa [paramRegisters] using h
  interval_cases i <;> exact ⟨rfl, rfl⟩

theorem plain_param_store (off : Int) (i : Nat) (h : i < paramRegisters.length) :
    plainLine ("    mov [rbp" ++ Int.repr off ++ "], " ++ paramRegisters.getD i "") := by
  have h6 : i < 6 := by simpa [paramRegisters] using h
  constructor
  · interval_cases i <;>
      exact labelOf_eq_none_of_getLast _ _ (getLast?_append_str _ _ _ rfl) (by decide)
  · rw [String.append_assoc, String.append_assoc]
    exact callOf_mov_rbp _

/-- Call lines with identifier-like targets are calls, not labels. -/
theorem call_line_classified (name : String) (hv : validName name) :
    labelOf ("    call " ++ name) = none ∧ callOf ("    call " ++ name) = some name := by
  refine ⟨?_, callOf_call name⟩
  obtain ⟨hne, hall⟩ := hv
  cases hl : name.data.getLast? with
  | none =>
    rw [List.getLast?_eq_none_iff] at hl
    exact absurd hl hne
  | some c =>
    refine labelOf_eq_none_of_getLast _ _ (getLast?_append_str _ _ _ hl) ?_
    intro hcolon
    subst hcolon
    have := hall ':' (List.mem_of_mem_getLast? (by rw [hl]; rfl))
    simp [identChar, py_isalnum, py_isalpha, py_isdigit, is_arabic_char] at this

/-- Label lines with identifier-like or generated names are labels, not
calls. -/
theorem label_line_classified_head (x : String) (c : Char)
    (hh : x.data.head? = some c) (hc : c ≠ ' ') :
    labelOf (x ++ ":") = some x ∧ callOf (x ++ ":") = none := by
  refine ⟨labelOf_name_colon x, ?_⟩
  refine callOf_eq_none_of_head _ c ?_ hc
  rw [String.data_append]
  cases hd : x.data with
  | nil => rw [hd] at hh; cases hh
  | cons a t =>
    rw [hd] at hh
    injection hh with hh
    subst hh
    rfl

theorem digitChar_isDigit (d : Nat) (h : d < 10) : (Nat.digitChar d).isDigit = true := by
  interval_cases d <;> decide

theorem myDigits_all_digit (n : Nat) : ∀ c ∈ myDigits n, c.isDigit = true := by
  induction n using Nat.strong_induction_on with
  | _ n ih =>
    rw [myDigits]
    by_cases h : n < 10
    · rw [if_pos h]
      intro c hc
      simp only [List.mem_singleton] at hc
      subst hc
      exact digitChar_isDigit n h
    · rw [if_neg h]
      intro c hc
      rcases List.mem_append.mp hc with hc | hc
      · exact ih (n / 10) (Nat.div_lt_self (by omega) (by omega)) c hc
      · simp only [List.mem_singleton] at hc
        subst hc
        exact digitChar_isDigit _ (Nat.mod_lt _ (by omega))

/-- Unique decomposition of a list into a digit-free prefix and a digit
suffix. -/
theorem nodigit_digit_split : ∀ (P Q D E : List Char),
    (∀ c ∈ P, c.isDigit = false) → (∀ c ∈ Q, c.isDigit = false) →
    (∀ c ∈ D, c.isDigit = true) → (∀ c ∈ E, c.isDigit = true) →
    P ++ D = Q ++ E → P = Q ∧ D = E := by
  intro P
  induction P with
  | nil =>
    intro Q D E _ hQ hD _ h
    cases Q with
    | nil => exact ⟨rfl, by simpa using h⟩
    | cons q qt =>
      exfalso
      simp only [List.nil_append, List.cons_append] at h
      have hq : q ∈ D := by rw [h]; simp
      have h1 := hD q hq
      have h2 := hQ q (by simp)
      rw [h1] at h2
      cases h2
  | cons p pt ih =>
    intro Q D E hP hQ hD hE h
    cases Q with
    | nil =>
      exfalso
      simp only [List.cons_append, List.nil_append] at h
      have hp : p ∈ E := by rw [← h]; simp
      have h1 := hE p hp
      have h2 := hP p (by simp)
      rw [h1] at h2
      cases h2
    | cons q qt =>
      simp only [List.cons_append] at h
      injection h with h1 h2
      subst h1
      obtain ⟨hpq, hde⟩ := ih qt D E (fun c hc => hP c (by simp [hc]))
        (fun c hc => hQ c (by simp [hc])) hD hE h2
      exact ⟨by rw [hpq], hde⟩

theorem mem_labelPres (p : String) (hp : p ∈ labelPres) :
    p = "else" ∨ p = "endif" ∨ p = "while_start" ∨ p = "while_end" := by
  simp only [labelPres, List.mem_cons, List.not_mem_nil, or_false] at hp
  exact hp

theorem labelPres_nodigit (p : String) (hp : p ∈ labelPres) :
    ∀ c ∈ p.data, c.isDigit = false := by
  rcases mem_labelPres p hp with rfl | rfl | rfl | rfl <;> decide

/-- Generated label names determine their prefix and counter. -/
theorem labelStr_inj (p q : String) (hp : p ∈ labelPres) (hq : q ∈ labelPres)
    (n m : Nat) (h : p ++ Nat.repr n = q ++ Nat.repr m) : p = q ∧ n = m := by
  have hd := congrArg String.data h
  rw [String.data_append, String.data_append, natRepr_data, natRepr_data] at hd
  obtain ⟨h1, h2⟩ := nodigit_digit_split p.data q.data (myDigits n) (myDigits m)
    (labelPres_nodigit p hp) (labelPres_nodigit q hq)
    (myDigits_all_digit n) (myDigits_all_digit m) hd
  refine ⟨?_, ?_⟩
  · cases p
    cases q
    exact congrArg String.mk h1
  · have := congrArg decodeDigits h2
    rwa [decodeDigits_myDigits, decodeDigits_myDigits] at this

/-- Would-be function names that can collide with emitted labels. -/
def reservedConflict (s : String) : Bool :=
  s == "_start" || s == "print_number" ||
    labelPres.any (fun p => p.data.isPrefixOf s.data)

theorem name_ne_genLabel (s : String) (hres : reservedConflict s = false)
    (p : String) (hp : p ∈ labelPres) (n : Nat) : s ≠ p ++ Nat.repr n := by
  intro he
  rw [reservedConflict] at hres
  simp only [Bool.or_eq_false_iff, List.any_eq_false] at hres
  have hpre := hres.2 p hp
  rw [he, String.data_append] at hpre
  have h2 : p.data.isPrefixOf (p.data ++ (Nat.repr n).data) = true :=
    (List.isPrefixOf_iff_prefix).mpr ⟨_, rfl⟩
  exact hpre h2

theorem start_ne_genLabel (p : String) (hp : p ∈ labelPres) (n : Nat) :
    ("_start" : String) ≠ p ++ Nat.repr n := by
  intro h
  have hd := congrArg String.data h
  rw [String.data_append] at hd
  rcases mem_labelPres p hp with rfl | rfl | rfl | rfl <;>
    exact absurd (Option.some.inj (congrArg List.head? hd)) (by decide)

/-- Counter-stamped control-flow labels produced between two values of
the label counter: pairwise distinct, each `prefix ++ counter` with the
counter in `[c0, c1)`. -/
def LabelsCtr (c0 c1 : Nat) (ls : List String) : Prop :=
  ls.Nodup ∧ ∀ l ∈ ls, ∃ p n, p ∈ labelPres ∧ c0 ≤ n ∧ n < c1 ∧ l = p ++ Nat.repr n

theorem LabelsCtr_nil (c0 c1 : Nat) : LabelsCtr c0 c1 [] :=
  ⟨List.nodup_nil, by simp⟩

theorem LabelsCtr_mono (c0 c1 c0' c1' : Nat) (h0 : c0' ≤ c0) (h1 : c1 ≤ c1')
    (ls : List String) (h : LabelsCtr c0 c1 ls) : LabelsCtr c0' c1' ls := by
  refine ⟨h.1, ?_⟩
  intro l hl
  obtain ⟨p, n, hp, hn0, hn1, he⟩ := h.2 l hl
  exact ⟨p, n, hp, by omega, by omega, he⟩

theorem LabelsCtr_disjoint (a b c d : Nat) (l1 l2 : List String)
    (h1 : LabelsCtr a b l1) (h2 : LabelsCtr c d l2) (hdis : b ≤ c ∨ d ≤ a) :
    ∀ l ∈ l1, l ∉ l2 := by
  intro l hl hl2
  obtain ⟨p, n, hp, hn0, hn1, he⟩ := h1.2 l hl
  obtain ⟨q, m, hq, hm0, hm1, he2⟩ := h2.2 l hl2
  rw [he] at he2
  obtain ⟨_, hnm⟩ := labelStr_inj p q hp hq n m he2
  rcases hdis with hdis | hdis <;> omega

theorem LabelsCtr_seq (a b c : Nat) (l1 l2 : List String)
    (h1 : LabelsCtr a b l1) (h2 : LabelsCtr b c l2) (hab : a ≤ b) (hbc : b ≤ c) :
    LabelsCtr a c (l1 ++ l2) := by
  refine ⟨List.Nodup.append h1.1 h2.1
    (LabelsCtr_disjoint a b b c l1 l2 h1 h2 (Or.inl (Nat.le_refl b))), ?_⟩
  intro l hl
  rcases List.mem_append.mp hl with hl | hl
  · obtain ⟨p, n, hp, hn0, hn1, he⟩ := h1.2 l hl
    exact ⟨p, n, hp, hn0, by omega, he⟩
  · obtain ⟨p, n, hp, hn0, hn1, he⟩ := h2.2 l hl
    exact ⟨p, n, hp, by omega, hn1, he⟩

mutual

/-- All function names called inside an expression. -/
def exprCalls : Expr → List String
  | .number _ => []
  | .ident _ => []
  | .binaryOp l _ r => exprCalls l ++ exprCalls r
  | .unaryOp _ v => exprCalls v
  | .call name args => name :: exprListCalls args

/-- All function names called inside an expression list. -/
def exprListCalls : List Expr → List String
  | [] => []
  | e :: rest => exprCalls e ++ exprListCalls rest

end

mutual

/-- All function names called inside a statement. -/
def stmtCalls : Stmt → List String
  | .varDecl _ v => exprCalls v
  | .assign _ v => exprCalls v
  | .ifStmt c t e =>
    exprCalls c ++ blockCalls t ++ (match e with | some b => blockCalls b | none => [])
  | .whileStmt c b => exprCalls c ++ blockCalls b
  | .ret v => exprCalls v
  | .printStmt v => exprCalls v
  | .callStmt name args => name :: exprListCalls args

/-- All function names called inside a block. -/
def blockCalls : List Stmt → List String
  | [] => []
  | s :: rest => stmtCalls s ++ blockCalls rest

end

theorem blockCalls_nil : blockCalls [] = [] := by
  rw [blockCalls.eq_def]

theorem blockCalls_cons (s : Stmt) (rest : List Stmt) :
    blockCalls (s :: rest) = stmtCalls s ++ blockCalls rest := by
  rw [blockCalls.eq_def]

mutual

/-- Every call target in an expression that passes analysis is a key of
the analyzer's function table. -/
theorem analyzeExpr_calls (funcs : FuncTable) (sc : Scope) (e : Expr)
    (h : analyzeExpr funcs sc e = .ok ()) :
    ∀ n ∈ exprCalls e, (funcs.lookup n).isSome = true := by
  cases e with
  | number v => intro n hn; simp [exprCalls] at hn
  | ident name => intro n hn; simp [exprCalls] at hn
  | binaryOp l op r =>
    rw [analyzeExpr.eq_def] at h
    rw [except_bind_ok] at h
    obtain ⟨u, h1, h2⟩ := h
    cases u
    intro n hn
    rw [exprCalls] at hn
    rcases List.mem_append.mp hn with hn | hn
    · exact analyzeExpr_calls funcs sc l h1 n hn
    · exact analyzeExpr_calls funcs sc r h2 n hn
  | unaryOp op v =>
    rw [analyzeExpr.eq_def] at h
    intro n hn
    rw [exprCalls] at hn
    exact analyzeExpr_calls funcs sc v h n hn
  | call name args =>
    rw [analyzeExpr.eq_def] at h
    by_cases hf : (funcs.lookup name).isSome = true
    · simp only [hf, if_true] at h
      intro n hn
      rw [exprCalls] at hn
      rcases List.mem_cons.mp hn with hn | hn
      · subst hn; exact hf
      · exact analyzeArgs_calls funcs sc args h n hn
    · simp only [hf] at h
      simp at h

/-- Every call target in an argument list that passes analysis is a key
of the analyzer's function table. -/
theorem analyzeArgs_calls (funcs : FuncTable) (sc : Scope) (args : List Expr)
    (h : analyzeArgs funcs sc args = .ok ()) :
    ∀ n ∈ exprListCalls args, (funcs.lookup n).isSome = true := by
  cases args with
  | nil => intro n hn; simp [exprListCalls] at hn
  | cons a rest =>
    rw [analyzeArgs.eq_def] at h
    rw [except_bind_ok] at h
    obtain ⟨u, h1, h2⟩ := h
    cases u
    intro n hn
    rw [exprListCalls] at hn
    rcases List.mem_append.mp hn with hn | hn
    · exact analyzeExpr_calls funcs sc a h1 n hn
    · exact analyzeArgs_calls funcs sc rest h2 n hn

end

mutual

/-- Every call target in a statement that passes analysis is a key of
the analyzer's function table. -/
theorem analyzeStmt_calls (funcs : FuncTable) (sc : Scope) (s : Stmt) (sc' : Scope)
    (h : analyzeStmt funcs sc s = .ok sc') :
    ∀ n ∈ stmtCalls s, (funcs.lookup n).isSome = true := by
  cases s with
  | varDecl name value =>
    rw [analyzeStmt.eq_def] at h
    rw [except_bind_ok] at h
    obtain ⟨u, h1, _⟩ := h
    cases u
    intro n hn
    simp only [stmtCalls.eq_def] at hn
    exact analyzeExpr_calls funcs sc value h1 n hn
  | assign name value =>
    rw [analyzeStmt.eq_def] at h
    by_cases he : existsVar sc name = true
    · simp only [he, if_true] at h
      rw [except_bind_ok] at h
      obtain ⟨u, h1, _⟩ := h
      cases u
      intro n hn
      simp only [stmtCalls.eq_def] at hn
      exact analyzeExpr_calls funcs sc value h1 n hn
    · simp only [he] at h
      simp at h
  | ifStmt condition thenBlock elseBlock =>
    rw [analyzeStmt.eq_def] at h
    rw [except_bind_ok] at h
    obtain ⟨u, hc, h⟩ := h
    cases u
    rw [except_bind_ok] at h
    obtain ⟨sc1, h1, h⟩ := h
    intro n hn
    simp only [stmtCalls.eq_def] at hn
    rcases List.mem_append.mp hn with hn | hn
    · rcases List.mem_append.mp hn with hn | hn
      · exact analyzeExpr_calls funcs sc condition hc n hn
      · exact analyzeBlock_calls funcs sc thenBlock sc1 h1 n hn
    · cases elseBlock with
      | some blk =>
        simp only at h hn
        exact analyzeBlock_calls funcs sc1 blk sc' h n hn
      | none => simp at hn
  | whileStmt condition body =>
    rw [analyzeStmt.eq_def] at h
    rw [except_bind_ok] at h
    obtain ⟨u, hc, h⟩ := h
    cases u
    intro n hn
    simp only [stmtCalls.eq_def] at hn
    rcases List.mem_append.mp hn with hn | hn
    · exact analyzeExpr_calls funcs sc condition hc n hn
    · exact analyzeBlock_calls funcs sc body sc' h n hn
  | ret value =>
    rw [analyzeStmt.eq_def] at h
    rw [except_bind_ok] at h
    obtain ⟨u, h1, _⟩ := h
    cases u
    intro n hn
    simp only [stmtCalls.eq_def] at hn
    exact analyzeExpr_calls funcs sc value h1 n hn
  | printStmt value =>
    rw [analyzeStmt.eq_def] at h
    rw [except_bind_ok] at h
    obtain ⟨u, h1, _⟩ := h
    cases u
    intro n hn
    simp only [stmtCalls.eq_def] at hn
    exact analyzeExpr_calls funcs sc value h1 n hn
  | callStmt name args =>
    rw [analyzeStmt.eq_def] at h
    by_cases hf : (funcs.lookup name).isSome = true
    · simp only [hf, if_true] at h
      rw [except_bind_ok] at h
      obtain ⟨u, h1, _⟩ := h
      cases u
      intro n hn
      simp only [stmtCalls.eq_def] at hn
      rcases List.mem_cons.mp hn with hn | hn
      · subst hn; exact hf
      · exact analyzeArgs_calls funcs sc args h1 n hn
    · simp only [hf] at h
      simp at h

/-- Every call target in a block that passes analysis is a key of the
analyzer's function table. -/
theorem analyzeBlock_calls (funcs : FuncTable) (sc : Scope) (l : List Stmt) (sc' : Scope)
    (h : analyzeBlock funcs sc l = .ok sc') :
    ∀ n ∈ blockCalls l, (funcs.lookup n).isSome = true := by
  cases l with
  | nil => intro n hn; simp [blockCalls_nil] at hn
  | cons s rest =>
    rw [analyzeBlock.eq_def] at h
    rw [except_bind_ok] at h
    obtain ⟨sc1, h1, h2⟩ := h
    intro n hn
    rw [blockCalls_cons] at hn
    rcases List.mem_append.mp hn with hn | hn
    · exact analyzeStmt_calls funcs sc s sc1 h1 n hn
    · exact analyzeBlock_calls funcs sc1 rest sc' h2 n hn

end

/-- Every call target in an analyzed function's body is a key of the
analyzer's function table. -/
theorem analyzeFunction_calls (funcs : FuncTable) (g : Frame) (f : Func) (g' : Frame)
    (h : analyzeFunction funcs g f = .ok g') :
    ∀ n ∈ blockCalls f.body, (funcs.lookup n).isSome = true := by
  rw [analyzeFunction] at h
  rw [except_bind_ok] at h
  obtain ⟨sc0, _, h⟩ := h
  rw [except_bind_ok] at h
  obtain ⟨sc1, h1, _⟩ := h
  exact analyzeBlock_calls funcs sc0 f.body sc1 h1

/-- Across the analyzer's second pass: every call target in any
function's body is a key of the analyzer's function table. -/
theorem analyzeFunctions_calls (funcs : FuncTable) :
    ∀ (fs : List Func) (g g' : Frame), analyzeFunctions funcs g fs = .ok g' →
    ∀ f ∈ fs, ∀ n ∈ blockCalls f.body, (funcs.lookup n).isSome = true := by
  intro fs
  induction fs with
  | nil => intro g g' _ f hf; simp at hf
  | cons f0 rest ih =>
    intro g g' h f hf
    rw [analyzeFunctions] at h
    rw [except_bind_ok] at h
    obtain ⟨g1, h1, h2⟩ := h
    rcases List.mem_cons.mp hf with hf | hf
    · subst hf
      exact analyzeFunction_calls funcs g f g1 h1
    · exact ih g1 g' h2 f hf

/-- The analyzer's first pass records exactly the program's function
names, in order, after the accumulator's keys. -/
theorem collectFunctions_keys : ∀ (fs : List Func) (acc funcs : FuncTable),
    collectFunctions fs acc = .ok funcs →
    funcs.map Prod.fst = acc.map Prod.fst ++ fs.map Func.name := by
  intro fs
  induction fs with
  | nil =>
    intro acc funcs h
    rw [collectFunctions] at h
    cases h
    simp
  | cons f rest ih =>
    intro acc funcs h
    rw [collectFunctions] at h
    by_cases hl : (acc.lookup f.name).isSome = true
    · rw [if_pos hl] at h
      cases h
    · rw [if_neg hl] at h
      have := ih (acc ++ [(f.name, f)]) funcs h
      simp only [List.map_append, List.map_cons, List.map_nil] at this
      simp [this]

/-- The analyzer's first pass enforces distinct function names. -/
theorem collectFunctions_nodup : ∀ (fs : List Func) (acc funcs : FuncTable),
    collectFunctions fs acc = .ok funcs →
    (acc.map Prod.fst).Nodup → (funcs.map Prod.fst).Nodup := by
  intro fs
  induction fs with
  | nil =>
    intro acc funcs h hnd
    rw [collectFunctions] at h
    cases h
    exact hnd
  | cons f rest ih =>
    intro acc funcs h hnd
    rw [collectFunctions] at h
    by_cases hl : (acc.lookup f.name).isSome = true
    · rw [if_pos hl] at h
      cases h
    · rw [if_neg hl] at h
      refine ih (acc ++ [(f.name, f)]) funcs h ?_
      rw [List.map_append]
      refine List.Nodup.append hnd (by simp) ?_
      intro x hx hx2
      simp only [List.map_cons, List.map_nil, List.mem_singleton] at hx2
      subst hx2
      rw [← lookup_isSome_iff_mem] at hx
      exact hl hx

/-! Output tracking for the code generator: expression-level generation
emits only label-free lines whose call targets come from the expression;
statement-level generation emits labels stamped with the counter values
it consumes. -/

theorem validName_head (s : String) (hv : validName s) :
    ∃ c, s.data.head? = some c ∧ c ≠ ' ' := by
  obtain ⟨hne, hall⟩ := hv
  cases hd : s.data with
  | nil => exact absurd hd hne
  | cons a t =>
    refine ⟨a, by simp [hd], ?_⟩
    intro ha
    subst ha
    have := hall ' ' (by rw [hd]; simp)
    simp [identChar, py_isalnum, py_isalpha, py_isdigit, is_arabic_char] at this

theorem genLabel_head (p : String) (hp : p ∈ labelPres) (n : Nat) :
    ∃ c, (p ++ Nat.repr n).data.head? = some c ∧ c ≠ ' ' := by
  rcases mem_labelPres p hp with rfl | rfl | rfl | rfl <;>
    exact ⟨_, by rw [String.data_append]; rfl, by decide⟩

theorem genLabel_lastChar (p : String) (n : Nat) :
    ∃ c, (p ++ Nat.repr n).data.getLast? = some c ∧ c ≠ ':' := by
  obtain ⟨d, hd, hlast⟩ := myDigits_getLast n
  refine ⟨Nat.digitChar d, ?_, digitChar_ne_colon d hd⟩
  exact getLast?_append_str _ _ _ (by rw [natRepr_data]; exact hlast)

theorem plain_je_label (p : String) (n : Nat) :
    plainLine ("    je " ++ (p ++ Nat.repr n)) := by
  obtain ⟨c, hc, hne⟩ := genLabel_lastChar p n
  exact ⟨labelOf_eq_none_of_getLast _ _ (getLast?_append_str _ _ _ hc) hne,
    callOf_je _⟩

theorem plain_jmp_label (p : String) (n : Nat) :
    plainLine ("    jmp " ++ (p ++ Nat.repr n)) := by
  obtain ⟨c, hc, hne⟩ := genLabel_lastChar p n
  exact ⟨labelOf_eq_none_of_getLast _ _ (getLast?_append_str _ _ _ hc) hne,
    callOf_jmp _⟩

/-- Expression-level output contract: no new labels, unchanged label
counter, and all call targets drawn from `names`. -/
def ExprOut (names : List String) (st st' : CGState) : Prop :=
  st'.labelCounter = st.labelCounter ∧
  ∃ Δ, st'.output = st.output ++ Δ ∧
    ∀ l ∈ Δ, labelOf l = none ∧ ∀ t, callOf l = some t → t ∈ names

theorem ExprOut_of_eq (names : List String) (st st' : CGState)
    (ho : st'.output = st.output) (hc : st'.labelCounter = st.labelCounter) :
    ExprOut names st st' :=
  ⟨hc, [], by simp [ho], by simp⟩

theorem ExprOut_refl (names : List String) (st : CGState) : ExprOut names st st :=
  ExprOut_of_eq names st st rfl rfl

theorem ExprOut_seq (names : List String) (st st1 st2 : CGState)
    (h1 : ExprOut names st st1) (h2 : ExprOut names st1 st2) :
    ExprOut names st st2 := by
  obtain ⟨hc1, Δ1, ho1, hl1⟩ := h1
  obtain ⟨hc2, Δ2, ho2, hl2⟩ := h2
  refine ⟨hc2.trans hc1, Δ1 ++ Δ2, ?_, ?_⟩
  · rw [ho2, ho1, List.append_assoc]
  · intro l hl
    rcases List.mem_append.mp hl with hl | hl
    · exact hl1 l hl
    · exact hl2 l hl

theorem ExprOut_emit (names : List String) (st : CGState) (l : String)
    (hl : labelOf l = none) (hc : ∀ t, callOf l = some t → t ∈ names) :
    ExprOut names st (emit st l) :=
  ⟨rfl, [l], rfl, by
    intro x hx
    rw [List.mem_singleton] at hx
    subst hx
    exact ⟨hl, hc⟩⟩

theorem noCall_mem (names : List String) (l : String) (h : callOf l = none) :
    ∀ t, callOf l = some t → t ∈ names := by
  intro t ht
  rw [h] at ht
  cases ht

theorem ExprOut_emit_plain (names : List String) (st : CGState) (l : String)
    (hp : plainLine l) : ExprOut names st (emit st l) :=
  ExprOut_emit names st l hp.1 (noCall_mem names l hp.2)

theorem ExprOut_mono (names names' : List String)
    (hsub : ∀ t ∈ names, t ∈ names') (st st' : CGState)
    (h : ExprOut names st st') : ExprOut names' st st' := by
  obtain ⟨hc, Δ, ho, hl⟩ := h
  exact ⟨hc, Δ, ho, fun l hl' => ⟨(hl l hl').1, fun t ht => hsub t ((hl l hl').2 t ht)⟩⟩

/-- The operator dispatch chain only emits plain instruction lines. -/
theorem emitBinOp_exprOut (names : List String) (st : CGState) (op : String) :
    ExprOut names st (emitBinOp st op) := by
  unfold emitBinOp
  split_ifs <;>
    first
      | exact ExprOut_emit_plain names st _ ⟨rfl, rfl⟩
      | exact ExprOut_seq names _ _ _ (ExprOut_emit_plain names _ _ (by exact ⟨rfl, rfl⟩))
          (ExprOut_emit_plain names _ _ (by exact ⟨rfl, rfl⟩))
      | exact ExprOut_seq names _ _ _
          (ExprOut_seq names _ _ _ (ExprOut_emit_plain names _ _ (by exact ⟨rfl, rfl⟩))
            (ExprOut_emit_plain names _ _ (by exact ⟨rfl, rfl⟩)))
          (ExprOut_emit_plain names _ _ (by exact ⟨rfl, rfl⟩))
      | exact ExprOut_refl names st

/-- The argument pop loop only emits plain `pop` lines. -/
theorem popArgs_exprOut (names : List String) (st : CGState) (n : Nat) :
    ExprOut names st (popArgs st n) := by
  rw [popArgs]
  generalize List.range n = li
  induction li generalizing st with
  | nil => exact ExprOut_refl names st
  | cons i rest ih =>
    rw [List.foldl_cons]
    refine ExprOut_seq names st _ _ ?_ (ih _)
    by_cases hi : i < paramRegisters.length
    · rw [if_pos hi]
      exact ExprOut_emit_plain names st _ (plain_pop_reg i hi)
    · rw [if_neg hi]
      exact ExprOut_refl names st

mutual

/-- `generate_expression` emits no labels, leaves the label counter
unchanged, and only calls names occurring in the expression. -/
theorem genExpr_lines (names : List String) (e : Expr) (st st' : CGState)
    (hsub : ∀ t ∈ exprCalls e, t ∈ names ∧ validName t)
    (h : genExpr st e = .ok st') : ExprOut names st st' := by
  cases e with
  | number value =>
    rw [genExpr.eq_def] at h
    cases h
    exact ExprOut_emit_plain names st _ (plain_mov_imm value)
  | ident name =>
    rw [genExpr.eq_def] at h
    rw [except_bind_ok] at h
    obtain ⟨loc, hloc, h⟩ := h
    cases h
    rw [get_var_location] at hloc
    cases hl : st.localVars.lookup name with
    | none => rw [hl] at hloc; cases hloc
    | some off =>
      rw [hl] at hloc
      cases hloc
      exact ExprOut_emit_plain names st _ (plain_mov_loc off)
  | binaryOp left op right =>
    rw [genExpr.eq_def] at h
    rw [except_bind_ok] at h
    obtain ⟨st1, h1, h⟩ := h
    rw [except_bind_ok] at h
    obtain ⟨st2, h2, h⟩ := h
    cases h
    have e1 := genExpr_lines names right st st1
      (fun t ht => hsub t (by rw [exprCalls]; exact List.mem_append.mpr (Or.inr ht))) h1
    have e2 := genExpr_lines names left (emit st1 "    push rax") st2
      (fun t ht => hsub t (by rw [exprCalls]; exact List.mem_append.mpr (Or.inl ht))) h2
    refine ExprOut_seq names _ _ _ (ExprOut_seq names _ _ _
      (ExprOut_seq names _ _ _ e1 (ExprOut_emit_plain names _ _ (by exact ⟨rfl, rfl⟩))) e2) ?_
    exact ExprOut_seq names _ _ _ (ExprOut_emit_plain names _ _ (by exact ⟨rfl, rfl⟩))
      (emitBinOp_exprOut names _ op)
  | unaryOp op value =>
    rw [genExpr.eq_def] at h
    rw [except_bind_ok] at h
    obtain ⟨st1, h1, h⟩ := h
    have e1 := genExpr_lines names value st st1
      (fun t ht => hsub t (by rw [exprCalls]; exact ht)) h1
    by_cases hop : op = "-"
    · rw [if_pos hop] at h
      cases h
      exact ExprOut_seq names _ _ _ e1 (ExprOut_emit_plain names _ _ (by exact ⟨rfl, rfl⟩))
    · rw [if_neg hop] at h
      cases h
      exact e1
  | call name args =>
    rw [genExpr.eq_def] at h
    rw [except_bind_ok] at h
    obtain ⟨st1, h1, h⟩ := h
    cases h
    have hname := hsub name (by rw [exprCalls]; exact List.mem_cons_self _ _)
    have e1 := genArgsRev_lines names args st st1
      (fun t ht => hsub t (by rw [exprCalls]; exact List.mem_cons_of_mem _ ht)) h1
    refine ExprOut_seq names _ _ _ (ExprOut_seq names _ _ _ e1
      (popArgs_exprOut names st1 args.length)) ?_
    refine ExprOut_emit names _ _ (call_line_classified name hname.2).1 ?_
    intro t ht
    rw [callOf_call] at ht
    injection ht with ht
    subst ht
    exact hname.1

/-- The reversed-argument loop of call generation. -/
theorem genArgsRev_lines (names : List String) (args : List Expr) (st st' : CGState)
    (hsub : ∀ t ∈ exprListCalls args, t ∈ names ∧ validName t)
    (h : genArgsRev st args = .ok st') : ExprOut names st st' := by
  cases args with
  | nil =>
    rw [genArgsRev.eq_def] at h
    cases h
    exact ExprOut_refl names st
  | cons a rest =>
    rw [genArgsRev.eq_def] at h
    rw [except_bind_ok] at h
    obtain ⟨st1, h1, h⟩ := h
    rw [except_bind_ok] at h
    obtain ⟨st2, h2, h⟩ := h
    cases h
    have e1 := genArgsRev_lines names rest st st1
      (fun t ht => hsub t (by rw [exprListCalls]; exact List.mem_append.mpr (Or.inr ht))) h1
    have e2 := genExpr_lines names a st1 st2
      (fun t ht => hsub t (by rw [exprListCalls]; exact List.mem_append.mpr (Or.inl ht))) h2
    exact ExprOut_seq names _ _ _ (ExprOut_seq names _ _ _ e1 e2)
      (ExprOut_emit_plain names _ _ (by exact ⟨rfl, rfl⟩))

end

theorem asmLabels_append (d1 d2 : List String) :
    asmLabels (d1 ++ d2) = asmLabels d1 ++ asmLabels d2 := by
  simp [asmLabels]

theorem asmLabels_eq_nil (Δ : List String) (h : ∀ l ∈ Δ, labelOf l = none) :
    asmLabels Δ = [] := by
  induction Δ with
  | nil => rfl
  | cons a r ih =>
    rw [show a :: r = [a] ++ r from rfl, asmLabels_append]
    rw [show asmLabels [a] = List.filterMap labelOf [a] from rfl]
    rw [List.filterMap_cons, h a (by simp)]
    rw [ih (fun l hl => h l (by simp [hl]))]
    rfl

/-- Statement-level output contract: the label counter only grows, new
labels are counter-stamped within the window, and all call targets are
drawn from `names`. -/
def StmtOut (names : List String) (st st' : CGState) : Prop :=
  st.labelCounter ≤ st'.labelCounter ∧
  ∃ Δ, st'.output = st.output ++ Δ ∧
    LabelsCtr st.labelCounter st'.labelCounter (asmLabels Δ) ∧
    ∀ l ∈ Δ, ∀ t, callOf l = some t → t ∈ names

theorem StmtOut_of_ExprOut (names : List String) (st st' : CGState)
    (h : ExprOut names st st') : StmtOut names st st' := by
  obtain ⟨hc, Δ, ho, hl⟩ := h
  refine ⟨le_of_eq hc.symm, Δ, ho, ?_, fun l hl' t ht => (hl l hl').2 t ht⟩
  rw [asmLabels_eq_nil Δ (fun l hl' => (hl l hl').1)]
  exact LabelsCtr_nil _ _

theorem StmtOut_seq (names : List String) (st st1 st2 : CGState)
    (h1 : StmtOut names st st1) (h2 : StmtOut names st1 st2) :
    StmtOut names st st2 := by
  obtain ⟨hc1, Δ1, ho1, hL1, hC1⟩ := h1
  obtain ⟨hc2, Δ2, ho2, hL2, hC2⟩ := h2
  refine ⟨hc1.trans hc2, Δ1 ++ Δ2, by rw [ho2, ho1, List.append_assoc], ?_, ?_⟩
  · rw [asmLabels_append]
    exact LabelsCtr_seq _ _ _ _ _ hL1 hL2 hc1 hc2
  · intro l hl t ht
    rcases List.mem_append.mp hl with hl | hl
    · exact hC1 l hl t ht
    · exact hC2 l hl t ht

/-- The label layout of a generated `if`: then-block labels, the `else`
label, else-block labels, the `endif` label. -/
theorem LabelsCtr_ifShape (c cT cE : Nat) (hcT : c + 2 ≤ cT) (hcE : cT ≤ cE)
    (LT LE : List String)
    (hT : LabelsCtr (c + 2) cT LT) (hE : LabelsCtr cT cE LE) :
    LabelsCtr c cE
      (LT ++ ("else" ++ Nat.repr c) :: (LE ++ ["endif" ++ Nat.repr (c + 1)])) := by
  have hElse : ("else" : String) ∈ labelPres := by simp [labelPres]
  have hEndif : ("endif" : String) ∈ labelPres := by simp [labelPres]
  constructor
  · rw [List.nodup_append]
    refine ⟨hT.1, ?_, ?_⟩
    · rw [List.nodup_cons]
      refine ⟨?_, ?_⟩
      · intro hmem
        rcases List.mem_append.mp hmem with hm | hm
        · obtain ⟨q, m, hq, hm0, hm1, he⟩ := hE.2 _ hm
          obtain ⟨_, hnm⟩ := labelStr_inj "else" q hElse hq c m he
          omega
        · rw [List.mem_singleton] at hm
          obtain ⟨_, hnm⟩ := labelStr_inj "else" "endif" hElse hEndif c (c + 1) hm
          omega
      · rw [List.nodup_append]
        refine ⟨hE.1, by simp, ?_⟩
        intro x hx hx2
        rw [List.mem_singleton] at hx2
        subst hx2
        obtain ⟨q, m, hq, hm0, hm1, he⟩ := hE.2 _ hx
        obtain ⟨_, hnm⟩ := labelStr_inj "endif" q hEndif hq (c + 1) m he
        omega
    · intro x hx hx2
      obtain ⟨p, n, hp, hn0, hn1, he⟩ := hT.2 _ hx
      subst he
      rcases List.mem_cons.mp hx2 with hm | hm
      · obtain ⟨_, hnm⟩ := labelStr_inj p "else" hp hElse n c hm
        omega
      · rcases List.mem_append.mp hm with hm | hm
        · obtain ⟨q, m, hq, hm0, hm1, he2⟩ := hE.2 _ hm
          obtain ⟨_, hnm⟩ := labelStr_inj p q hp hq n m he2
          omega
        · rw [List.mem_singleton] at hm
          obtain ⟨_, hnm⟩ := labelStr_inj p "endif" hp hEndif n (c + 1) hm
          omega
  · intro l hl
    rcases List.mem_append.mp hl with hm | hm
    · obtain ⟨p, n, hp, hn0, hn1, he⟩ := hT.2 _ hm
      exact ⟨p, n, hp, by omega, by omega, he⟩
    · rcases List.mem_cons.mp hm with hm | hm
      · exact ⟨"else", c, hElse, Nat.le_refl c, by omega, hm⟩
      · rcases List.mem_append.mp hm with hm | hm
        · obtain ⟨p, n, hp, hn0, hn1, he⟩ := hE.2 _ hm
          exact ⟨p, n, hp, by omega, hn1, he⟩
        · rw [List.mem_singleton] at hm
          exact ⟨"endif", c + 1, hEndif, by omega, by omega, hm⟩

/-- The label layout of a generated `while`: the `while_start` label,
body labels, the `while_end` label. -/
theorem LabelsCtr_whileShape (c cB : Nat) (hcB : c + 2 ≤ cB) (LB : List String)
    (hB : LabelsCtr (c + 2) cB LB) :
    LabelsCtr c cB
      (("while_start" ++ Nat.repr c) :: (LB ++ ["while_end" ++ Nat.repr (c + 1)])) := by
  have hS : ("while_start" : String) ∈ labelPres := by simp [labelPres]
  have hEnd : ("while_end" : String) ∈ labelPres := by simp [labelPres]
  constructor
  · rw [List.nodup_cons]
    refine ⟨?_, ?_⟩
    · intro hmem
      rcases List.mem_append.mp hmem with hm | hm
      · obtain ⟨q, m, hq, hm0, hm1, he⟩ := hB.2 _ hm
        obtain ⟨_, hnm⟩ := labelStr_inj "while_start" q hS hq c m he
        omega
      · rw [List.mem_singleton] at hm
        obtain ⟨_, hnm⟩ := labelStr_inj "while_start" "while_end" hS hEnd c (c + 1) hm
        omega
    · rw [List.nodup_append]
      refine ⟨hB.1, by simp, ?_⟩
      intro x hx hx2
      rw [List.mem_singleton] at hx2
      subst hx2
      obtain ⟨q, m, hq, hm0, hm1, he⟩ := hB.2 _ hx
      obtain ⟨_, hnm⟩ := labelStr_inj "while_end" q hEnd hq (c + 1) m he
      omega
  · intro l hl
    rcases List.mem_cons.mp hl with hm | hm
    · exact ⟨"while_start", c, hS, Nat.le_refl c, by omega, hm⟩
    · rcases List.mem_append.mp hm with hm | hm
      · obtain ⟨p, n, hp, hn0, hn1, he⟩ := hB.2 _ hm
        exact ⟨p, n, hp, by omega, by omega, he⟩
      · rw [List.mem_singleton] at hm
        exact ⟨"while_end", c + 1, hEnd, by omega, by omega, hm⟩

theorem asmLabels_cons_none (a : String) (r : List String) (h : labelOf a = none) :
    asmLabels (a :: r) = asmLabels r := by
  simp [asmLabels, List.filterMap_cons, h]

theorem asmLabels_cons_some (a : String) (r : List String) (x : String)
    (h : labelOf a = some x) : asmLabels (a :: r) = x :: asmLabels r := by
  simp [asmLabels, List.filterMap_cons, h]

theorem StmtOut_refl (names : List String) (st : CGState) : StmtOut names st st := by
  refine ⟨Nat.le_refl _, [], by simp, ?_, by simp⟩
  rw [show asmLabels [] = [] from rfl]
  exact LabelsCtr_nil _ _

mutual

/-- `generate_statement` grows the output by lines whose labels are
counter-stamped within the window of label-counter values it consumes
and whose call targets all come from `names`. -/
theorem genStmt_lines (names : List String) (s : Stmt) (st st' : CGState)
    (hpn : "print_number" ∈ names)
    (hsub : ∀ t ∈ stmtCalls s, t ∈ names ∧ validName t)
    (h : genStmt st s = .ok st') : StmtOut names st st' := by
  cases s with
  | varDecl name value =>
    rw [genStmt.eq_def] at h
    dsimp only [allocate_local] at h
    rw [except_bind_ok] at h
    obtain ⟨st1, h1, h⟩ := h
    cases h
    have e1 := genExpr_lines names value _ st1
      (fun t ht => hsub t (by simp only [stmtCalls.eq_def]; exact ht)) h1
    refine StmtOut_of_ExprOut names _ _ (ExprOut_seq names _ _ _
      (ExprOut_seq names _ _ _ (ExprOut_of_eq names _ _ rfl rfl) e1) ?_)
    exact ExprOut_emit_plain names _ _ (plain_store_rax _)
  | assign name value =>
    rw [genStmt.eq_def] at h
    rw [except_bind_ok] at h
    obtain ⟨st1, h1, h⟩ := h
    rw [except_bind_ok] at h
    obtain ⟨loc, hloc, h⟩ := h
    cases h
    rw [get_var_location] at hloc
    have e1 := genExpr_lines names value st st1
      (fun t ht => hsub t (by simp only [stmtCalls.eq_def]; exact ht)) h1
    cases hl : st1.localVars.lookup name with
    | none => rw [hl] at hloc; cases hloc
    | some off =>
      rw [hl] at hloc
      cases hloc
      refine StmtOut_of_ExprOut names _ _ (ExprOut_seq names _ _ _ e1 ?_)
      exact ExprOut_emit_plain names _ _ (plain_assign_store off)
  | ifStmt condition thenBlock elseBlock =>
    rw [genStmt.eq_def] at h
    dsimp only [new_label] at h
    rw [except_bind_ok] at h
    obtain ⟨stC, hC, h⟩ := h
    rw [except_bind_ok] at h
    obtain ⟨stT, hT, h⟩ := h
    obtain ⟨hcC, Δc, hoC, hlC⟩ := genExpr_lines names condition _ stC
      (fun t ht => hsub t
        (by simp only [stmtCalls.eq_def, List.mem_append]; tauto)) hC
    dsimp only at hcC hoC
    obtain ⟨hcT, ΔT, hoT, hLT, hCT⟩ := genBlock_lines names thenBlock _ stT hpn
      (fun t ht => hsub t
        (by simp only [stmtCalls.eq_def, List.mem_append]; tauto)) hT
    simp only [emit_labelCounter] at hcT hLT
    simp only [emit_output] at hoT
    cases elseBlock with
    | some blk =>
      dsimp only at h
      rw [except_bind_ok] at h
      obtain ⟨stE, hE, h⟩ := h
      cases h
      obtain ⟨hcE, ΔE, hoE, hLE, hCE⟩ := genBlock_lines names blk _ stE hpn
        (fun t ht => hsub t
          (by simp only [stmtCalls.eq_def, List.mem_append]; tauto)) hE
      simp only [emit_labelCounter] at hcE hLE
      simp only [emit_output] at hoE
      refine ⟨?_, Δc ++ ("    cmp rax, 0" ::
          ("    je " ++ ("else" ++ Nat.repr st.labelCounter)) ::
          (ΔT ++ (("    jmp " ++ ("endif" ++ Nat.repr (st.labelCounter + 1))) ::
          (("else" ++ Nat.repr st.labelCounter) ++ ":") ::
          (ΔE ++ [("endif" ++ Nat.repr (st.labelCounter + 1)) ++ ":"])))), ?_, ?_, ?_⟩
      · simp only [emit_labelCounter]
        omega
      · simp only [emit_output, hoE, hoT, hoC, List.append_assoc,
          List.cons_append, List.singleton_append, List.nil_append]
      · simp only [emit_labelCounter]
        rw [asmLabels_append]
        rw [asmLabels_eq_nil Δc (fun l hl => (hlC l hl).1)]
        rw [asmLabels_cons_none _ _ (by rfl)]
        rw [asmLabels_cons_none _ _ (plain_je_label "else" st.labelCounter).1]
        rw [asmLabels_append]
        rw [asmLabels_cons_none _ _ (plain_jmp_label "endif" (st.labelCounter + 1)).1]
        rw [asmLabels_cons_some _ _ _ (labelOf_name_colon _)]
        rw [asmLabels_append]
        rw [asmLabels_cons_some _ _ _ (labelOf_name_colon _)]
        rw [show asmLabels ([] : List String) = [] from rfl]
        rw [List.nil_append]
        exact LabelsCtr_ifShape st.labelCounter stT.labelCounter stE.labelCounter
          (by omega) (by omega) _ _ (by rw [hcC] at hLT; exact hLT) hLE
      · intro l hl t ht
        rcases List.mem_append.mp hl with hl | hl
        · exact (hlC l hl).2 t ht
        · rcases List.mem_cons.mp hl with rfl | hl
          · rw [show callOf "    cmp rax, 0" = none from rfl] at ht; cases ht
          · rcases List.mem_cons.mp hl with rfl | hl
            · rw [(plain_je_label "else" st.labelCounter).2] at ht; cases ht
            · rcases List.mem_append.mp hl with hl | hl
              · exact hCT l hl t ht
              · rcases List.mem_cons.mp hl with rfl | hl
                · rw [(plain_jmp_label "endif" (st.labelCounter + 1)).2] at ht
                  cases ht
                · rcases List.mem_cons.mp hl with rfl | hl
                  · obtain ⟨ch, hch, hcs⟩ := genLabel_head "else"
                      (by simp [labelPres]) st.labelCounter
                    rw [(label_line_classified_head _ _ hch hcs).2] at ht
                    cases ht
                  · rcases List.mem_append.mp hl with hl | hl
                    · exact hCE l hl t ht
                    · rw [List.mem_singleton] at hl
                      subst hl
                      obtain ⟨ch, hch, hcs⟩ := genLabel_head "endif"
                        (by simp [labelPres]) (st.labelCounter + 1)
                      rw [(label_line_classified_head _ _ hch hcs).2] at ht
                      cases ht
    | none =>
      rw [except_bind_ok] at h
      obtain ⟨stE, hE, h⟩ := h
      rw [pure_ok] at hE
      subst hE
      cases h
      refine ⟨?_, Δc ++ ("    cmp rax, 0" ::
          ("    je " ++ ("else" ++ Nat.repr st.labelCounter)) ::
          (ΔT ++ (("    jmp " ++ ("endif" ++ Nat.repr (st.labelCounter + 1))) ::
          (("else" ++ Nat.repr st.labelCounter) ++ ":") ::
          ([] ++ [("endif" ++ Nat.repr (st.labelCounter + 1)) ++ ":"])))), ?_, ?_, ?_⟩
      · simp only [emit_labelCounter]
        omega
      · simp only [emit_output, hoT, hoC, List.append_assoc,
          List.cons_append, List.singleton_append, List.nil_append]
      · simp only [emit_labelCounter]
        rw [asmLabels_append]
        rw [asmLabels_eq_nil Δc (fun l hl => (hlC l hl).1)]
        rw [asmLabels_cons_none _ _ (by rfl)]
        rw [asmLabels_cons_none _ _ (plain_je_label "else" st.labelCounter).1]
        rw [asmLabels_append]
        rw [asmLabels_cons_none _ _ (plain_jmp_label "endif" (st.labelCounter + 1)).1]
        rw [asmLabels_cons_some _ _ _ (labelOf_name_colon _)]
        rw [asmLabels_append]
        rw [asmLabels_cons_some _ _ _ (labelOf_name_colon _)]
        rw [show asmLabels ([] : List String) = [] from rfl]
        rw [List.nil_append]
        exact LabelsCtr_ifShape st.labelCounter stT.labelCounter stT.labelCounter
          (by omega) (Nat.le_refl _) _ _ (by rw [hcC] at hLT; exact hLT)
          (LabelsCtr_nil _ _)
      · intro l hl t ht
        rcases List.mem_append.mp hl with hl | hl
        · exact (hlC l hl).2 t ht
        · rcases List.mem_cons.mp hl with rfl | hl
          · rw [show callOf "    cmp rax, 0" = none from rfl] at ht; cases ht
          · rcases List.mem_cons.mp hl with rfl | hl
            · rw [(plain_je_label "else" st.labelCounter).2] at ht; cases ht
            · rcases List.mem_append.mp hl with hl | hl
              · exact hCT l hl t ht
              · rcases List.mem_cons.mp hl with rfl | hl
                · rw [(plain_jmp_label "endif" (st.labelCounter + 1)).2] at ht
                  cases ht
                · rcases List.mem_cons.mp hl with rfl | hl
                  · obtain ⟨ch, hch, hcs⟩ := genLabel_head "else"
                      (by simp [labelPres]) st.labelCounter
                    rw [(label_line_classified_head _ _ hch hcs).2] at ht
                    cases ht
                  · rw [List.nil_append, List.mem_singleton] at hl
                    subst hl
                    obtain ⟨ch, hch, hcs⟩ := genLabel_head "endif"
                      (by simp [labelPres]) (st.labelCounter + 1)
                    rw [(label_line_classified_head _ _ hch hcs).2] at ht
                    cases ht
  | whileStmt condition body =>
    rw [genStmt.eq_def] at h
    dsimp only [new_label] at h
    rw [except_bind_ok] at h
    obtain ⟨stC, hC, h⟩ := h
    rw [except_bind_ok] at h
    obtain ⟨stB, hB, h⟩ := h
    cases h
    obtain ⟨hcC, Δc, hoC, hlC⟩ := genExpr_lines names condition _ stC
      (fun t ht => hsub t
        (by simp only [stmtCalls.eq_def, List.mem_append]; tauto)) hC
    simp only [emit_labelCounter] at hcC
    simp only [emit_output] at hoC
    obtain ⟨hcB, ΔB, hoB, hLB, hCB⟩ := genBlock_lines names body _ stB hpn
      (fun t ht => hsub t
        (by simp only [stmtCalls.eq_def, List.mem_append]; tauto)) hB
    simp only [emit_labelCounter] at hcB hLB
    simp only [emit_output] at hoB
    refine ⟨?_, ((("while_start" ++ Nat.repr st.labelCounter) ++ ":") ::
        (Δc ++ ("    cmp rax, 0" ::
        ("    je " ++ ("while_end" ++ Nat.repr (st.labelCounter + 1))) ::
        (ΔB ++ [("    jmp " ++ ("while_start" ++ Nat.repr st.labelCounter)),
          ("while_end" ++ Nat.repr (st.labelCounter + 1)) ++ ":"])))), ?_, ?_, ?_⟩
    · simp only [emit_labelCounter]
      omega
    · simp only [emit_output, hoB, hoC, List.append_assoc,
        List.cons_append, List.singleton_append, List.nil_append]
    · simp only [emit_labelCounter]
      rw [asmLabels_cons_some _ _ _ (labelOf_name_colon _)]
      rw [asmLabels_append]
      rw [asmLabels_eq_nil Δc (fun l hl => (hlC l hl).1)]
      rw [asmLabels_cons_none _ _ (by rfl)]
      rw [asmLabels_cons_none _ _ (plain_je_label "while_end" (st.labelCounter + 1)).1]
      rw [asmLabels_append]
      rw [asmLabels_cons_none _ _ (plain_jmp_label "while_start" st.labelCounter).1]
      rw [asmLabels_cons_some _ _ _ (labelOf_name_colon _)]
      rw [show asmLabels ([] : List String) = [] from rfl]
      rw [List.nil_append]
      exact LabelsCtr_whileShape st.labelCounter stB.labelCounter
        (by omega) _ (by rw [hcC] at hLB; exact hLB)
    · intro l hl t ht
      rcases List.mem_cons.mp hl with rfl | hl
      · obtain ⟨ch, hch, hcs⟩ := genLabel_head "while_start"
          (by simp [labelPres]) st.labelCounter
        rw [(label_line_classified_head _ _ hch hcs).2] at ht
        cases ht
      · rcases List.mem_append.mp hl with hl | hl
        · exact (hlC l hl).2 t ht
        · rcases List.mem_cons.mp hl with rfl | hl
          · rw [show callOf "    cmp rax, 0" = none from rfl] at ht; cases ht
          · rcases List.mem_cons.mp hl with rfl | hl
            · rw [(plain_je_label "while_end" (st.labelCounter + 1)).2] at ht
              cases ht
            · rcases List.mem_append.mp hl with hl | hl
              · exact hCB l hl t ht
              · rcases List.mem_cons.mp hl with rfl | hl
                · rw [(plain_jmp_label "while_start" st.labelCounter).2] at ht
                  cases ht
                · rw [List.mem_singleton] at hl
                  subst hl
                  obtain ⟨ch, hch, hcs⟩ := genLabel_head "while_end"
                    (by simp [labelPres]) (st.labelCounter + 1)
                  rw [(label_line_classified_head _ _ hch hcs).2] at ht
                  cases ht
  | ret value =>
    rw [genStmt.eq_def] at h
    rw [except_bind_ok] at h
    obtain ⟨st1, h1, h⟩ := h
    cases h
    have e1 := genExpr_lines names value st st1
      (fun t ht => hsub t (by simp only [stmtCalls.eq_def]; exact ht)) h1
    exact StmtOut_of_ExprOut names _ _
      (ExprOut_seq names _ _ _ e1
        (ExprOut_seq names _ _ _ (ExprOut_emit_plain names _ _ (by exact ⟨rfl, rfl⟩))
          (ExprOut_seq names _ _ _ (ExprOut_emit_plain names _ _ (by exact ⟨rfl, rfl⟩))
            (ExprOut_emit_plain names _ _ (by exact ⟨rfl, rfl⟩)))))
  | printStmt value =>
    rw [genStmt.eq_def] at h
    rw [except_bind_ok] at h
    obtain ⟨st1, h1, h⟩ := h
    cases h
    have e1 := genExpr_lines names value st st1
      (fun t ht => hsub t (by simp only [stmtCalls.eq_def]; exact ht)) h1
    have hpr : ∀ t, callOf "    call print_number" = some t → t ∈ names := by
      intro t ht
      rw [show callOf "    call print_number" = some "print_number" from rfl] at ht
      injection ht with ht
      subst ht
      exact hpn
    exact StmtOut_of_ExprOut names _ _
      (ExprOut_seq names _ _ _ e1
        (ExprOut_seq names _ _ _ (ExprOut_emit_plain names _ _ (by exact ⟨rfl, rfl⟩))
          (ExprOut_seq names _ _ _ (ExprOut_emit_plain names _ _ (by exact ⟨rfl, rfl⟩))
            (ExprOut_emit names _ _ (by rfl) hpr))))
  | callStmt name args =>
    rw [genStmt.eq_def] at h
    rw [except_bind_ok] at h
    obtain ⟨st1, h1, h⟩ := h
    cases h
    have hname := hsub name (by simp [stmtCalls.eq_def])
    have e1 := genArgsRev_lines names args st st1
      (fun t ht => hsub t
        (by simp only [stmtCalls.eq_def]; exact List.mem_cons_of_mem _ ht)) h1
    refine StmtOut_of_ExprOut names _ _ (ExprOut_seq names _ _ _ (ExprOut_seq names _ _ _
      e1 (popArgs_exprOut names st1 args.length)) ?_)
    refine ExprOut_emit names _ _ (call_line_classified name hname.2).1 ?_
    intro t ht
    rw [callOf_call] at ht
    injection ht with ht
    subst ht
    exact hname.1

/-- Block version of `genStmt_lines`. -/
theorem genBlock_lines (names : List String) (l : List Stmt) (st st' : CGState)
    (hpn : "print_number" ∈ names)
    (hsub : ∀ t ∈ blockCalls l, t ∈ names ∧ validName t)
    (h : genBlock st l = .ok st') : StmtOut names st st' := by
  cases l with
  | nil =>
    rw [genBlock.eq_def] at h
    cases h
    exact StmtOut_refl names st
  | cons s rest =>
    rw [genBlock.eq_def] at h
    rw [except_bind_ok] at h
    obtain ⟨st1, h1, h2⟩ := h
    refine StmtOut_seq names st st1 st' ?_ ?_
    · exact genStmt_lines names s st st1 hpn
        (fun t ht => hsub t (by rw [blockCalls_cons]; exact List.mem_append.mpr (Or.inl ht))) h1
    · exact genBlock_lines names rest st1 st' hpn
        (fun t ht => hsub t (by rw [blockCalls_cons]; exact List.mem_append.mpr (Or.inr ht))) h2

end

/-- The parameter spill loop only emits plain store lines. -/
theorem storeParams_exprOut (names : List String) :
    ∀ (ps : List String) (i : Nat) (st : CGState),
    ExprOut names st (storeParams st i ps) := by
  intro ps
  induction ps with
  | nil =>
    intro i st
    rw [storeParams]
    exact ExprOut_refl names st
  | cons p rest ih =>
    intro i st
    rw [storeParams]
    by_cases hi : i < paramRegisters.length
    · rw [if_pos hi]
      dsimp only [allocate_local]
      refine ExprOut_seq names st _ _ ?_ (ih (i + 1) _)
      refine ExprOut_seq names st _ _ (ExprOut_of_eq names st _ rfl rfl) ?_
      exact ExprOut_emit_plain names _ _ (plain_param_store _ i hi)
    · rw [if_neg hi]
      exact ih (i + 1) st

/-- `generate_function` emits the function's label followed by
counter-stamped control-flow labels, and calls only names from `names`. -/
theorem genFunction_lines (names : List String) (f : Func) (st st' : CGState)
    (hpn : "print_number" ∈ names)
    (hname : validName f.name)
    (hsub : ∀ t ∈ blockCalls f.body, t ∈ names ∧ validName t)
    (h : genFunction st f = .ok st') :
    st.labelCounter ≤ st'.labelCounter ∧
    ∃ Δ LB, st'.output = st.output ++ Δ ∧
      asmLabels Δ = f.name :: LB ∧
      LabelsCtr st.labelCounter st'.labelCounter LB ∧
      ∀ l ∈ Δ, ∀ t, callOf l = some t → t ∈ names := by
  rw [genFunction] at h
  rw [except_bind_ok] at h
  obtain ⟨stB, hB, h⟩ := h
  cases h
  obtain ⟨hcS, ΔS, hoS, hlS⟩ := storeParams_exprOut names f.params 0
    (emit (emit (emit (emit (emit (resetState st f) "") (f.name ++ ":"))
      "    push rbp") "    mov rbp, rsp") "    sub rsp, 256")
  obtain ⟨hcB, ΔB, hoB, hLB, hCB⟩ := genBlock_lines names f.body _ stB hpn hsub hB
  rw [hcS] at hcB hLB
  simp only [emit_labelCounter, resetState] at hcB hLB
  simp only [resetState] at hoS
  refine ⟨?_, "" :: (f.name ++ ":") :: "    push rbp" :: "    mov rbp, rsp" ::
      "    sub rsp, 256" :: (ΔS ++ (ΔB ++ ["    mov rsp, rbp", "    pop rbp", "    ret"])),
    asmLabels ΔB, ?_, ?_, ?_, ?_⟩
  · simp only [emit_labelCounter]
    omega
  · simp only [emit_output, hoB, hoS, resetState, List.append_assoc, List.cons_append,
      List.singleton_append, List.nil_append]
  · rw [asmLabels_cons_none _ _ (by rfl)]
    rw [asmLabels_cons_some _ _ _ (labelOf_name_colon f.name)]
    rw [asmLabels_cons_none _ _ (by rfl)]
    rw [asmLabels_cons_none _ _ (by rfl)]
    rw [asmLabels_cons_none _ _ (by rfl)]
    rw [asmLabels_append]
    rw [asmLabels_eq_nil ΔS (fun l hl => (hlS l hl).1)]
    rw [asmLabels_append]
    rw [asmLabels_cons_none _ _ (by rfl)]
    rw [asmLabels_cons_none _ _ (by rfl)]
    rw [asmLabels_cons_none _ _ (by rfl)]
    rw [show asmLabels ([] : List String) = [] from rfl]
    simp
  · simp only [emit_labelCounter]
    exact hLB
  · intro l hl t ht
    rcases List.mem_cons.mp hl with rfl | hl
    · rw [show callOf "" = none from rfl] at ht; cases ht
    · rcases List.mem_cons.mp hl with rfl | hl
      · obtain ⟨ch, hch, hcs⟩ := validName_head f.name hname
        rw [(label_line_classified_head _ _ hch hcs).2] at ht
        cases ht
      · rcases List.mem_cons.mp hl with rfl | hl
        · rw [show callOf "    push rbp" = none from rfl] at ht; cases ht
        · rcases List.mem_cons.mp hl with rfl | hl
          · rw [show callOf "    mov rbp, rsp" = none from rfl] at ht; cases ht
          · rcases List.mem_cons.mp hl with rfl | hl
            · rw [show callOf "    sub rsp, 256" = none from rfl] at ht; cases ht
            · rcases List.mem_append.mp hl with hl | hl
              · exact (hlS l hl).2 t ht
              · rcases List.mem_append.mp hl with hl | hl
                · exact hCB l hl t ht
                · rcases List.mem_cons.mp hl with rfl | hl
                  · rw [show callOf "    mov rsp, rbp" = none from rfl] at ht
                    cases ht
                  · rcases List.mem_cons.mp hl with rfl | hl
                    · rw [show callOf "    pop rbp" = none from rfl] at ht
                      cases ht
                    · rw [List.mem_singleton] at hl
                      subst hl
                      rw [show callOf "    ret" = none from rfl] at ht
                      cases ht

/-- The function loop of `generate`: with distinct, label-safe function
names, labels stay pairwise distinct and calls stay within `names`. -/
theorem genFunctions_lines (names : List String) :
    ∀ (fs : List Func) (st st' : CGState),
    "print_number" ∈ names →
    (∀ f ∈ fs, validName f.name ∧ reservedConflict f.name = false ∧
      ∀ t ∈ blockCalls f.body, t ∈ names ∧ validName t) →
    (fs.map Func.name).Nodup →
    genFunctions st fs = .ok st' →
    st.labelCounter ≤ st'.labelCounter ∧
    ∃ Δ, st'.output = st.output ++ Δ ∧
      (asmLabels Δ).Nodup ∧
      (∀ x ∈ asmLabels Δ, x ∈ fs.map Func.name ∨
        ∃ p n, p ∈ labelPres ∧ st.labelCounter ≤ n ∧ n < st'.labelCounter ∧
          x = p ++ Nat.repr n) ∧
      (∀ l ∈ Δ, ∀ t, callOf l = some t → t ∈ names) := by
  intro fs
  induction fs with
  | nil =>
    intro st st' hpn hfs hnd h
    rw [genFunctions] at h
    cases h
    refine ⟨Nat.le_refl _, [], by simp, by simp [asmLabels], ?_, by simp⟩
    intro x hx
    simp [asmLabels] at hx
  | cons f rest ih =>
    intro st st' hpn hfs hnd h
    rw [List.map_cons] at hnd
    rw [genFunctions] at h
    rw [except_bind_ok] at h
    obtain ⟨st1, h1, h2⟩ := h
    obtain ⟨hv, hrc, hcalls⟩ := hfs f (List.mem_cons_self _ _)
    obtain ⟨hc1, Δ1, LB1, ho1, hl1, hW1, hC1⟩ :=
      genFunction_lines names f st st1 hpn hv hcalls h1
    obtain ⟨hc2, Δ2, ho2, hnd2, hmem2, hC2⟩ := ih st1 st' hpn
      (fun g hg => hfs g (List.mem_cons_of_mem _ hg)) (List.Nodup.of_cons hnd) h2
    refine ⟨hc1.trans hc2, Δ1 ++ Δ2, by rw [ho2, ho1, List.append_assoc], ?_, ?_, ?_⟩
    · rw [asmLabels_append, hl1, List.cons_append, List.nodup_cons]
      constructor
      · intro hmem
        rcases List.mem_append.mp hmem with hm | hm
        · obtain ⟨p, n, hp, _, _, he⟩ := hW1.2 _ hm
          exact name_ne_genLabel f.name hrc p hp n he
        · rcases hmem2 _ hm with hm2 | ⟨p, n, hp, _, _, he⟩
          · exact (List.nodup_cons.mp hnd).1 hm2
          · exact name_ne_genLabel f.name hrc p hp n he
      · rw [List.nodup_append]
        refine ⟨hW1.1, hnd2, ?_⟩
        intro x hx hx2
        obtain ⟨p, n, hp, hn0, hn1, he⟩ := hW1.2 _ hx
        rcases hmem2 _ hx2 with hm2 | ⟨q, m, hq, hm0, hm1, he2⟩
        · obtain ⟨g, hg, hgname⟩ := List.mem_map.mp hm2
          have hrcg := (hfs g (List.mem_cons_of_mem _ hg)).2.1
          exact name_ne_genLabel g.name hrcg p hp n (by rw [hgname, ← he])
        · rw [he] at he2
          obtain ⟨_, hnm⟩ := labelStr_inj p q hp hq n m he2
          omega
    · intro x hx
      rw [asmLabels_append, hl1] at hx
      rcases List.mem_append.mp hx with hx | hx
      · rcases List.mem_cons.mp hx with rfl | hx
        · exact Or.inl (by simp)
        · obtain ⟨p, n, hp, hn0, hn1, he⟩ := hW1.2 _ hx
          exact Or.inr ⟨p, n, hp, hn0, by omega, he⟩
      · rcases hmem2 _ hx with hm | ⟨p, n, hp, hn0, hn1, he⟩
        · exact Or.inl (by simp [hm])
        · exact Or.inr ⟨p, n, hp, by omega, hn1, he⟩
    · intro l hl t ht
      rcases List.mem_append.mp hl with hl | hl
      · exact hC1 l hl t ht
      · exact hC2 l hl t ht

theorem asmCalls_append (d1 d2 : List String) :
    asmCalls (d1 ++ d2) = asmCalls d1 ++ asmCalls d2 := by
  simp [asmCalls]

/-- C2 (amended): the claim as stated is false (see `c2_counterexample`);
it holds under the side conditions that the program defines `رئيسية` and
that every function name is a plausible identifier that is distinct from
`_start` and `print_number` and does not start with one of the generated
label prefixes. Then in the generated listing every label is defined
exactly once, and every `call` targets an emitted user function or
`print_number` — including the `_start` trampoline's call. -/
theorem c2_labels_calls (p : Program) (funcs : FuncTable) (g : Frame)
    (ha : analyze p = .ok (funcs, g))
    (hmain : "رئيسية" ∈ p.functions.map Func.name)
    (hres : ∀ f ∈ p.functions, validName f.name ∧ reservedConflict f.name = false)
    (out : List String) (hgen : generateLines p = .ok out) :
    (asmLabels out).Nodup ∧
    ∀ t ∈ asmCalls out, t ∈ p.functions.map Func.name ∨ t = "print_number" := by
  rw [analyze] at ha
  rw [except_bind_ok] at ha
  obtain ⟨funcs0, hcf, ha⟩ := ha
  rw [except_bind_ok] at ha
  obtain ⟨g0, haf, ha⟩ := ha
  rw [pure_ok] at ha
  injection ha with ha1 ha2
  have hkeys : funcs0.map Prod.fst = p.functions.map Func.name := by
    have := collectFunctions_keys p.functions [] funcs0 hcf
    simpa using this
  have hnd : (p.functions.map Func.name).Nodup := by
    have := collectFunctions_nodup p.functions [] funcs0 hcf (by simp)
    rwa [hkeys] at this
  have hcallnames : ∀ f ∈ p.functions, ∀ t ∈ blockCalls f.body,
      t ∈ p.functions.map Func.name := by
    intro f hf t htc
    have := analyzeFunctions_calls funcs0 p.functions [] g0 haf f hf t htc
    rw [lookup_isSome_iff_mem, hkeys] at this
    exact this
  have hvalidOf : ∀ t ∈ p.functions.map Func.name, validName t := by
    intro t htm
    obtain ⟨gf, hgf, hgn⟩ := List.mem_map.mp htm
    rw [← hgn]
    exact (hres gf hgf).1
  rw [generateLines] at hgen
  rw [except_bind_ok] at hgen
  obtain ⟨st1, hg1, hgen⟩ := hgen
  cases hgen
  obtain ⟨hc, Δ, hoΔ, hndΔ, hmemΔ, hCΔ⟩ := genFunctions_lines
    ("print_number" :: p.functions.map Func.name) p.functions _ st1
    (List.mem_cons_self _ _)
    (fun f hf => ⟨(hres f hf).1, (hres f hf).2, fun t htc =>
      ⟨List.mem_cons_of_mem _ (hcallnames f hf t htc),
       hvalidOf t (hcallnames f hf t htc)⟩⟩)
    hnd hg1
  have hout : (emit (emit (emit (emit (emit (emit st1 "") "_start:")
      "    call رئيسية") "    mov rdi, rax") "    mov rax, 60") "    syscall").output =
      ([".intel_syntax noprefix", "", ".section .data", "fmt_int: .asciz \"%d\\n\"",
        ".section .text", ".global _start"] : List String) ++
      (Δ ++ ["", "_start:", "    call رئيسية", "    mov rdi, rax", "    mov rax, 60",
        "    syscall"]) := by
    simp only [emit_output, hoΔ, cgInit, List.append_assoc, List.cons_append,
      List.singleton_append, List.nil_append]
  constructor
  · rw [hout, asmLabels_append, asmLabels_append]
    rw [show asmLabels [".intel_syntax noprefix", "", ".section .data",
      "fmt_int: .asciz \"%d\\n\"", ".section .text", ".global _start"] = [] from rfl]
    rw [show asmLabels ["", "_start:", "    call رئيسية", "    mov rdi, rax",
      "    mov rax, 60", "    syscall"] = ["_start"] from rfl]
    rw [List.nil_append, List.nodup_append]
    refine ⟨hndΔ, by simp, ?_⟩
    intro x hx hx2
    rw [List.mem_singleton] at hx2
    subst hx2
    rcases hmemΔ _ hx with hm | ⟨p0, n, hp0, _, _, he⟩
    · obtain ⟨gf, hgf, hgn⟩ := List.mem_map.mp hm
      have hrc := (hres gf hgf).2
      rw [reservedConflict] at hrc
      simp only [Bool.or_eq_false_iff] at hrc
      have hne : gf.name ≠ "_start" := by
        intro hq
        rw [hq] at hrc
        simp at hrc
      exact hne hgn
    · exact start_ne_genLabel p0 hp0 n he
  · intro t ht
    rw [hout, asmCalls_append, asmCalls_append] at ht
    rw [show asmCalls [".intel_syntax noprefix", "", ".section .data",
      "fmt_int: .asciz \"%d\\n\"", ".section .text", ".global _start"] = [] from rfl] at ht
    rw [show asmCalls ["", "_start:", "    call رئيسية", "    mov rdi, rax",
      "    mov rax, 60", "    syscall"] = ["رئيسية"] from rfl] at ht
    rw [List.nil_append] at ht
    rcases List.mem_append.mp ht with ht | ht
    · rw [show asmCalls Δ = Δ.filterMap callOf from rfl] at ht
      obtain ⟨l, hlΔ, hcl⟩ := List.mem_filterMap.mp ht
      have hres2 := hCΔ l hlΔ t hcl
      rcases List.mem_cons.mp hres2 with rfl | hmem
      · exact Or.inr rfl
      · exact Or.inl hmem
    · rw [List.mem_singleton] at ht
      subst ht
      exact Or.inl hmain

/-- A program whose single function is named `_start`: it analyzes
cleanly but its label collides with the generator's entry trampoline,
and nothing defines the trampoline's call target `رئيسية`. -/
def c2Prog : Program := ⟨[⟨"_start", [], []⟩]⟩

/-- C2 counterexample: the original claim fails — `c2Prog` passes
semantic analysis, yet the generated listing defines the `_start` label
twice, and the `call رئيسية` emitted by the trampoline targets neither
an emitted user function nor `print_number`. -/
theorem c2_counterexample :
    analyze c2Prog = .ok ([("_start", ⟨"_start", [], []⟩)], []) ∧
    ∃ out, generateLines c2Prog = .ok out ∧
      ¬ (asmLabels out).Nodup ∧
      ∃ t ∈ asmCalls out,
        ¬ (t ∈ c2Prog.functions.map Func.name ∨ t = "print_number") := by
  refine ⟨rfl, _, rfl, by decide, "رئيسية", by decide, by decide⟩

def c2WFunc : Func := ⟨"رئيسية", [], [.ret (.number 0)]⟩

def c2WProg : Program := ⟨[c2WFunc]⟩

theorem c2_labels_calls_witness :
    ∃ out, generateLines c2WProg = .ok out ∧ (asmLabels out).Nodup ∧
      ∀ t ∈ asmCalls out, t ∈ c2WProg.functions.map Func.name ∨ t = "print_number" := by
  obtain ⟨h1, h2⟩ := c2_labels_calls c2WProg [("رئيسية", c2WFunc)] [] rfl
    (by decide)
    (by
      intro f hf
      simp only [c2WProg, List.mem_singleton] at hf
      subst hf
      exact ⟨⟨by decide, by decide⟩, by decide⟩)
    _ rfl
  exact ⟨_, rfl, h1, h2⟩

end ArabicCompiler
